import Mathlib

/-!
# Copy-on-write user virtual memory (`os/vm.c`): a shallow embedding

The kernel state that `vm.c` reads and writes is made explicit:

* physical memory is a map from the address of a 64-bit word to its value;
  a page-table pointer is kept as the physical address of the page it points
  to (in the source `PA_TO_KVA` adds a fixed offset and `KVA_TO_PA` removes
  it, so the two cancel wherever a table is dereferenced);
* the page allocator is the list of its free frames;
* the reference-count table `refcnt` is a map from frame index to count;
* a `struct mm` is its root table, its VMA list (head first) and its
  `refcnt` field; a `struct vma` carries the address of the object (`id`),
  used only where the source compares VMA pointers.

`assert` and `panic` stop the kernel: a function that can reach one returns
an `Option`, with `none` for the stop.  The `assert(holding(...))` lines
are about the lock discipline of the callers and are not modelled: every
function is read with the locks held.
-/

namespace Os3

/-! ## Constants and macros of the headers -/

/-- Modelled from the spec: `PGSIZE` of `riscv.h` (a header that is not among
the sources); a frame is a page-aligned 4 KiB region. -/
def PGSIZE : Nat := 4096

/-- Modelled from the spec: the Valid bit of an Sv39 page-table entry. -/
def PTE_V : Nat := 1

/-- Modelled from the spec: the Readable bit of an Sv39 entry. -/
def PTE_R : Nat := 2

/-- Modelled from the spec: the Writable bit of an Sv39 entry. -/
def PTE_W : Nat := 4

/-- Modelled from the spec: the Executable bit of an Sv39 entry. -/
def PTE_X : Nat := 8

/-- Modelled from the spec: the User bit of an Sv39 entry. -/
def PTE_U : Nat := 16

/-- Modelled from the spec: the Accessed bit of an Sv39 entry. -/
def PTE_A : Nat := 64

/-- Modelled from the spec: the Dirty bit of an Sv39 entry. -/
def PTE_D : Nat := 128

/-- Modelled from the spec: `PTE_RWX`, the three permission bits together. -/
def PTE_RWX : Nat := 14

/-- Modelled from the spec: the two software-reserved bits of an Sv39 entry
(bits 8 and 9); the spec takes one of them as the COW mark. -/
def PTE_RSW : Nat := 768

/-- Modelled from the spec: the number of values of a `uint64`. -/
def U64 : Nat := 2 ^ 64

/-- Modelled from the spec: `PGALIGNED` of `riscv.h`, the low 12 bits are
zero. -/
def PGALIGNED (a : Nat) : Prop := a % PGSIZE = 0

instance (a : Nat) : Decidable (PGALIGNED a) :=
  inferInstanceAs (Decidable (a % PGSIZE = 0))

/-- Modelled from the spec: `PGROUNDDOWN` of `riscv.h`. -/
def PGROUNDDOWN (a : Nat) : Nat := a / PGSIZE * PGSIZE

/-- Modelled from the spec: `PA2PTE` of `riscv.h`, `(pa >> 12) << 10` on a
`uint64`. -/
def PA2PTE (pa : Nat) : Nat := ((pa >>> 12) <<< 10) % U64

/-- Modelled from the spec: `PTE2PA` of `riscv.h`, `(pte >> 10) << 12` on a
`uint64`. -/
def PTE2PA (pte : Nat) : Nat := ((pte >>> 10) <<< 12) % U64

/-- Modelled from the spec: `PX(level, va)` of `riscv.h`, the 9-bit index of
`va` at a level of the three-level table. -/
def PX (level va : Nat) : Nat := (va >>> (12 + 9 * level)) &&& 511

/-- Modelled from the spec: `USER_TOP`, the top of the user half of the
39-bit address space (`MAXVA` of `riscv.h`). -/
def USER_TOP : Nat := 2 ^ 38

/-- Modelled from the spec: `IS_USER_VA` of `vm.h`; the trampoline and the
trapframe, which `mm_create` maps through `mm_mappageat`, are user VAs. -/
def IS_USER_VA (va : Nat) : Prop := va ≤ USER_TOP

instance (va : Nat) : Decidable (IS_USER_VA va) :=
  inferInstanceAs (Decidable (va ≤ USER_TOP))

/-- Modelled from the spec: `TRAMPOLINE`, the fixed high VA of the trampoline
page. -/
def TRAMPOLINE : Nat := USER_TOP - PGSIZE

/-- Modelled from the spec: `TRAPFRAME`, the page immediately below the
trampoline. -/
def TRAPFRAME : Nat := TRAMPOLINE - PGSIZE

/-- Modelled from the spec: `RISCV_DDR_BASE`, the base physical address of
DRAM. -/
def RISCV_DDR_BASE : Nat := 0x80000000

/-- Modelled from the spec: `PHYS_MEM_SIZE`, the size of DRAM (128 MiB). -/
def PHYS_MEM_SIZE : Nat := 0x8000000

/-- Modelled from the spec: `VALID_PHYS_ADDR`, the range named by the hint in
`page_refcnt_increase`: `[RISCV_DDR_BASE, RISCV_DDR_BASE + PHYS_MEM_SIZE)`. -/
def VALID_PHYS_ADDR (pa : Nat) : Prop :=
  RISCV_DDR_BASE ≤ pa ∧ pa < RISCV_DDR_BASE + PHYS_MEM_SIZE

instance (pa : Nat) : Decidable (VALID_PHYS_ADDR pa) :=
  inferInstanceAs (Decidable (RISCV_DDR_BASE ≤ pa ∧ pa < RISCV_DDR_BASE + PHYS_MEM_SIZE))

/-- The macro `NR_OF_PAGES` of `vm.c`: `PHYS_MEM_SIZE / PGSIZE`. -/
def NR_OF_PAGES : Nat := PHYS_MEM_SIZE / PGSIZE

/-- Modelled from the spec: `EINVAL` of the error header. -/
def EINVAL : Int := 22

/-- Modelled from the spec: `ENOMEM` of the error header. -/
def ENOMEM : Int := 12

/-! ## State -/

/-- The kernel state that `vm.c` works on. -/
structure Kernel where
  /-- physical memory: the 64-bit word at an address -/
  mem : Nat → Nat
  /-- the page allocator: its free frames, the next one to hand out first -/
  freelist : List Nat
  /-- the array `refcnt[NR_OF_PAGES]` of `vm.c` -/
  refcnt : Nat → Int
  /-- the object allocator of `struct vma`: the address of the next object -/
  nextobj : Nat

/-- A `struct vma`; `id` is the address of the object. -/
structure Vma where
  id : Nat
  vm_start : Nat
  vm_end : Nat
  pte_flags : Nat
  deriving DecidableEq, Repr

/-- A `struct mm`: root page table, VMA list from its head, `refcnt`. -/
structure Mm where
  pgt : Nat
  vma : List Vma
  refcnt : Nat
  deriving DecidableEq, Repr

/-- The store `*p = v` of a 64-bit word. -/
def Kernel.store (k : Kernel) (p v : Nat) : Kernel :=
  { k with mem := fun a => if a = p then v else k.mem a }

/-- The call `memset(dst, 0, n)`: every word of `[dst, dst + n)` is zero. -/
def memset0 (k : Kernel) (dst n : Nat) : Kernel :=
  { k with mem := fun a => if dst ≤ a ∧ a < dst + n then 0 else k.mem a }

/-- The call `memmove(dst, src, n)`: the words of `[src, src + n)` as they
were before the call are copied to `[dst, dst + n)`. -/
def memmove (k : Kernel) (dst src n : Nat) : Kernel :=
  { k with mem := fun a => if dst ≤ a ∧ a < dst + n then k.mem (src + (a - dst)) else k.mem a }

/-- Modelled from the spec: `kallocpage` of the page allocator (`kalloc.h`,
not among the sources): `alloc_page() -> pa | null`.  It hands out the first
free frame, or `NULL` (0) when there is none; the frame is not zeroed. -/
def kallocpage (k : Kernel) : Nat × Kernel :=
  match k.freelist with
  | [] => (0, k)
  | pa :: rest => (pa, { k with freelist := rest })

/-- Modelled from the spec: `kfreepage` of the page allocator (`kalloc.h`, not
among the sources): `free_page(pa)` returns the frame to the allocator. -/
def kfreepage (k : Kernel) (pa : Nat) : Kernel :=
  { k with freelist := pa :: k.freelist }

/-- Modelled from the spec: `freepages_count` of the page allocator, the
number the test syscall `KTEST_GET_NRFREEPGS` returns. -/
def freepages_count (k : Kernel) : Nat := k.freelist.length

/-- The number of iterations of `for (va = s; va < e; va += PGSIZE)`.  Every
such loop of `vm.c` runs on bounds that were asserted page-aligned, so
`va += PGSIZE` does not wrap. -/
def npages (s e : Nat) : Nat := (e - s + (PGSIZE - 1)) / PGSIZE

/-! ## Reference counting (`page_refcnt_increase`, `uvm_init`) -/

/-- `page_refcnt_increase` of `vm.c`: the two assertions on `pa`, the index
left at 0 by the unfinished body, the assertion on the index, `return 0`. -/
def page_refcnt_increase (k : Kernel) (pa : Nat) : Option (Kernel × Int) :=
  if ¬ PGALIGNED pa then none
  else if ¬ VALID_PHYS_ADDR pa then none
  else
    let idx : Nat := 0
    if ¬ idx < NR_OF_PAGES then none
    else some (k, 0)

/-- `page_refcnt_decrease` of `vm.c`: same shape as the increase. -/
def page_refcnt_decrease (k : Kernel) (pa : Nat) : Option (Kernel × Int) :=
  if ¬ PGALIGNED pa then none
  else if ¬ VALID_PHYS_ADDR pa then none
  else
    let idx : Nat := 0
    if ¬ idx < NR_OF_PAGES then none
    else some (k, 0)

/-- `uvm_init` of `vm.c`: clears the reference-count table and initialises
the object allocators. -/
def uvm_init (k : Kernel) : Kernel :=
  { k with refcnt := fun _ => 0, nextobj := 1 }

/-! ## Page-table walk -/

/-- The loop `for (level = 2; level > 0; level--)` of `walk`, followed by its
`return &pagetable[PX(0, va)]`. The result is the state and the entry
address, `none` for `NULL`. -/
def walkLevel (va : Nat) (alloc : Bool) : Nat → Kernel → Nat → Kernel × Option Nat
  | 0, k, pagetable => (k, some (pagetable + 8 * PX 0 va))
  | level + 1, k, pagetable =>
    let pte := pagetable + 8 * PX (level + 1) va
    if k.mem pte &&& PTE_V ≠ 0 then
      walkLevel va alloc level k (PTE2PA (k.mem pte))
    else if alloc = false then (k, none)
    else
      match kallocpage k with
      | (pa, k1) =>
        if pa = 0 then (k1, none)
        else
          let k2 := memset0 k1 pa PGSIZE
          let k3 := k2.store pte (PA2PTE pa ||| PTE_V)
          walkLevel va alloc level k3 pa

/-- `walk` of `vm.c`. -/
def walk (k : Kernel) (mm : Mm) (va : Nat) (alloc : Bool) : Kernel × Option Nat :=
  if ¬ IS_USER_VA va then (k, none)
  else walkLevel va alloc 2 k mm.pgt

/-- `walkaddr` of `vm.c`; `none` is the failed alignment assertion. -/
def walkaddr (k : Kernel) (mm : Mm) (va : Nat) : Option Nat :=
  if ¬ IS_USER_VA va then some 0
  else if ¬ PGALIGNED va then none
  else
    match walk k mm va false with
    | (_, none) => some 0
    | (k1, some pte) =>
      if k1.mem pte &&& PTE_V = 0 then some 0
      else if k1.mem pte &&& PTE_U = 0 then some 0
      else some (PTE2PA (k1.mem pte))

/-- `useraddr` of `vm.c`. -/
def useraddr (k : Kernel) (mm : Mm) (va : Nat) : Option Nat :=
  match walkaddr k mm (PGROUNDDOWN va) with
  | none => none
  | some page => if page = 0 then some 0 else some (page ||| (va &&& 0xFFF))

/-! ## VMAs -/

/-- `mm_create_vma` of `vm.c`: a zeroed object from the VMA allocator. -/
def mm_create_vma (k : Kernel) : Vma × Kernel :=
  ({ id := k.nextobj, vm_start := 0, vm_end := 0, pte_flags := 0 },
   { k with nextobj := k.nextobj + 1 })

/-- The loop of `freevma`. -/
def freevmaLoop (mm : Mm) (free_phy_page : Bool) : Nat → Nat → Kernel → Kernel
  | 0, _, k => k
  | n + 1, va, k =>
    match walk k mm va false with
    | (k1, some pte) =>
      if k1.mem pte &&& PTE_V ≠ 0 then
        let k2 := if free_phy_page then kfreepage k1 (PTE2PA (k1.mem pte)) else k1
        freevmaLoop mm free_phy_page n (va + PGSIZE) (k2.store pte 0)
      else freevmaLoop mm free_phy_page n (va + PGSIZE) k1
    | (k1, none) => freevmaLoop mm free_phy_page n (va + PGSIZE) k1

/-- `freevma` of `vm.c`; `mm` is `vma->owner`. -/
def freevma (k : Kernel) (mm : Mm) (vma : Vma) (free_phy_page : Bool) : Option Kernel :=
  if ¬ (PGALIGNED vma.vm_start ∧ PGALIGNED vma.vm_end) then none
  else some (freevmaLoop mm free_phy_page (npages vma.vm_start vma.vm_end) vma.vm_start k)

/-- The loop of `mm_free_vmas` over the VMA list. -/
def freeVmaList (mm : Mm) : List Vma → Kernel → Option Kernel
  | [], k => some k
  | vma :: next, k =>
    match freevma k mm vma true with
    | none => none
    | some k1 => freeVmaList mm next k1

/-- `mm_free_vmas` of `vm.c`. -/
def mm_free_vmas (k : Kernel) (mm : Mm) : Option (Kernel × Mm) :=
  match freeVmaList mm mm.vma k with
  | none => none
  | some k1 => some (k1, { mm with vma := [] })

/-- The loop `for (i = 0; i < 512; i++)` of `freepgt`; `recur` is the
recursive call. -/
def freepgtLoop (recur : Nat → Kernel → Option Kernel) (pgt : Nat) :
    Nat → Nat → Kernel → Option Kernel
  | 0, _, k => some k
  | n + 1, i, k =>
    if k.mem (pgt + 8 * i) &&& PTE_V ≠ 0 ∧ k.mem (pgt + 8 * i) &&& PTE_RWX = 0 then
      match recur (PTE2PA (k.mem (pgt + 8 * i))) k with
      | none => none
      | some k1 => freepgtLoop recur pgt n (i + 1) (k1.store (pgt + 8 * i) 0)
    else freepgtLoop recur pgt n (i + 1) k

/-- `freepgt` of `vm.c`. The first argument bounds the depth of the
recursion; `none` is a recursion deeper than that. -/
def freepgt : Nat → Nat → Kernel → Option Kernel
  | 0, _, _ => none
  | fuel + 1, pgt, k =>
    match freepgtLoop (freepgt fuel) pgt 512 0 k with
    | none => none
    | some k1 => some (kfreepage k1 pgt)

/-- `mm_free` of `vm.c`. -/
def mm_free (fuel : Nat) (k : Kernel) (mm : Mm) : Option Kernel :=
  if ¬ (mm.refcnt > 0) then none
  else
    match mm_free_vmas k mm with
    | none => none
    | some (k1, mm1) => freepgt fuel mm1.pgt k1

/-- The loop of `vma_check_overlap` over the VMA list. -/
def overlapLoop (start end_ : Nat) (exclude : Option Nat) : List Vma → Int
  | [] => 0
  | vma :: next =>
    if some vma.id ≠ exclude ∧
        ((start < vma.vm_end ∧ start ≥ vma.vm_start) ∨
         (end_ > vma.vm_start ∧ end_ ≤ vma.vm_end)) then -1
    else overlapLoop start end_ exclude next

/-- `vma_check_overlap` of `vm.c`; `exclude` is the address of the excluded
VMA, `none` for `NULL`. -/
def vma_check_overlap (mm : Mm) (start end_ : Nat) (exclude : Option Nat) : Int :=
  if start = end_ then 0 else overlapLoop start end_ exclude mm.vma

/-! ## Mapping -/

/-- The loop of `mm_mappages`: state and `ret` (0 when the loop ran to its
end). -/
def mappagesLoop (mm : Mm) (flags : Nat) : Nat → Nat → Kernel → Kernel × Int
  | 0, _, k => (k, 0)
  | n + 1, va, k =>
    match walk k mm va true with
    | (k1, none) => (k1, -ENOMEM)
    | (k1, some pte) =>
      if k1.mem pte &&& PTE_V ≠ 0 then (k1, -EINVAL)
      else
        match kallocpage k1 with
        | (pa, k2) =>
          if pa = 0 then (k2, -ENOMEM)
          else mappagesLoop mm flags n (va + PGSIZE) (k2.store pte (PA2PTE pa ||| flags ||| PTE_V))

/-- `mm_mappages` of `vm.c`; `mm` is `vma->owner`. The result is the state,
the owner and the return value. -/
def mm_mappages (k : Kernel) (mm : Mm) (vma : Vma) : Option (Kernel × Mm × Int) :=
  if ¬ IS_USER_VA vma.vm_start ∨ ¬ IS_USER_VA vma.vm_end then none
  else if ¬ PGALIGNED vma.vm_start then none
  else if ¬ PGALIGNED vma.vm_end then none
  else if ¬ (vma.pte_flags &&& PTE_R ≠ 0 ∨ vma.pte_flags &&& PTE_W ≠ 0 ∨
      vma.pte_flags &&& PTE_X ≠ 0) then none
  else if vma_check_overlap mm vma.vm_start vma.vm_end (some vma.id) ≠ 0 then
    some (k, mm, -EINVAL)
  else
    match mappagesLoop mm vma.pte_flags (npages vma.vm_start vma.vm_end) vma.vm_start k with
    | (k1, ret) =>
      if ret = 0 then some (k1, { mm with vma := vma :: mm.vma }, 0)
      else
        match freevma k1 mm vma true with
        | none => none
        | some k2 => some (k2, mm, ret)

/-- The loop of `mm_mappages_cow`. -/
def cowLoop (mm oldmm : Mm) (flags : Nat) : Nat → Nat → Kernel → Kernel × Int
  | 0, _, k => (k, 0)
  | n + 1, va, k =>
    match walk k mm va true with
    | (k1, none) => (k1, -ENOMEM)
    | (k1, some pte) =>
      if k1.mem pte &&& PTE_V ≠ 0 then (k1, -EINVAL)
      else
        match walk k1 oldmm va false with
        | (k2, none) => (k2, -ENOMEM)
        | (k2, some oldpte) =>
          if k2.mem oldpte &&& PTE_V = 0 then (k2, -EINVAL)
          else
            let pa := PTE2PA (k2.mem oldpte)
            if pa = 0 then (k2, -ENOMEM)
            else cowLoop mm oldmm flags n (va + PGSIZE)
                  (k2.store pte (PA2PTE pa ||| flags ||| PTE_V))

/-- `mm_mappages_cow` of `vm.c`; `mm` is `vma->owner`, `oldmm` is
`oldvma->owner`. -/
def mm_mappages_cow (k : Kernel) (mm oldmm : Mm) (vma oldvma : Vma) :
    Option (Kernel × Mm × Int) :=
  if ¬ IS_USER_VA vma.vm_start ∨ ¬ IS_USER_VA vma.vm_end then none
  else if ¬ PGALIGNED vma.vm_start then none
  else if ¬ PGALIGNED vma.vm_end then none
  else if ¬ (vma.pte_flags &&& PTE_R ≠ 0 ∨ vma.pte_flags &&& PTE_W ≠ 0 ∨
      vma.pte_flags &&& PTE_X ≠ 0) then none
  else if ¬ (oldvma.vm_start = oldvma.vm_start ∧ oldvma.vm_end = oldvma.vm_end ∧
      oldvma.pte_flags = vma.pte_flags) then none
  else if vma_check_overlap mm vma.vm_start vma.vm_end (some vma.id) ≠ 0 then
    some (k, mm, -EINVAL)
  else
    match cowLoop mm oldmm vma.pte_flags (npages vma.vm_start vma.vm_end) vma.vm_start k with
    | (k1, ret) =>
      if ret = 0 then some (k1, { mm with vma := vma :: mm.vma }, 0)
      else
        match freevma k1 mm vma true with
        | none => none
        | some k2 => some (k2, mm, ret)

/-- The loop of `mm_remap`; `none` is the `panic` under the label `err`. -/
def remapLoop (mm : Mm) (start end_ pte_flags : Nat) : Nat → Nat → Kernel → Option Kernel
  | 0, _, k => some k
  | n + 1, va, k =>
    if va < start ∨ va ≥ end_ then remapLoop mm start end_ pte_flags n (va + PGSIZE) k
    else
      match walk k mm va true with
      | (_, none) => none
      | (k1, some pte) =>
        if k1.mem pte &&& PTE_V ≠ 0 then
          let pte_woflags := k1.mem pte &&& (U64 - 1 - PTE_RWX)
          remapLoop mm start end_ pte_flags n (va + PGSIZE)
            (k1.store pte (pte_woflags ||| pte_flags))
        else
          match kallocpage k1 with
          | (pa, k2) =>
            if pa = 0 then none
            else remapLoop mm start end_ pte_flags n (va + PGSIZE)
                  (k2.store pte (PA2PTE pa ||| pte_flags ||| PTE_V))

/-- `mm_remap` of `vm.c`; `mm` is `vma->owner` and the VMA is given by its
place `i` in the owner's list. -/
def mm_remap (k : Kernel) (mm : Mm) (i : Nat) (start end_ pte_flags : Nat) :
    Option (Kernel × Mm × Int) :=
  match mm.vma.get? i with
  | none => none
  | some vma =>
    if ¬ PGALIGNED start then none
    else if ¬ PGALIGNED end_ then none
    else if ¬ (pte_flags &&& PTE_R ≠ 0 ∨ pte_flags &&& PTE_W ≠ 0 ∨ pte_flags &&& PTE_X ≠ 0) then
      none
    else if start ≠ vma.vm_start ∨ end_ < vma.vm_end ∨ pte_flags ≠ vma.pte_flags then none
    else if vma_check_overlap mm start end_ (some vma.id) ≠ 0 then some (k, mm, -EINVAL)
    else
      let iterstart := min start vma.vm_start
      let iterend := max end_ vma.vm_end
      match remapLoop mm start end_ pte_flags (npages iterstart iterend) iterstart k with
      | none => none
      | some k1 =>
        let vma1 : Vma := { vma with vm_start := start, vm_end := end_, pte_flags := pte_flags }
        some (k1, { mm with vma := mm.vma.set i vma1 }, 0)

/-- `mm_mappageat` of `vm.c`. -/
def mm_mappageat (k : Kernel) (mm : Mm) (va pa flags : Nat) : Option (Kernel × Int) :=
  if ¬ IS_USER_VA va then none
  else if vma_check_overlap mm va ((va + PGSIZE) % U64) none ≠ 0 then some (k, -EINVAL)
  else
    match walk k mm va true with
    | (k1, none) => some (k1, -EINVAL)
    | (k1, some pte) =>
      if k1.mem pte &&& PTE_V ≠ 0 then some (k1, -EINVAL)
      else some (k1.store pte (PA2PTE pa ||| flags ||| PTE_V), 0)

/-- `mm_create` of `vm.c`; `tf` is the physical address of the trapframe and
`trampoline` that of the trampoline page. The result is the state and the
new address space, `none` for `NULL`. -/
def mm_create (k : Kernel) (tf trampoline : Nat) : Option (Kernel × Option Mm) :=
  let mm : Mm := { pgt := 0, vma := [], refcnt := 1 }
  match kallocpage k with
  | (pa, k1) =>
    if pa = 0 then some (k1, none)
    else
      let mm := { mm with pgt := pa }
      let k2 := memset0 k1 mm.pgt PGSIZE
      match mm_mappageat k2 mm TRAMPOLINE trampoline (PTE_A ||| PTE_R ||| PTE_X) with
      | none => none
      | some (k3, r) =>
        if r < 0 then some (if mm.pgt ≠ 0 then kfreepage k3 mm.pgt else k3, none)
        else
          match mm_mappageat k3 mm TRAPFRAME tf (PTE_A ||| PTE_D ||| PTE_R ||| PTE_W) with
          | none => none
          | some (k4, r) =>
            if r ≠ 0 then some (if mm.pgt ≠ 0 then kfreepage k4 mm.pgt else k4, none)
            else some (k4, some mm)

/-! ## Fork -/

/-- The loop of `mm_copy` over the pages of one VMA: `walkaddr` on both
sides and `memmove` of the page. -/
def copyLoop (old new : Mm) : Nat → Nat → Kernel → Option Kernel
  | 0, _, k => some k
  | n + 1, va, k =>
    match walkaddr k old va with
    | none => none
    | some pa_old =>
      match walkaddr k new va with
      | none => none
      | some pa_new => copyLoop old new n (va + PGSIZE) (memmove k pa_new pa_old PGSIZE)

/-- The loop `while (vma)` of `mm_copy` with its two exits. -/
def copyVmas (old : Mm) : List Vma → Kernel → Mm → Option (Kernel × Mm × Int)
  | [], k, new => some (k, new, 0)
  | vma :: next, k, new =>
    match mm_create_vma k with
    | (new_vma0, k1) =>
      let new_vma : Vma :=
        { new_vma0 with vm_start := vma.vm_start, vm_end := vma.vm_end,
                        pte_flags := vma.pte_flags }
      match mm_mappages_cow k1 new old new_vma vma with
      | none => none
      | some (k2, new2, r) =>
        if r ≠ 0 then
          match mm_free_vmas k2 new2 with
          | none => none
          | some (k3, new3) => some (k3, new3, -ENOMEM)
        else
          match copyLoop old new2 (npages vma.vm_start vma.vm_end) vma.vm_start k2 with
          | none => none
          | some k3 => copyVmas old next k3 new2

/-- `mm_copy` of `vm.c`. The result is the state, `new` and the return
value. -/
def mm_copy (k : Kernel) (old new : Mm) : Option (Kernel × Mm × Int) :=
  copyVmas old old.vma k new

/-- `mm_find_vma` of `vm.c`. -/
def mm_find_vma (mm : Mm) (va : Nat) : Option Vma :=
  mm.vma.find? (fun vma => va = vma.vm_start)

/-! ## What a user program sees, and the scenarios of `cowtest.c` -/

/-- The leaf entry of `va` in `mm`: the word `walk(mm, va, 0)` points to. -/
def leafPte (k : Kernel) (mm : Mm) (va : Nat) : Option Nat :=
  match walk k mm va false with
  | (k1, some pte) => some (k1.mem pte)
  | (_, none) => none

/-- Modelled from the spec: a user store of a 64-bit word as the hardware
executes it. The address is translated through the leaf entry of its page;
the store goes straight to the mapped frame when the entry has V, U and W
set, and traps otherwise (no resolver is part of `vm.c`: the state is left
as it is). -/
def user_store (k : Kernel) (mm : Mm) (va val : Nat) : Kernel :=
  match walk k mm (PGROUNDDOWN va) false with
  | (k1, some pte) =>
    if k1.mem pte &&& PTE_V ≠ 0 ∧ k1.mem pte &&& PTE_U ≠ 0 ∧ k1.mem pte &&& PTE_W ≠ 0 then
      k1.store (PTE2PA (k1.mem pte) + va % PGSIZE) val
    else k1
  | (k1, none) => k1

/-- Modelled from the spec: a user load of a 64-bit word as the hardware
executes it: the word of the mapped frame when the leaf entry has V, U and R
set, `none` for a trap. -/
def user_load (k : Kernel) (mm : Mm) (va : Nat) : Option Nat :=
  match walk k mm (PGROUNDDOWN va) false with
  | (k1, some pte) =>
    if k1.mem pte &&& PTE_V ≠ 0 ∧ k1.mem pte &&& PTE_U ≠ 0 ∧ k1.mem pte &&& PTE_R ≠ 0 then
      some (k1.mem (PTE2PA (k1.mem pte) + va % PGSIZE))
    else none
  | (_, none) => none

/-- The frame index of the spec: `(pa - RISCV_DDR_BASE) / PGSIZE`. -/
def frameIndex (pa : Nat) : Nat := (pa - RISCV_DDR_BASE) / PGSIZE

/-- A machine at boot: memory all zero, `n` free frames from `0x80400000`
up, a reference-count table that has not been cleared yet. -/
def bootKernel (n : Nat) : Kernel :=
  { mem := fun _ => 0,
    freelist := (List.range n).map (fun i => 0x80400000 + i * PGSIZE),
    refcnt := fun _ => 0,
    nextobj := 1 }

/-- The physical address of the trampoline page in the scenarios. -/
def scenTrampoline : Nat := 0x80200000

/-- The call sequence `mm_create_vma`, set the three fields, `mm_mappages`,
as the loader and `sbrk` do it; `none` unless the mapping returns 0. -/
def mapRegion (k : Kernel) (mm : Mm) (s e flags : Nat) : Option (Kernel × Mm) :=
  match mm_create_vma k with
  | (v, k1) =>
    match mm_mappages k1 mm { v with vm_start := s, vm_end := e, pte_flags := flags } with
    | some (k2, mm2, r) => if r = 0 then some (k2, mm2) else none
    | none => none

/-- The parent of the fork scenarios (`test2` and `test3` of `cowtest.c`, one
page instead of fifty): `uvm_init`, `mm_create`, one read-only user page at
`0x3000` (a code segment), one readable and writable user page at `0x1000`
(the heap), into which the parent stores 111. -/
def parentScenario (n : Nat) : Option (Kernel × Mm) :=
  match mm_create (uvm_init (bootKernel n)) 0x80300000 scenTrampoline with
  | some (k1, some old) =>
    match mapRegion k1 old 0x3000 0x4000 (PTE_R ||| PTE_X ||| PTE_U) with
    | some (k2, old2) =>
      match mapRegion k2 old2 0x1000 0x2000 (PTE_R ||| PTE_W ||| PTE_U) with
      | some (k3, old3) => some (user_store k3 old3 0x1000 111, old3)
      | none => none
    | none => none
  | _ => none

/-- The state in which the fork of the scenarios starts: the parent of
`parentScenario` and a child address space from `mm_create`. -/
def forkInput (n : Nat) : Option (Kernel × Mm × Mm) :=
  match parentScenario n with
  | some (k2, old) =>
    match mm_create k2 0x80301000 scenTrampoline with
    | some (k3, some new) => some (k3, old, new)
    | _ => none
  | none => none

/-- The fork of the scenarios: `mm_copy(old, new)` from `forkInput`. The
result is the state after the fork, the parent, the child and the value
`mm_copy` returned. -/
def forkScenario (n : Nat) : Option (Kernel × Mm × Mm × Int) :=
  match forkInput n with
  | some (k3, old, new) =>
    match mm_copy k3 old new with
    | some (k4, new4, r) => some (k4, old, new4, r)
    | none => none
  | none => none

/-- The state before the fork of `forkScenario 16`. -/
def forkK : Kernel :=
  match forkInput 16 with
  | some (k, _, _) => k
  | none => bootKernel 0

/-- The parent of `forkScenario 16`. -/
def forkOld : Mm :=
  match forkInput 16 with
  | some (_, old, _) => old
  | none => { pgt := 0, vma := [], refcnt := 0 }

/-- The child of `forkScenario 16` before the fork. -/
def forkNew : Mm :=
  match forkInput 16 with
  | some (_, _, new) => new
  | none => { pgt := 0, vma := [], refcnt := 0 }

/-- The state after the fork of `forkScenario 16`. -/
def forkK2 : Kernel :=
  match mm_copy forkK forkOld forkNew with
  | some (k, _, _) => k
  | none => bootKernel 0

/-- The child of `forkScenario 16` after the fork. -/
def forkNew2 : Mm :=
  match mm_copy forkK forkOld forkNew with
  | some (_, new, _) => new
  | none => { pgt := 0, vma := [], refcnt := 0 }

/-- A parent with two one-page regions, at `0x200000` and at `0x1000`, whose
leaf entries lie in two different level-0 tables. -/
def parent2Scenario (n : Nat) : Option (Kernel × Mm) :=
  match mm_create (uvm_init (bootKernel n)) 0x80300000 scenTrampoline with
  | some (k1, some old) =>
    match mapRegion k1 old 0x200000 0x201000 (PTE_R ||| PTE_W ||| PTE_U) with
    | some (k2, old2) => mapRegion k2 old2 0x1000 0x2000 (PTE_R ||| PTE_W ||| PTE_U)
    | none => none
  | _ => none

/-- The fork of `parent2Scenario` into a fresh child. -/
def fork2Scenario (n : Nat) : Option (Kernel × Mm × Mm × Int) :=
  match parent2Scenario n with
  | some (k2, old) =>
    match mm_create k2 0x80301000 scenTrampoline with
    | some (k3, some new) =>
      match mm_copy k3 old new with
      | some (k4, new4, r) => some (k4, old, new4, r)
      | none => none
    | _ => none
  | none => none

/-! ## Well-formed states -/

/-- The word at address `a` lies in a frame of the free list. -/
def InFree (k : Kernel) (a : Nat) : Prop :=
  ∃ p ∈ k.freelist, p ≤ a ∧ a < p + PGSIZE

/-- A well-formed page allocator: no frame is free twice, and every free
frame is a page-aligned frame of DRAM. -/
def FreeOk (k : Kernel) : Prop :=
  k.freelist.Nodup ∧ ∀ p ∈ k.freelist, PGALIGNED p ∧ VALID_PHYS_ADDR p

instance (k : Kernel) : Decidable (FreeOk k) :=
  inferInstanceAs (Decidable (_ ∧ _))

/-- A well-formed three-level page table with root `pgt`: `L1s` are its
level-1 tables and `L0s` its level-0 tables. The pages of the table are
pairwise distinct, page-aligned and not free; the valid entries of the root
point exactly to the level-1 tables, one entry each, and the valid entries of
the level-1 tables exactly to the level-0 tables, one entry each. -/
structure PgtInv (k : Kernel) (pgt : Nat) (L1s L0s : List Nat) : Prop where
  nodup : (pgt :: (L1s ++ L0s)).Nodup
  aligned : ∀ t ∈ pgt :: (L1s ++ L0s), PGALIGNED t
  notfree : ∀ t ∈ pgt :: (L1s ++ L0s), t ∉ k.freelist
  root_sound : ∀ i < 512, k.mem (pgt + 8 * i) &&& PTE_V ≠ 0 →
    PTE2PA (k.mem (pgt + 8 * i)) ∈ L1s
  l1_sound : ∀ t ∈ L1s, ∀ j < 512, k.mem (t + 8 * j) &&& PTE_V ≠ 0 →
    PTE2PA (k.mem (t + 8 * j)) ∈ L0s
  root_complete : ∀ t ∈ L1s, ∃ i < 512, k.mem (pgt + 8 * i) &&& PTE_V ≠ 0 ∧
    PTE2PA (k.mem (pgt + 8 * i)) = t
  l1_complete : ∀ t ∈ L0s, ∃ t1 ∈ L1s, ∃ j < 512, k.mem (t1 + 8 * j) &&& PTE_V ≠ 0 ∧
    PTE2PA (k.mem (t1 + 8 * j)) = t
  root_inj : ∀ i < 512, k.mem (pgt + 8 * i) &&& PTE_V ≠ 0 →
    ∀ i2 < 512, k.mem (pgt + 8 * i2) &&& PTE_V ≠ 0 →
    PTE2PA (k.mem (pgt + 8 * i)) = PTE2PA (k.mem (pgt + 8 * i2)) → i = i2
  l1_inj : ∀ t ∈ L1s, ∀ j < 512, k.mem (t + 8 * j) &&& PTE_V ≠ 0 →
    ∀ t2 ∈ L1s, ∀ j2 < 512, k.mem (t2 + 8 * j2) &&& PTE_V ≠ 0 →
    PTE2PA (k.mem (t + 8 * j)) = PTE2PA (k.mem (t2 + 8 * j2)) → t = t2 ∧ j = j2

/-- The state `k2` keeps what `k` had outside the free frames: free frames
of `k2` were free in `k`, and a word of `k` that is not in a free frame and
has the Valid bit set is the same in `k2`. -/
def Stable (k k2 : Kernel) : Prop :=
  (∀ p ∈ k2.freelist, p ∈ k.freelist) ∧
  ∀ a, ¬ InFree k a → k.mem a &&& PTE_V ≠ 0 → k2.mem a = k.mem a

/-- The walk of `va` from the root `pgt` passes two valid entries outside the
free frames and ends at the entry address `a0`, outside the free frames. -/
def Path (k : Kernel) (pgt va a0 : Nat) : Prop :=
  k.mem (pgt + 8 * PX 2 va) &&& PTE_V ≠ 0 ∧ ¬ InFree k (pgt + 8 * PX 2 va) ∧
  k.mem (PTE2PA (k.mem (pgt + 8 * PX 2 va)) + 8 * PX 1 va) &&& PTE_V ≠ 0 ∧
  ¬ InFree k (PTE2PA (k.mem (pgt + 8 * PX 2 va)) + 8 * PX 1 va) ∧
  a0 = PTE2PA (k.mem (PTE2PA (k.mem (pgt + 8 * PX 2 va)) + 8 * PX 1 va)) + 8 * PX 0 va ∧
  ¬ InFree k a0

/-- The page `va` is mapped under the root `pgt` by the valid leaf entry
`e`. -/
def Mapped (k : Kernel) (pgt va e : Nat) : Prop :=
  ∃ a0, Path k pgt va a0 ∧ k.mem a0 = e ∧ e &&& PTE_V ≠ 0

/-- The frames `taken` left the free list between `k` and `k2`, and became
the level-1 tables `A1` and the level-0 tables `A0`. -/
def Grows (k k2 : Kernel) (A1 A0 : List Nat) : Prop :=
  ∃ taken, k.freelist = taken ++ k2.freelist ∧ taken.Perm (A1 ++ A0)

/-- Every VMA of `mm` is a user region whose pages are all mapped: its flags
are protection flags (the low ten bits of an entry) with the User bit, and
every page of its range has a valid user leaf entry. -/
def UserVmas (k : Kernel) (mm : Mm) : Prop :=
  ∀ v ∈ mm.vma, v.pte_flags < 1024 ∧ v.pte_flags &&& PTE_U ≠ 0 ∧
    ∀ va, v.vm_start ≤ va → va < v.vm_end → PGALIGNED va →
      ∃ e, leafPte k mm va = some e ∧ e &&& PTE_V ≠ 0 ∧ e &&& PTE_U ≠ 0

/-- The frame `t` is an intermediate page-table page under the root `pgt`: a
valid entry of the root points to it (a level-1 table), or a valid entry of
a level-1 table does (a level-0 table). -/
def IsPtPage (k : Kernel) (pgt t : Nat) : Prop :=
  (∃ i < 512, k.mem (pgt + 8 * i) &&& PTE_V ≠ 0 ∧ PTE2PA (k.mem (pgt + 8 * i)) = t) ∨
  (∃ i < 512, k.mem (pgt + 8 * i) &&& PTE_V ≠ 0 ∧
    ∃ j < 512, k.mem (PTE2PA (k.mem (pgt + 8 * i)) + 8 * j) &&& PTE_V ≠ 0 ∧
      PTE2PA (k.mem (PTE2PA (k.mem (pgt + 8 * i)) + 8 * j)) = t)

/-- The state after the allocating branch of `walk` took the frame `p` from
the free list, leaving `rest`: the frame is zeroed and the entry at `e`
points to it. -/
def installTable (k : Kernel) (rest : List Nat) (p e : Nat) : Kernel :=
  (memset0 { k with freelist := rest } p PGSIZE).store e (PA2PTE p ||| PTE_V)

/-- What a successful `walk(mm, va, 1)` from `k` to `k2` with result `a0`
does to a well-formed table with level-1 tables `L1s` and level-0 tables
`L0s`: it adds the tables `A1` and `A0`, taken from the head of the free
list in this order. -/
structure WalkPost (k k2 : Kernel) (pgt va a0 : Nat) (L1s L0s A1 A0 : List Nat) : Prop where
  inv : PgtInv k2 pgt (A1 ++ L1s) (A0 ++ L0s)
  free : FreeOk k2
  taken : k.freelist = A1 ++ A0 ++ k2.freelist
  stable : Stable k k2
  path : Path k2 pgt va a0
  frame : ∀ a, ¬ InFree k a → (∀ t ∈ pgt :: L1s, ¬ (t ≤ a ∧ a < t + PGSIZE)) →
    k2.mem a = k.mem a
  fresh0 : ∀ t ∈ A0, ∀ j < 512, k2.mem (t + 8 * j) = 0
  changed : ∀ a, k2.mem a &&& PTE_V ≠ 0 →
    (k2.mem a = k.mem a ∧ ∀ p ∈ A1 ++ A0, ¬ (p ≤ a ∧ a < p + PGSIZE)) ∨
    k2.mem a &&& PTE_RWX = 0
  refcnt : k2.refcnt = k.refcnt
  nextobj : k2.nextobj = k.nextobj

/-- The walk of `va` from the root `pgt` passes two valid entries and ends at
the entry address `a0`. -/
def Route (k : Kernel) (pgt va a0 : Nat) : Prop :=
  k.mem (pgt + 8 * PX 2 va) &&& PTE_V ≠ 0 ∧
  k.mem (PTE2PA (k.mem (pgt + 8 * PX 2 va)) + 8 * PX 1 va) &&& PTE_V ≠ 0 ∧
  a0 = PTE2PA (k.mem (PTE2PA (k.mem (pgt + 8 * PX 2 va)) + 8 * PX 1 va)) + 8 * PX 0 va

/-- The range `[s, e)` holds neither the trapframe page nor the trampoline
page, the two pages that `mm_create` maps to kernel-owned frames. -/
def RangeClear (s e : Nat) : Prop :=
  ¬ (s ≤ TRAPFRAME ∧ TRAPFRAME < e) ∧ ¬ (s ≤ TRAMPOLINE ∧ TRAMPOLINE < e)

instance (s e : Nat) : Decidable (RangeClear s e) :=
  inferInstanceAs (Decidable (_ ∧ _))

/-- The invariant of an address space that was never forked, relative to the
state `k0` in which `mm_create` was called. `L1s` and `L0s` are its tables,
`Lw` the addresses of the leaf entries that map frames it took from the page
allocator, `Kw` the addresses of the leaf entries of the kernel-owned pages.
Every frame that left the free list of `k0` is the root, a table or the frame
of exactly one entry of `Lw`. -/
structure MmInv (k0 k : Kernel) (pgt : Nat) (vmas : List Vma) (L1s L0s Lw Kw : List Nat) :
    Prop where
  pgt_inv : PgtInv k pgt L1s L0s
  inner_rwx : ∀ t ∈ pgt :: L1s, ∀ j < 512, k.mem (t + 8 * j) &&& PTE_V ≠ 0 →
    k.mem (t + 8 * j) &&& PTE_RWX = 0
  leaf_rwx : ∀ t ∈ L0s, ∀ j < 512, k.mem (t + 8 * j) &&& PTE_V ≠ 0 →
    k.mem (t + 8 * j) &&& PTE_RWX ≠ 0
  all_leaves : ∀ t ∈ L0s, ∀ j < 512, k.mem (t + 8 * j) &&& PTE_V ≠ 0 →
    t + 8 * j ∈ Lw ∨ t + 8 * j ∈ Kw
  owned_valid : ∀ a ∈ Lw, k.mem a &&& PTE_V ≠ 0
  owned_cover : ∀ a ∈ Lw, ∃ v ∈ vmas, ∃ va, v.vm_start ≤ va ∧ va < v.vm_end ∧
    PGALIGNED va ∧ IS_USER_VA va ∧ Route k pgt va a
  kernel_leaves : ∀ a ∈ Kw, ∃ va, (va = TRAPFRAME ∨ va = TRAMPOLINE) ∧ Route k pgt va a
  vma_ok : ∀ v ∈ vmas, PGALIGNED v.vm_start ∧ PGALIGNED v.vm_end ∧
    RangeClear v.vm_start v.vm_end ∧ v.pte_flags < 1024
  perm : k0.freelist.Perm
    (pgt :: (L1s ++ L0s) ++ Lw.map (fun a => PTE2PA (k.mem a)) ++ k.freelist)

/-- A call that maps user memory into an address space: `mm_mappages` on a
fresh VMA `[s, e)` with the given flags, or `mm_remap` on the VMA at place
`i` of the list. -/
inductive MapOp where
  | mappages (s e flags : Nat)
  | remap (i s e flags : Nat)

/-- A sequence of mapping calls, each of which returns 0; `none` when one of
them fails or stops the kernel. -/
def runOps : List MapOp → Kernel → Mm → Option (Kernel × Mm)
  | [], k, mm => some (k, mm)
  | MapOp.mappages s e flags :: ops, k, mm =>
    match mapRegion k mm s e flags with
    | some (k1, mm1) => runOps ops k1 mm1
    | none => none
  | MapOp.remap i s e flags :: ops, k, mm =>
    match mm_remap k mm i s e flags with
    | some (k1, mm1, r) => if r = 0 then runOps ops k1 mm1 else none
    | none => none

/-- The call keeps clear of the two kernel-owned pages, and the flags of a
new VMA are protection flags (the low ten bits of an entry). -/
def OpClear : MapOp → Prop
  | MapOp.mappages s e flags => RangeClear s e ∧ flags < 1024
  | MapOp.remap _ s e _ => RangeClear s e

instance (op : MapOp) : Decidable (OpClear op) :=
  match op with
  | MapOp.mappages s e flags => inferInstanceAs (Decidable (RangeClear s e ∧ flags < 1024))
  | MapOp.remap _ s e _ => inferInstanceAs (Decidable (RangeClear s e))

/-- An address space that is never forked: `mm_create` in the state `k0` with
the trapframe frame `tf` and the trampoline frame `tr`, then the mapping calls
`ops`; `none` unless every call succeeds. -/
def addressSpace (k0 : Kernel) (tf tr : Nat) (ops : List MapOp) : Option (Kernel × Mm) :=
  match mm_create k0 tf tr with
  | some (k1, some mm) => runOps ops k1 mm
  | _ => none

/-- The life of an address space that is never forked: built as in
`addressSpace`, then `mm_free`. The result is the state at the end. -/
def lifeCycle (k0 : Kernel) (tf tr : Nat) (ops : List MapOp) (fuel : Nat) : Option Kernel :=
  match addressSpace k0 tf tr ops with
  | some (k2, mm2) => mm_free fuel k2 mm2
  | none => none

/-- The life of an address space whose heap is grown over the trapframe
page: `mm_create`, `mm_mappages` of the page below the trapframe, `mm_remap`
of that VMA up to the trampoline, `mm_free`. The result is the state at the
end. -/
def remapOverTrapframe : Option Kernel :=
  lifeCycle (uvm_init (bootKernel 16)) 0x80300000 scenTrampoline
    [MapOp.mappages (TRAPFRAME - PGSIZE) TRAPFRAME (PTE_R ||| PTE_W ||| PTE_U),
     MapOp.remap 0 (TRAPFRAME - PGSIZE) TRAMPOLINE (PTE_R ||| PTE_W ||| PTE_U)] 3

/-- The mapping calls of a process with a code page and a heap that grows by a
page: `mm_mappages` of `[0x3000, 0x4000)` read-only, `mm_mappages` of
`[0x1000, 0x2000)` writable, `mm_remap` of the heap to `[0x1000, 0x3000)`. -/
def heapGrowOps : List MapOp :=
  [MapOp.mappages 0x3000 0x4000 (PTE_R ||| PTE_X ||| PTE_U),
   MapOp.mappages 0x1000 0x2000 (PTE_R ||| PTE_W ||| PTE_U),
   MapOp.remap 0 0x1000 0x3000 (PTE_R ||| PTE_W ||| PTE_U)]

/-- The invariant of `freepgt` on a table all of whose owned leaf entries were
cleared: the table is well formed, the valid entries of the root and of the
level-1 tables are inner entries, the valid entries of the level-0 tables are
leaves, and every frame that left the free list of `k0` is the root or one of
the tables. -/
structure FreeInv (k0 k : Kernel) (pgt : Nat) (L1s L0s : List Nat) : Prop where
  pg : PgtInv k pgt L1s L0s
  inner : ∀ t ∈ pgt :: L1s, ∀ j < 512, k.mem (t + 8 * j) &&& PTE_V ≠ 0 →
    k.mem (t + 8 * j) &&& PTE_RWX = 0
  leaf : ∀ t ∈ L0s, ∀ j < 512, k.mem (t + 8 * j) &&& PTE_V ≠ 0 →
    k.mem (t + 8 * j) &&& PTE_RWX ≠ 0
  perm : k0.freelist.Perm (pgt :: (L1s ++ L0s) ++ k.freelist)

/-! ## The overlap test as the spec words it -/

/-- The test of the spec, to compare with `vma_check_overlap`: some VMA of
`mm` other than `exclude` intersects the half-open range `[start, end_)`,
that is `start < v.vm_end` and `v.vm_start < end_`. -/
def overlapSpec (mm : Mm) (start end_ : Nat) (exclude : Option Nat) : Prop :=
  ∃ v ∈ mm.vma, some v.id ≠ exclude ∧ start < v.vm_end ∧ v.vm_start < end_

instance (mm : Mm) (start end_ : Nat) (exclude : Option Nat) :
    Decidable (overlapSpec mm start end_ exclude) :=
  inferInstanceAs (Decidable (∃ v ∈ mm.vma, _))

/-- The invariant of the spec on a VMA list: no two VMAs share an address
(two half-open ranges share one when the larger start is below the smaller
end). -/
def VmasDisjoint (l : List Vma) : Prop :=
  l.Pairwise (fun v w => ¬ (max v.vm_start w.vm_start < min v.vm_end w.vm_end))

instance (l : List Vma) : Decidable (VmasDisjoint l) :=
  inferInstanceAs (Decidable (l.Pairwise _))

/-! ## Scenarios on the overlap test -/

/-- The parent of `forkScenario 16` grows its heap `[0x1000, 0x2000)`, the
VMA at the head of its list, to `[0x1000, 0x5000)`, over its code page
`[0x3000, 0x4000)`: the call `mm_remap(vma, 0x1000, 0x5000, R|W|U)`. -/
def remapOverVma : Option (Kernel × Mm × Int) :=
  mm_remap forkK forkOld 0 0x1000 0x5000 (PTE_R ||| PTE_W ||| PTE_U)

/-- The parent of `forkScenario 16` maps a new VMA `[0x2000, 0x5000)` around
its code page `[0x3000, 0x4000)`: `mm_create_vma`, set the three fields,
`mm_mappages`. -/
def mappagesOverVma : Option (Kernel × Mm × Int) :=
  match mm_create_vma forkK with
  | (v, k1) =>
    mm_mappages k1 forkOld
      { v with vm_start := 0x2000, vm_end := 0x5000, pte_flags := PTE_R ||| PTE_W ||| PTE_U }

/-! ## The entries on the path of an address -/

/-- The address of the level-2 entry of `va`: entry `PX(2, va)` of the root. -/
def rootEntry (mm : Mm) (va : Nat) : Nat := mm.pgt + 8 * PX 2 va

/-- The address of the level-1 entry of `va`: entry `PX(1, va)` of the table
the level-2 entry points to. -/
def l1Entry (k : Kernel) (mm : Mm) (va : Nat) : Nat :=
  PTE2PA (k.mem (rootEntry mm va)) + 8 * PX 1 va

/-- The number of `kallocpage` calls `walk(mm, va, 1)` makes when none of them
fails: two when the level-2 entry of `va` lacks V, one when only the level-1
entry does, none when both are valid. -/
def missingLevels (k : Kernel) (mm : Mm) (va : Nat) : Nat :=
  if k.mem (rootEntry mm va) &&& PTE_V = 0 then 2
  else if k.mem (l1Entry k mm va) &&& PTE_V = 0 then 1
  else 0

/-- The leaf entry of `va` is in `k2` what it was in `k`. A page that had no
leaf entry in `k`, because a table on its path was missing, may have the
zero entry of a new table in `k2`. -/
def SameLeaf (k k2 : Kernel) (mm : Mm) (va : Nat) : Prop :=
  leafPte k2 mm va = leafPte k mm va ∨ (leafPte k mm va = none ∧ leafPte k2 mm va = some 0)

/-- The VMA of the mapping scenario: two writable user pages
`[0x1000, 0x3000)`. -/
def mapVma : Vma :=
  { id := forkK.nextobj, vm_start := 0x1000, vm_end := 0x3000,
    pte_flags := PTE_R ||| PTE_W ||| PTE_U }

/-- The state after the child of `forkScenario 16`, before the fork, maps
`mapVma` with `mm_mappages`. -/
def mapK2 : Kernel :=
  match mm_mappages forkK forkNew mapVma with
  | some (k, _, _) => k
  | none => bootKernel 0

/-- The child of `forkScenario 16` after it mapped `mapVma`. -/
def mapMm2 : Mm :=
  match mm_mappages forkK forkNew mapVma with
  | some (_, mm, _) => mm
  | none => { pgt := 0, vma := [], refcnt := 0 }

/-! ## Scenarios on `mm_remap`, `mm_mappages_cow` and `mm_create` -/

/-- The parent of `forkScenario 16` calls `mm_remap` on its heap
`[0x1000, 0x2000)` with the bounds and the flags the VMA already has:
`start == vma->vm_start`, `end == vma->vm_end`, `flags == vma->pte_flags`. -/
def remapSameEnd : Option (Kernel × Mm × Int) :=
  mm_remap forkK forkOld 0 0x1000 0x2000 (PTE_R ||| PTE_W ||| PTE_U)

/-- The new VMA of the scenario `cowMismatch`: `[0x3000, 0x4000)` with the
flags of the parent's heap. -/
def cowNewVma : Vma :=
  { id := forkK.nextobj, vm_start := 0x3000, vm_end := 0x4000,
    pte_flags := PTE_R ||| PTE_W ||| PTE_U }

/-- The old VMA of the scenario `cowMismatch`: the heap of the parent of
`forkScenario 16`, `[0x1000, 0x2000)`. -/
def cowOldVma : Vma :=
  { id := 2, vm_start := 0x1000, vm_end := 0x2000, pte_flags := PTE_R ||| PTE_W ||| PTE_U }

/-- The call `mm_mappages_cow(vma, oldvma)` in the child of `forkScenario 16`
before the fork, with a `vma` whose bounds are not those of `oldvma`. -/
def cowMismatch : Option (Kernel × Mm × Int) :=
  mm_mappages_cow forkK forkNew forkOld cowNewVma cowOldVma

/-- The call `mm_create` on a machine with `n` free frames. The result is
whether it returned an address space, and the free-page count afterwards. -/
def createOn (n : Nat) : Option (Bool × Nat) :=
  (mm_create (uvm_init (bootKernel n)) 0x80300000 scenTrampoline).map
    (fun r => (r.2.isSome, freepages_count r.1))

/-- The 64-bit entry `e` maps its page with the flags `flags`: it is valid,
every bit of `flags` is set in it, and its R, W, X bits are those of
`flags`. -/
def MappedWith (e flags : Nat) : Prop :=
  e < U64 ∧ e &&& PTE_V ≠ 0 ∧ e ||| flags = e ∧ e &&& PTE_RWX = flags &&& PTE_RWX

instance (e flags : Nat) : Decidable (MappedWith e flags) :=
  inferInstanceAs (Decidable (_ ∧ _))

/-- The state after the parent of `forkScenario 16` grows its heap
`[0x1000, 0x2000)` by one page with `mm_remap`. -/
def growK2 : Kernel :=
  match mm_remap forkK forkOld 0 0x1000 0x3000 (PTE_R ||| PTE_W ||| PTE_U) with
  | some (k, _, _) => k
  | none => bootKernel 0

/-- The parent of `forkScenario 16` after it grew its heap by one page. -/
def growMm2 : Mm :=
  match mm_remap forkK forkOld 0 0x1000 0x3000 (PTE_R ||| PTE_W ||| PTE_U) with
  | some (_, mm, _) => mm
  | none => { pgt := 0, vma := [], refcnt := 0 }

/-! ## Well-formed tables for `freepgt` -/

/-- The test of `freepgt` on an entry: V is set and R, W, X are clear, so the
entry points to a page-table page. -/
@[reducible] def IsInner (x : Nat) : Prop := x &&& PTE_V ≠ 0 ∧ x &&& PTE_RWX = 0

/-- A three-level page table as `freepgt` needs it: the entries with V set
and R, W, X clear form a tree with root `pgt`, level-1 tables `L1s` and
level-0 tables `L0s`. The pages of the tree are pairwise distinct and
page-aligned; such entries of the root point exactly to the level-1 tables,
one entry each, such entries of the level-1 tables exactly to the level-0
tables, one entry each, and no level-0 table holds such an entry. Entries
with R, W or X set (leaves, at any level) are not constrained. -/
structure TreeInv (k : Kernel) (pgt : Nat) (L1s L0s : List Nat) : Prop where
  nodup : (pgt :: (L1s ++ L0s)).Nodup
  aligned : ∀ t ∈ pgt :: (L1s ++ L0s), PGALIGNED t
  root_sound : ∀ i < 512, IsInner (k.mem (pgt + 8 * i)) → PTE2PA (k.mem (pgt + 8 * i)) ∈ L1s
  l1_sound : ∀ t ∈ L1s, ∀ j < 512, IsInner (k.mem (t + 8 * j)) →
    PTE2PA (k.mem (t + 8 * j)) ∈ L0s
  l0_leaf : ∀ t ∈ L0s, ∀ j < 512, ¬ IsInner (k.mem (t + 8 * j))
  root_complete : ∀ t ∈ L1s, ∃ i < 512, IsInner (k.mem (pgt + 8 * i)) ∧
    PTE2PA (k.mem (pgt + 8 * i)) = t
  l1_complete : ∀ t ∈ L0s, ∃ t1 ∈ L1s, ∃ j < 512, IsInner (k.mem (t1 + 8 * j)) ∧
    PTE2PA (k.mem (t1 + 8 * j)) = t
  root_inj : ∀ i < 512, IsInner (k.mem (pgt + 8 * i)) →
    ∀ i2 < 512, IsInner (k.mem (pgt + 8 * i2)) →
    PTE2PA (k.mem (pgt + 8 * i)) = PTE2PA (k.mem (pgt + 8 * i2)) → i = i2
  l1_inj : ∀ t ∈ L1s, ∀ j < 512, IsInner (k.mem (t + 8 * j)) →
    ∀ t2 ∈ L1s, ∀ j2 < 512, IsInner (k.mem (t2 + 8 * j2)) →
    PTE2PA (k.mem (t + 8 * j)) = PTE2PA (k.mem (t2 + 8 * j2)) → t = t2 ∧ j = j2

/-! # Theorems -/

theorem PX_lt (level va : Nat) : PX level va < 512 := by
  unfold PX
  exact Nat.and_lt_two_pow _ (by norm_num : (511 : Nat) < 2 ^ 9)

theorem PTE2PA_aligned (x : Nat) : PTE2PA x % PGSIZE = 0 := by
  unfold PTE2PA U64 PGSIZE
  rw [Nat.shiftLeft_eq]
  omega

theorem PTE2PA_lt (x : Nat) : PTE2PA x < 2 ^ 64 := by
  unfold PTE2PA U64
  exact Nat.mod_lt _ (by norm_num)

theorem or_flags_eq_add (q f : Nat) (hf : f < 1024) :
    (q <<< 10) ||| f ||| PTE_V = 1024 * q + (f ||| 1) := by
  have h1 : f ||| 1 < 2 ^ 10 := Nat.or_lt_two_pow (by simpa using hf) (by norm_num)
  have := Nat.mul_add_lt_is_or h1 q
  rw [Nat.shiftLeft_eq, Nat.or_assoc, PTE_V]
  rw [show q * 2 ^ 10 = 2 ^ 10 * q from Nat.mul_comm _ _, ← this]

theorem PTE2PA_PA2PTE (pa f : Nat) (ha : pa % PGSIZE = 0) (hlt : pa < 2 ^ 64) (hf : f < 1024) :
    PTE2PA (PA2PTE pa ||| f ||| PTE_V) = pa := by
  have h1 : f ||| 1 < 2 ^ 10 := Nat.or_lt_two_pow (by simpa using hf) (by norm_num)
  have hq : PA2PTE pa = (pa / 4096) <<< 10 := by
    unfold PA2PTE U64
    rw [Nat.shiftRight_eq_div_pow, Nat.shiftLeft_eq]
    have : pa / 2 ^ 12 * 2 ^ 10 < 2 ^ 64 := by omega
    rw [Nat.mod_eq_of_lt this]
  rw [hq, or_flags_eq_add _ _ hf]
  unfold PTE2PA U64
  rw [Nat.shiftRight_eq_div_pow, Nat.shiftLeft_eq]
  unfold PGSIZE at ha
  omega

theorem pte_valid_of_or (x f : Nat) : (x ||| f ||| PTE_V) &&& PTE_V ≠ 0 := by
  intro h
  have h2 : ((x ||| f ||| PTE_V) &&& PTE_V).testBit 0 = false := by rw [h]; simp
  simp [PTE_V] at h2

theorem and_bit_eq_zero_iff (x n : Nat) : x &&& 2 ^ n = 0 ↔ x.testBit n = false := by
  constructor
  · intro h
    have : (x &&& 2 ^ n).testBit n = false := by rw [h]; simp
    simpa [Nat.testBit_two_pow_self] using this
  · intro h
    apply Nat.eq_of_testBit_eq
    intro i
    simp [Nat.testBit_two_pow]
    intro hx hi
    subst hi
    simp [h] at hx

theorem PA2PTE_testBit_low (pa i : Nat) (hi : i < 10) : (PA2PTE pa).testBit i = false := by
  unfold PA2PTE
  rw [show U64 = 2 ^ 64 from rfl, Nat.testBit_mod_two_pow, Nat.testBit_shiftLeft]
  have : ¬ (i ≥ 10) := by omega
  simp [this]

theorem pte_flag_bit (pa f n : Nat) (hn : 0 < n) (hn10 : n < 10) :
    (PA2PTE pa ||| f ||| PTE_V) &&& 2 ^ n = 0 ↔ f &&& 2 ^ n = 0 := by
  rw [and_bit_eq_zero_iff, and_bit_eq_zero_iff]
  simp [PA2PTE_testBit_low pa n hn10, PTE_V]
  intro _
  have : n ≠ 0 := by omega
  cases n with
  | zero => omega
  | succ m => simp [Nat.testBit_succ]


theorem PTE2PA_PA2PTE_V (pa : Nat) (ha : pa % PGSIZE = 0) (hlt : pa < 2 ^ 64) :
    PTE2PA (PA2PTE pa ||| PTE_V) = pa := by
  have := PTE2PA_PA2PTE pa 0 ha hlt (by norm_num)
  simpa using this

theorem pte_valid_V (x : Nat) : (x ||| PTE_V) &&& PTE_V ≠ 0 := by
  have := pte_valid_of_or x 0
  simpa using this

/-! ### Memory and allocator lemmas -/

theorem store_mem (k : Kernel) (p v a : Nat) :
    (k.store p v).mem a = if a = p then v else k.mem a := rfl

theorem store_freelist (k : Kernel) (p v : Nat) : (k.store p v).freelist = k.freelist := rfl

theorem memset0_mem (k : Kernel) (d n a : Nat) :
    (memset0 k d n).mem a = if d ≤ a ∧ a < d + n then 0 else k.mem a := rfl

theorem memset0_freelist (k : Kernel) (d n : Nat) : (memset0 k d n).freelist = k.freelist := rfl

theorem FreeOk.valid_lt {k : Kernel} (h : FreeOk k) {p : Nat} (hp : p ∈ k.freelist) :
    p % PGSIZE = 0 ∧ p ≠ 0 ∧ p < 2 ^ 64 := by
  have := h.2 p hp
  unfold PGALIGNED VALID_PHYS_ADDR RISCV_DDR_BASE PHYS_MEM_SIZE at this
  omega

/-- A word of an aligned page that is not on the free list is in no free frame. -/
theorem not_inFree_of_page {k : Kernel} (h : FreeOk k) {t j : Nat} (ht : PGALIGNED t)
    (hn : t ∉ k.freelist) (hj : j < 512) : ¬ InFree k (t + 8 * j) := by
  rintro ⟨p, hp, h1, h2⟩
  have hp2 := (h.valid_lt hp).1
  unfold PGALIGNED at ht
  unfold PGSIZE at *
  have : p = t := by omega
  exact hn (this ▸ hp)

theorem Stable.stable_refl (k : Kernel) : Stable k k :=
  ⟨fun _ h => h, fun _ _ _ => rfl⟩

theorem Stable.inFree {k k2 : Kernel} (h : Stable k k2) {a : Nat} (hn : ¬ InFree k a) :
    ¬ InFree k2 a := by
  rintro ⟨p, hp, h1, h2⟩
  exact hn ⟨p, h.1 p hp, h1, h2⟩

theorem Stable.stable_trans {k k2 k3 : Kernel} (h1 : Stable k k2) (h2 : Stable k2 k3) : Stable k k3 := by
  refine ⟨fun p hp => h1.1 p (h2.1 p hp), fun a hn hv => ?_⟩
  have e1 := h1.2 a hn hv
  have e2 := h2.2 a (h1.inFree hn) (by rw [e1]; exact hv)
  rw [e2, e1]

theorem Path.path_stable {k k2 : Kernel} (h : Stable k k2) {pgt va a0 : Nat} (hp : Path k pgt va a0) :
    Path k2 pgt va a0 := by
  obtain ⟨v2, f2, v1, f1, ha, f0⟩ := hp
  have e2 := h.2 _ f2 v2
  have e1 := h.2 _ f1 v1
  unfold Path
  rw [e2, e1]
  exact ⟨v2, h.inFree f2, v1, h.inFree f1, ha, h.inFree f0⟩

theorem Mapped.mapped_stable {k k2 : Kernel} (h : Stable k k2) {pgt va e : Nat} (hm : Mapped k pgt va e) :
    Mapped k2 pgt va e := by
  obtain ⟨a0, hp, he, hv⟩ := hm
  refine ⟨a0, hp.path_stable h, ?_, hv⟩
  have := h.2 a0 hp.2.2.2.2.2 (by rw [he]; exact hv)
  rw [this, he]

/-! ### The walk -/

theorem walkLevel_noalloc_fst (va : Nat) : ∀ (l : Nat) (k : Kernel) (pt : Nat),
    (walkLevel va false l k pt).1 = k := by
  intro l
  induction l with
  | zero => intro k pt; rfl
  | succ l ih =>
    intro k pt
    unfold walkLevel
    by_cases hv : k.mem (pt + 8 * PX (l + 1) va) &&& PTE_V ≠ 0
    · rw [if_pos hv]; exact ih k _
    · rw [if_neg hv]; simp

theorem walk_noalloc_fst (k : Kernel) (mm : Mm) (va : Nat) : (walk k mm va false).1 = k := by
  unfold walk
  split
  · rfl
  · exact walkLevel_noalloc_fst va 2 k mm.pgt

/-- Along a path the walk allocates nothing and returns the leaf entry address. -/
theorem Path.walk_eq {k : Kernel} {mm : Mm} {va a0 : Nat} (hu : IS_USER_VA va)
    (hp : Path k mm.pgt va a0) (alloc : Bool) : walk k mm va alloc = (k, some a0) := by
  obtain ⟨v2, _, v1, _, ha, _⟩ := hp
  unfold walk
  rw [if_neg (not_not.mpr hu)]
  unfold walkLevel
  rw [if_pos v2]
  unfold walkLevel
  rw [if_pos v1]
  unfold walkLevel
  rw [ha]


theorem page_word_inj {t t2 j j2 : Nat} (ht : PGALIGNED t) (ht2 : PGALIGNED t2) (hj : j < 512)
    (hj2 : j2 < 512) (h : t + 8 * j = t2 + 8 * j2) : t = t2 ∧ j = j2 := by
  unfold PGALIGNED PGSIZE at *
  omega

theorem page_word_in {t p j : Nat} (ht : PGALIGNED t) (hp : PGALIGNED p) (hj : j < 512)
    (h : p ≤ t + 8 * j ∧ t + 8 * j < p + PGSIZE) : t = p := by
  unfold PGALIGNED PGSIZE at *
  omega

theorem installTable_mem (k : Kernel) (rest : List Nat) (p e a : Nat) :
    (installTable k rest p e).mem a =
      if a = e then PA2PTE p ||| PTE_V else if p ≤ a ∧ a < p + PGSIZE then 0 else k.mem a := rfl

theorem installTable_freelist (k : Kernel) (rest : List Nat) (p e : Nat) :
    (installTable k rest p e).freelist = rest := rfl

theorem installTable_mem_entry (k : Kernel) (rest : List Nat) (p e : Nat) :
    (installTable k rest p e).mem e = PA2PTE p ||| PTE_V := by
  rw [installTable_mem, if_pos rfl]

theorem installTable_mem_other {k : Kernel} {rest : List Nat} {p e t j : Nat}
    (ht : PGALIGNED t) (hp : PGALIGNED p) (hj : j < 512) (hne : t ≠ p) (he : t + 8 * j ≠ e) :
    (installTable k rest p e).mem (t + 8 * j) = k.mem (t + 8 * j) := by
  rw [installTable_mem, if_neg he, if_neg]
  intro h
  exact hne (page_word_in ht hp hj h)

theorem installTable_mem_fresh {k : Kernel} {rest : List Nat} {p e j : Nat}
    (hj : j < 512) (he : p + 8 * j ≠ e) :
    (installTable k rest p e).mem (p + 8 * j) = 0 := by
  rw [installTable_mem, if_neg he, if_pos]
  unfold PGSIZE
  omega

theorem FreeOk.tail {k : Kernel} (h : FreeOk k) {p : Nat} {rest : List Nat}
    (hl : k.freelist = p :: rest) {k2 : Kernel} (h2 : k2.freelist = rest) : FreeOk k2 := by
  unfold FreeOk at *
  rw [h2]
  rw [hl] at h
  exact ⟨(List.nodup_cons.mp h.1).2, fun q hq => h.2 q (List.mem_cons_of_mem _ hq)⟩

theorem installTable_stable (k : Kernel) (rest : List Nat) (p : Nat) {e : Nat}
    (hl : k.freelist = p :: rest) (hv : k.mem e &&& PTE_V = 0) :
    Stable k (installTable k rest p e) := by
  refine ⟨fun q hq => ?_, fun a hn hval => ?_⟩
  · rw [installTable_freelist] at hq
    rw [hl]; exact List.mem_cons_of_mem _ hq
  · rw [installTable_mem]
    have h1 : a ≠ e := by
      intro h; rw [h] at hval; exact hval hv
    rw [if_neg h1, if_neg]
    intro h
    exact hn ⟨p, by rw [hl]; exact List.mem_cons_self _ _, h.1, h.2⟩

theorem and_RWX_eq_zero_iff (x : Nat) :
    x &&& PTE_RWX = 0 ↔ x &&& PTE_R = 0 ∧ x &&& PTE_W = 0 ∧ x &&& PTE_X = 0 := by
  have h1 := and_bit_eq_zero_iff x 1
  have h2 := and_bit_eq_zero_iff x 2
  have h3 := and_bit_eq_zero_iff x 3
  simp only [show (2 : Nat) ^ 1 = PTE_R from rfl, show (2 : Nat) ^ 2 = PTE_W from rfl,
    show (2 : Nat) ^ 3 = PTE_X from rfl] at h1 h2 h3
  rw [h1, h2, h3]
  constructor
  · intro h
    have hb : ∀ i, (x &&& PTE_RWX).testBit i = false := by intro i; rw [h]; simp
    have b1 := hb 1
    have b2 := hb 2
    have b3 := hb 3
    simp only [Nat.testBit_and, PTE_RWX] at b1 b2 b3
    have c1 : Nat.testBit 14 1 = true := by decide
    have c2 : Nat.testBit 14 2 = true := by decide
    have c3 : Nat.testBit 14 3 = true := by decide
    rw [c1] at b1; rw [c2] at b2; rw [c3] at b3
    simp only [Bool.and_true] at b1 b2 b3
    exact ⟨b1, b2, b3⟩
  · rintro ⟨b1, b2, b3⟩
    apply Nat.eq_of_testBit_eq
    intro i
    simp only [Nat.testBit_and, Nat.zero_testBit, PTE_RWX]
    by_cases hi : i < 4
    · have : i = 0 ∨ i = 1 ∨ i = 2 ∨ i = 3 := by omega
      rcases this with rfl | rfl | rfl | rfl
      · have : Nat.testBit 14 0 = false := by decide
        rw [this]; simp
      · rw [b1]; simp
      · rw [b2]; simp
      · rw [b3]; simp
    · have : Nat.testBit 14 i = false := by
        apply Nat.testBit_lt_two_pow
        calc 14 < 2 ^ 4 := by norm_num
          _ ≤ 2 ^ i := Nat.pow_le_pow_right (by norm_num) (by omega)
      rw [this]; simp

theorem inner_entry_rwx (p : Nat) : (PA2PTE p ||| PTE_V) &&& PTE_RWX = 0 := by
  rw [and_RWX_eq_zero_iff]
  have h : ∀ n, 0 < n → n < 10 → (PA2PTE p ||| PTE_V) &&& 2 ^ n = 0 := by
    intro n h0 h10
    have := (pte_flag_bit p 0 n h0 h10).mpr (by simp)
    simpa using this
  exact ⟨h 1 (by norm_num) (by norm_num), h 2 (by norm_num) (by norm_num),
    h 3 (by norm_num) (by norm_num)⟩

theorem installTable_changed (k : Kernel) (rest : List Nat) (p e a : Nat)
    (ha : (installTable k rest p e).mem a &&& PTE_V ≠ 0) :
    ((installTable k rest p e).mem a = k.mem a ∧ ¬ (p ≤ a ∧ a < p + PGSIZE)) ∨
    (installTable k rest p e).mem a &&& PTE_RWX = 0 := by
  rw [installTable_mem] at ha ⊢
  by_cases h1 : a = e
  · rw [if_pos h1]; exact Or.inr (inner_entry_rwx p)
  · rw [if_neg h1] at ha ⊢
    by_cases h2 : p ≤ a ∧ a < p + PGSIZE
    · rw [if_pos h2] at ha; simp at ha
    · rw [if_neg h2]; exact Or.inl ⟨rfl, h2⟩

/-- The allocating branch of `walk` at the root keeps the table well-formed. -/
theorem PgtInv.alloc_root {k : Kernel} {pgt : Nat} {L1s L0s : List Nat}
    (hinv : PgtInv k pgt L1s L0s) (hf : FreeOk k) {p : Nat} {rest : List Nat}
    (hl : k.freelist = p :: rest) {i : Nat} (hi : i < 512)
    (hv : k.mem (pgt + 8 * i) &&& PTE_V = 0) :
    PgtInv (installTable k rest p (pgt + 8 * i)) pgt (p :: L1s) L0s := by
  have hpin : p ∈ k.freelist := by rw [hl]; exact List.mem_cons_self _ _
  obtain ⟨hpa, hp0, hplt⟩ := hf.valid_lt hpin
  have hpal : PGALIGNED p := hpa
  have hprest : p ∉ rest := by
    have := hf.1; rw [hl] at this; exact (List.nodup_cons.mp this).1
  have hpnot : p ∉ pgt :: (L1s ++ L0s) := fun h => hinv.notfree p h hpin
  have hpgt_al : PGALIGNED pgt := hinv.aligned pgt (List.mem_cons_self _ _)
  have hne_pgt : pgt ≠ p := fun h => hpnot (h ▸ List.mem_cons_self _ _)
  have hL1 : ∀ t ∈ L1s, PGALIGNED t ∧ t ≠ p ∧ t ≠ pgt := by
    intro t ht
    have hm : t ∈ pgt :: (L1s ++ L0s) := List.mem_cons_of_mem _ (List.mem_append_left _ ht)
    refine ⟨hinv.aligned t hm, fun h => hpnot (h ▸ hm), fun h => ?_⟩
    have := (List.nodup_cons.mp hinv.nodup).1
    exact this (h ▸ List.mem_append_left _ ht)
  -- words of the root other than entry i
  have hroot : ∀ j < 512, j ≠ i → (installTable k rest p (pgt + 8 * i)).mem (pgt + 8 * j) =
      k.mem (pgt + 8 * j) := by
    intro j hj hji
    exact installTable_mem_other hpgt_al hpal hj hne_pgt (by omega)
  have hl1w : ∀ t ∈ L1s, ∀ j < 512, (installTable k rest p (pgt + 8 * i)).mem (t + 8 * j) =
      k.mem (t + 8 * j) := by
    intro t ht j hj
    obtain ⟨hta, htp, htr⟩ := hL1 t ht
    refine installTable_mem_other hta hpal hj htp ?_
    intro h
    exact htr (page_word_inj hta hpgt_al hj hi h).1
  have hfresh : ∀ j < 512, (installTable k rest p (pgt + 8 * i)).mem (p + 8 * j) = 0 := by
    intro j hj
    refine installTable_mem_fresh hj ?_
    intro h
    exact hne_pgt (page_word_inj hpal hpgt_al hj hi h).1.symm
  have hentry := installTable_mem_entry k rest p (pgt + 8 * i)
  have hpte : PTE2PA (PA2PTE p ||| PTE_V) = p := PTE2PA_PA2PTE_V p hpa hplt
  constructor
  · -- nodup
    have h0 := hinv.nodup
    rw [List.nodup_cons] at h0 ⊢
    refine ⟨?_, ?_⟩
    · intro h
      rcases List.mem_append.mp h with h | h
      · rcases List.mem_cons.mp h with h | h
        · exact hne_pgt h
        · exact h0.1 (List.mem_append_left _ h)
      · exact h0.1 (List.mem_append_right _ h)
    · rw [List.cons_append, List.nodup_cons]
      exact ⟨fun h => hpnot (List.mem_cons_of_mem _ h), h0.2⟩
  · intro t ht
    rcases List.mem_cons.mp ht with h | h
    · exact h ▸ hpgt_al
    · rcases List.mem_cons.mp h with h | h
      · exact h ▸ hpal
      · exact hinv.aligned t (List.mem_cons_of_mem _ h)
  · intro t ht
    rw [installTable_freelist]
    rcases List.mem_cons.mp ht with h | h
    · intro hr; exact hinv.notfree pgt (List.mem_cons_self _ _) (by rw [hl]; exact List.mem_cons_of_mem _ (h ▸ hr))
    · rcases List.mem_cons.mp h with h | h
      · exact h ▸ hprest
      · intro hr
        exact hinv.notfree t (List.mem_cons_of_mem _ h) (by rw [hl]; exact List.mem_cons_of_mem _ hr)
  · intro j hj hval
    by_cases hji : j = i
    · subst hji; rw [hentry, hpte]; exact List.mem_cons_self _ _
    · rw [hroot j hj hji] at hval ⊢
      exact List.mem_cons_of_mem _ (hinv.root_sound j hj hval)
  · intro t ht j hj hval
    rcases List.mem_cons.mp ht with h | h
    · subst h; rw [hfresh j hj] at hval; simp at hval
    · rw [hl1w t h j hj] at hval ⊢
      exact hinv.l1_sound t h j hj hval
  · intro t ht
    rcases List.mem_cons.mp ht with h | h
    · subst h
      exact ⟨i, hi, by rw [hentry]; exact pte_valid_V _, by rw [hentry, hpte]⟩
    · obtain ⟨j, hj, hval, he⟩ := hinv.root_complete t h
      have hji : j ≠ i := by intro h2; subst h2; exact hval hv
      exact ⟨j, hj, by rw [hroot j hj hji]; exact hval, by rw [hroot j hj hji]; exact he⟩
  · intro t ht
    obtain ⟨t1, ht1, j, hj, hval, he⟩ := hinv.l1_complete t ht
    exact ⟨t1, List.mem_cons_of_mem _ ht1, j, hj, by rw [hl1w t1 ht1 j hj]; exact hval,
      by rw [hl1w t1 ht1 j hj]; exact he⟩
  · intro j hj hv1 j2 hj2 hv2 he
    by_cases h1 : j = i
    · by_cases h2 : j2 = i
      · rw [h1, h2]
      · exfalso
        subst h1
        rw [hroot j2 hj2 h2] at hv2 he
        rw [hentry, hpte] at he
        have := hinv.root_sound j2 hj2 hv2
        rw [← he] at this
        exact hpnot (List.mem_cons_of_mem _ (List.mem_append_left _ this))
    · by_cases h2 : j2 = i
      · exfalso
        subst h2
        rw [hroot j hj h1] at hv1 he
        rw [hentry, hpte] at he
        have := hinv.root_sound j hj hv1
        rw [he] at this
        exact hpnot (List.mem_cons_of_mem _ (List.mem_append_left _ this))
      · rw [hroot j hj h1] at hv1 he
        rw [hroot j2 hj2 h2] at hv2 he
        exact hinv.root_inj j hj hv1 j2 hj2 hv2 he
  · intro t ht j hj hv1 t2 ht2 j2 hj2 hv2 he
    rcases List.mem_cons.mp ht with h | h
    · subst h; rw [hfresh j hj] at hv1; simp at hv1
    · rcases List.mem_cons.mp ht2 with h2 | h2
      · subst h2; rw [hfresh j2 hj2] at hv2; simp at hv2
      · rw [hl1w t h j hj] at hv1 he
        rw [hl1w t2 h2 j2 hj2] at hv2 he
        exact hinv.l1_inj t h j hj hv1 t2 h2 j2 hj2 hv2 he


/-- The allocating branch of `walk` at a level-1 table keeps the table well-formed. -/
theorem PgtInv.alloc_l1 {k : Kernel} {pgt : Nat} {L1s L0s : List Nat}
    (hinv : PgtInv k pgt L1s L0s) (hf : FreeOk k) {p : Nat} {rest : List Nat}
    (hl : k.freelist = p :: rest) {t1 : Nat} (ht1 : t1 ∈ L1s) {i : Nat} (hi : i < 512)
    (hv : k.mem (t1 + 8 * i) &&& PTE_V = 0) :
    PgtInv (installTable k rest p (t1 + 8 * i)) pgt L1s (p :: L0s) := by
  have hpin : p ∈ k.freelist := by rw [hl]; exact List.mem_cons_self _ _
  obtain ⟨hpa, hp0, hplt⟩ := hf.valid_lt hpin
  have hpal : PGALIGNED p := hpa
  have hprest : p ∉ rest := by
    have := hf.1; rw [hl] at this; exact (List.nodup_cons.mp this).1
  have hpnot : p ∉ pgt :: (L1s ++ L0s) := fun h => hinv.notfree p h hpin
  have hpgt_al : PGALIGNED pgt := hinv.aligned pgt (List.mem_cons_self _ _)
  have hne_pgt : pgt ≠ p := fun h => hpnot (h ▸ List.mem_cons_self _ _)
  have hL1 : ∀ t ∈ L1s, PGALIGNED t ∧ t ≠ p ∧ t ≠ pgt := by
    intro t ht
    have hm : t ∈ pgt :: (L1s ++ L0s) := List.mem_cons_of_mem _ (List.mem_append_left _ ht)
    refine ⟨hinv.aligned t hm, fun h => hpnot (h ▸ hm), fun h => ?_⟩
    have := (List.nodup_cons.mp hinv.nodup).1
    exact this (h ▸ List.mem_append_left _ ht)
  obtain ⟨ht1a, ht1p, ht1r⟩ := hL1 t1 ht1
  have hroot : ∀ j < 512, (installTable k rest p (t1 + 8 * i)).mem (pgt + 8 * j) =
      k.mem (pgt + 8 * j) := by
    intro j hj
    refine installTable_mem_other hpgt_al hpal hj hne_pgt ?_
    intro h
    exact ht1r (page_word_inj hpgt_al ht1a hj hi h).1.symm
  have hl1w : ∀ t ∈ L1s, ∀ j < 512, ¬ (t = t1 ∧ j = i) →
      (installTable k rest p (t1 + 8 * i)).mem (t + 8 * j) = k.mem (t + 8 * j) := by
    intro t ht j hj hne
    obtain ⟨hta, htp, htr⟩ := hL1 t ht
    refine installTable_mem_other hta hpal hj htp ?_
    intro h
    exact hne (page_word_inj hta ht1a hj hi h)
  have hentry := installTable_mem_entry k rest p (t1 + 8 * i)
  have hpte : PTE2PA (PA2PTE p ||| PTE_V) = p := PTE2PA_PA2PTE_V p hpa hplt
  have hpL0 : p ∉ L0s := fun h => hpnot (List.mem_cons_of_mem _ (List.mem_append_right _ h))
  constructor
  · have h0 := hinv.nodup
    rw [List.nodup_cons] at h0 ⊢
    refine ⟨?_, ?_⟩
    · intro h
      rcases List.mem_append.mp h with h | h
      · exact h0.1 (List.mem_append_left _ h)
      · rcases List.mem_cons.mp h with h | h
        · exact hne_pgt h
        · exact h0.1 (List.mem_append_right _ h)
    · have h1 := h0.2
      rw [List.nodup_append] at h1 ⊢
      refine ⟨h1.1, List.nodup_cons.mpr ⟨hpL0, h1.2.1⟩, ?_⟩
      intro a ha hb
      rcases List.mem_cons.mp hb with h | h
      · exact (hL1 a ha).2.1 h
      · exact h1.2.2 ha h
  · intro t ht
    rcases List.mem_cons.mp ht with h | h
    · exact h ▸ hpgt_al
    · rcases List.mem_append.mp h with h | h
      · exact (hL1 t h).1
      · rcases List.mem_cons.mp h with h | h
        · exact h ▸ hpal
        · exact hinv.aligned t (List.mem_cons_of_mem _ (List.mem_append_right _ h))
  · intro t ht
    rw [installTable_freelist]
    have hsub : ∀ q, q ∈ rest → q ∈ k.freelist := fun q hq => by
      rw [hl]; exact List.mem_cons_of_mem _ hq
    rcases List.mem_cons.mp ht with h | h
    · intro hr; exact hinv.notfree pgt (List.mem_cons_self _ _) (hsub _ (h ▸ hr))
    · rcases List.mem_append.mp h with h | h
      · intro hr
        exact hinv.notfree t (List.mem_cons_of_mem _ (List.mem_append_left _ h)) (hsub _ hr)
      · rcases List.mem_cons.mp h with h | h
        · exact h ▸ hprest
        · intro hr
          exact hinv.notfree t (List.mem_cons_of_mem _ (List.mem_append_right _ h)) (hsub _ hr)
  · intro j hj hval
    rw [hroot j hj] at hval ⊢
    exact hinv.root_sound j hj hval
  · intro t ht j hj hval
    by_cases hc : t = t1 ∧ j = i
    · obtain ⟨rfl, rfl⟩ := hc
      rw [hentry, hpte]; exact List.mem_cons_self _ _
    · rw [hl1w t ht j hj hc] at hval ⊢
      exact List.mem_cons_of_mem _ (hinv.l1_sound t ht j hj hval)
  · intro t ht
    obtain ⟨j, hj, hval, he⟩ := hinv.root_complete t ht
    exact ⟨j, hj, by rw [hroot j hj]; exact hval, by rw [hroot j hj]; exact he⟩
  · intro t ht
    rcases List.mem_cons.mp ht with h | h
    · subst h
      exact ⟨t1, ht1, i, hi, by rw [hentry]; exact pte_valid_V _, by rw [hentry, hpte]⟩
    · obtain ⟨t2, ht2, j, hj, hval, he⟩ := hinv.l1_complete t h
      have hc : ¬ (t2 = t1 ∧ j = i) := by
        rintro ⟨rfl, rfl⟩; exact hval hv
      exact ⟨t2, ht2, j, hj, by rw [hl1w t2 ht2 j hj hc]; exact hval,
        by rw [hl1w t2 ht2 j hj hc]; exact he⟩
  · intro j hj hv1 j2 hj2 hv2 he
    rw [hroot j hj] at hv1 he
    rw [hroot j2 hj2] at hv2 he
    exact hinv.root_inj j hj hv1 j2 hj2 hv2 he
  · intro t ht j hj hv1 t2 ht2 j2 hj2 hv2 he
    by_cases hc1 : t = t1 ∧ j = i
    · by_cases hc2 : t2 = t1 ∧ j2 = i
      · exact ⟨hc1.1.trans hc2.1.symm, hc1.2.trans hc2.2.symm⟩
      · exfalso
        obtain ⟨rfl, rfl⟩ := hc1
        rw [hl1w t2 ht2 j2 hj2 hc2] at hv2 he
        rw [hentry, hpte] at he
        have := hinv.l1_sound t2 ht2 j2 hj2 hv2
        rw [← he] at this
        exact hpL0 this
    · by_cases hc2 : t2 = t1 ∧ j2 = i
      · exfalso
        obtain ⟨rfl, rfl⟩ := hc2
        rw [hl1w t ht j hj hc1] at hv1 he
        rw [hentry, hpte] at he
        have := hinv.l1_sound t ht j hj hv1
        rw [he] at this
        exact hpL0 this
      · rw [hl1w t ht j hj hc1] at hv1 he
        rw [hl1w t2 ht2 j2 hj2 hc2] at hv2 he
        exact hinv.l1_inj t ht j hj hv1 t2 ht2 j2 hj2 hv2 he

/-- A store into a level-0 table page keeps the table well-formed. -/
theorem PgtInv.store_leaf {k : Kernel} {pgt : Nat} {L1s L0s : List Nat}
    (hinv : PgtInv k pgt L1s L0s) {t0 : Nat} (ht0 : t0 ∈ L0s) {i : Nat} (hi : i < 512)
    (v : Nat) : PgtInv (k.store (t0 + 8 * i) v) pgt L1s L0s := by
  have hm0 : t0 ∈ pgt :: (L1s ++ L0s) := List.mem_cons_of_mem _ (List.mem_append_right _ ht0)
  have ht0a := hinv.aligned t0 hm0
  have hpgt_al : PGALIGNED pgt := hinv.aligned pgt (List.mem_cons_self _ _)
  have hnd := List.nodup_cons.mp hinv.nodup
  have hroot : ∀ j < 512, (k.store (t0 + 8 * i) v).mem (pgt + 8 * j) = k.mem (pgt + 8 * j) := by
    intro j hj
    rw [store_mem, if_neg]
    intro h
    have := (page_word_inj hpgt_al ht0a hj hi h).1
    exact hnd.1 (this ▸ List.mem_append_right _ ht0)
  have hl1w : ∀ t ∈ L1s, ∀ j < 512, (k.store (t0 + 8 * i) v).mem (t + 8 * j) = k.mem (t + 8 * j) := by
    intro t ht j hj
    rw [store_mem, if_neg]
    intro h
    have hta := hinv.aligned t (List.mem_cons_of_mem _ (List.mem_append_left _ ht))
    have := (page_word_inj hta ht0a hj hi h).1
    exact (List.nodup_append.mp hnd.2).2.2 ht (this ▸ ht0)
  constructor
  · exact hinv.nodup
  · exact hinv.aligned
  · exact hinv.notfree
  · intro j hj hval
    rw [hroot j hj] at hval ⊢
    exact hinv.root_sound j hj hval
  · intro t ht j hj hval
    rw [hl1w t ht j hj] at hval ⊢
    exact hinv.l1_sound t ht j hj hval
  · intro t ht
    obtain ⟨j, hj, hval, he⟩ := hinv.root_complete t ht
    exact ⟨j, hj, by rw [hroot j hj]; exact hval, by rw [hroot j hj]; exact he⟩
  · intro t ht
    obtain ⟨t2, ht2, j, hj, hval, he⟩ := hinv.l1_complete t ht
    exact ⟨t2, ht2, j, hj, by rw [hl1w t2 ht2 j hj]; exact hval, by rw [hl1w t2 ht2 j hj]; exact he⟩
  · intro j hj hv1 j2 hj2 hv2 he
    rw [hroot j hj] at hv1 he
    rw [hroot j2 hj2] at hv2 he
    exact hinv.root_inj j hj hv1 j2 hj2 hv2 he
  · intro t ht j hj hv1 t2 ht2 j2 hj2 hv2 he
    rw [hl1w t ht j hj] at hv1 he
    rw [hl1w t2 ht2 j2 hj2] at hv2 he
    exact hinv.l1_inj t ht j hj hv1 t2 ht2 j2 hj2 hv2 he


theorem walkLevel_succ_true (va l : Nat) (k : Kernel) (pt : Nat) :
    walkLevel va true (l + 1) k pt =
      if k.mem (pt + 8 * PX (l + 1) va) &&& PTE_V ≠ 0 then
        walkLevel va true l k (PTE2PA (k.mem (pt + 8 * PX (l + 1) va)))
      else
        match k.freelist with
        | [] => (k, none)
        | p :: rest =>
          if p = 0 then ({ k with freelist := rest }, none)
          else walkLevel va true l (installTable k rest p (pt + 8 * PX (l + 1) va)) p := by
  conv => lhs; unfold walkLevel
  by_cases hv : k.mem (pt + 8 * PX (l + 1) va) &&& PTE_V ≠ 0
  · rw [if_pos hv, if_pos hv]
  · rw [if_neg hv, if_neg hv]
    simp only [Bool.true_eq_false, if_false, kallocpage]
    cases hfl : k.freelist with
    | nil => simp
    | cons p rest => rfl

theorem walkLevel_two (va : Nat) (k : Kernel) (pt : Nat) :
    walkLevel va true 2 k pt =
      if k.mem (pt + 8 * PX 2 va) &&& PTE_V ≠ 0 then
        walkLevel va true 1 k (PTE2PA (k.mem (pt + 8 * PX 2 va)))
      else
        match k.freelist with
        | [] => (k, none)
        | p :: rest =>
          if p = 0 then ({ k with freelist := rest }, none)
          else walkLevel va true 1 (installTable k rest p (pt + 8 * PX 2 va)) p :=
  walkLevel_succ_true va 1 k pt

theorem walkLevel_one (va : Nat) (k : Kernel) (pt : Nat) :
    walkLevel va true 1 k pt =
      if k.mem (pt + 8 * PX 1 va) &&& PTE_V ≠ 0 then
        (k, some (PTE2PA (k.mem (pt + 8 * PX 1 va)) + 8 * PX 0 va))
      else
        match k.freelist with
        | [] => (k, none)
        | p :: rest =>
          if p = 0 then ({ k with freelist := rest }, none)
          else (installTable k rest p (pt + 8 * PX 1 va), some (p + 8 * PX 0 va)) :=
  walkLevel_succ_true va 0 k pt

theorem PgtInv.path {k : Kernel} {pgt : Nat} {L1s L0s : List Nat} (hinv : PgtInv k pgt L1s L0s)
    (hf : FreeOk k) (va : Nat) (h2 : k.mem (pgt + 8 * PX 2 va) &&& PTE_V ≠ 0)
    (h1 : k.mem (PTE2PA (k.mem (pgt + 8 * PX 2 va)) + 8 * PX 1 va) &&& PTE_V ≠ 0) :
    Path k pgt va
      (PTE2PA (k.mem (PTE2PA (k.mem (pgt + 8 * PX 2 va)) + 8 * PX 1 va)) + 8 * PX 0 va) := by
  have m1 := hinv.root_sound _ (PX_lt 2 va) h2
  have m0 := hinv.l1_sound _ m1 _ (PX_lt 1 va) h1
  have mm1 : PTE2PA (k.mem (pgt + 8 * PX 2 va)) ∈ pgt :: (L1s ++ L0s) :=
    List.mem_cons_of_mem _ (List.mem_append_left _ m1)
  have mm0 : PTE2PA (k.mem (PTE2PA (k.mem (pgt + 8 * PX 2 va)) + 8 * PX 1 va)) ∈
      pgt :: (L1s ++ L0s) := List.mem_cons_of_mem _ (List.mem_append_right _ m0)
  exact ⟨h2, not_inFree_of_page hf (hinv.aligned _ (List.mem_cons_self _ _))
      (hinv.notfree _ (List.mem_cons_self _ _)) (PX_lt 2 va),
    h1, not_inFree_of_page hf (hinv.aligned _ mm1) (hinv.notfree _ mm1) (PX_lt 1 va),
    rfl, not_inFree_of_page hf (hinv.aligned _ mm0) (hinv.notfree _ mm0) (PX_lt 0 va)⟩

theorem PgtInv.leaf_table {k : Kernel} {pgt : Nat} {L1s L0s : List Nat}
    (hinv : PgtInv k pgt L1s L0s) {va a0 : Nat} (hp : Path k pgt va a0) :
    ∃ t0 ∈ L0s, a0 = t0 + 8 * PX 0 va := by
  obtain ⟨v2, _, v1, _, ha, _⟩ := hp
  have m1 := hinv.root_sound _ (PX_lt 2 va) v2
  exact ⟨_, hinv.l1_sound _ m1 _ (PX_lt 1 va) v1, ha⟩

theorem not_in_pages_of_inFree {k : Kernel} (hf : FreeOk k) {ts : List Nat}
    (hal : ∀ t ∈ ts, PGALIGNED t) (hnf : ∀ t ∈ ts, t ∉ k.freelist) {p : Nat}
    (hp : p ∈ k.freelist) {a : Nat} (h : p ≤ a ∧ a < p + PGSIZE) :
    ∀ t ∈ ts, ¬ (t ≤ a ∧ a < t + PGSIZE) := by
  intro t ht h2
  have h3 := (hf.valid_lt hp).1
  have h4 := hal t ht
  unfold PGALIGNED PGSIZE at *
  have : t = p := by omega
  exact hnf t ht (this ▸ hp)

/-- The effect of a successful allocating walk on a well-formed table. -/
theorem walk_alloc_post {k k2 : Kernel} {mm : Mm} {L1s L0s : List Nat} {va a0 : Nat}
    (hinv : PgtInv k mm.pgt L1s L0s) (hf : FreeOk k)
    (hw : walk k mm va true = (k2, some a0)) :
    ∃ A1 A0, WalkPost k k2 mm.pgt va a0 L1s L0s A1 A0 := by
  unfold walk at hw
  by_cases hu : IS_USER_VA va
  swap
  · rw [if_pos hu] at hw; simp at hw
  rw [if_neg (not_not.mpr hu), walkLevel_two] at hw
  have hpgt_al : PGALIGNED mm.pgt := hinv.aligned _ (List.mem_cons_self _ _)
  by_cases h2 : k.mem (mm.pgt + 8 * PX 2 va) &&& PTE_V ≠ 0
  · rw [if_pos h2, walkLevel_one] at hw
    have m1 := hinv.root_sound _ (PX_lt 2 va) h2
    by_cases h1 : k.mem (PTE2PA (k.mem (mm.pgt + 8 * PX 2 va)) + 8 * PX 1 va) &&& PTE_V ≠ 0
    · -- nothing allocated
      rw [if_pos h1] at hw
      simp only [Prod.mk.injEq, Option.some.injEq] at hw
      obtain ⟨rfl, rfl⟩ := hw
      refine ⟨[], [], ?_⟩
      exact ⟨hinv, hf, rfl, Stable.stable_refl _, hinv.path hf va h2 h1, fun _ _ _ => rfl,
        fun t ht => by simp at ht, fun a _ => Or.inl ⟨rfl, fun p hp => by simp at hp⟩, rfl, rfl⟩
    · -- a level-0 table is allocated
      rw [if_neg h1] at hw
      cases hfl : k.freelist with
      | nil => rw [hfl] at hw; simp at hw
      | cons p rest =>
        rw [hfl] at hw
        have hpin : p ∈ k.freelist := by rw [hfl]; exact List.mem_cons_self _ _
        have hp0 := (hf.valid_lt hpin).2.1
        simp only [hp0, if_false, Prod.mk.injEq, Option.some.injEq] at hw
        obtain ⟨rfl, rfl⟩ := hw
        have hv1 : k.mem (PTE2PA (k.mem (mm.pgt + 8 * PX 2 va)) + 8 * PX 1 va) &&& PTE_V = 0 := by
          simpa using h1
        have hinv2 := hinv.alloc_l1 hf hfl m1 (PX_lt 1 va) hv1
        have hf2 : FreeOk (installTable k rest p
            (PTE2PA (k.mem (mm.pgt + 8 * PX 2 va)) + 8 * PX 1 va)) := hf.tail hfl rfl
        have hst := installTable_stable k rest p hfl hv1
        have hpal : PGALIGNED p := (hf.valid_lt hpin).1
        have ht1m : PTE2PA (k.mem (mm.pgt + 8 * PX 2 va)) ∈ mm.pgt :: (L1s ++ L0s) :=
          List.mem_cons_of_mem _ (List.mem_append_left _ m1)
        have ht1a := hinv.aligned _ ht1m
        have ht1r : PTE2PA (k.mem (mm.pgt + 8 * PX 2 va)) ≠ mm.pgt := by
          intro h
          exact (List.nodup_cons.mp hinv.nodup).1 (h ▸ List.mem_append_left _ m1)
        have ht1p : PTE2PA (k.mem (mm.pgt + 8 * PX 2 va)) ≠ p := fun h =>
          hinv.notfree _ ht1m (h ▸ hpin)
        have hpr : mm.pgt ≠ p := fun h => hinv.notfree _ (List.mem_cons_self _ _) (h ▸ hpin)
        -- the root entry is untouched
        have e2 : (installTable k rest p (PTE2PA (k.mem (mm.pgt + 8 * PX 2 va)) + 8 * PX 1 va)).mem
            (mm.pgt + 8 * PX 2 va) = k.mem (mm.pgt + 8 * PX 2 va) := by
          refine installTable_mem_other hpgt_al hpal (PX_lt 2 va) hpr ?_
          intro h
          exact ht1r (page_word_inj hpgt_al ht1a (PX_lt 2 va) (PX_lt 1 va) h).1.symm
        have e1 := installTable_mem_entry k rest p
          (PTE2PA (k.mem (mm.pgt + 8 * PX 2 va)) + 8 * PX 1 va)
        have hpte : PTE2PA (PA2PTE p ||| PTE_V) = p :=
          PTE2PA_PA2PTE_V p (hf.valid_lt hpin).1 (hf.valid_lt hpin).2.2
        refine ⟨[], [p], ?_⟩
        have hpath := hinv2.path hf2 va (by rw [e2]; exact h2)
          (by rw [e2, e1]; exact pte_valid_V _)
        rw [e2, e1, hpte] at hpath
        refine ⟨hinv2, hf2, by rw [hfl]; rfl, hst, hpath, ?_, ?_, ?_, rfl, rfl⟩
        rotate_left 2
        · intro a ha
          rcases installTable_changed k rest p _ a ha with h | h
          · refine Or.inl ⟨h.1, fun q hq => ?_⟩
            simp only [List.nil_append, List.mem_singleton] at hq
            subst hq; exact h.2
          · exact Or.inr h
        · intro a hna hnt
          rw [installTable_mem, if_neg, if_neg]
          · intro h; exact hna ⟨p, hpin, h.1, h.2⟩
          · intro h
            refine hnt _ (List.mem_cons_of_mem _ m1) ?_
            rw [h]
            have := PX_lt 1 va
            unfold PGSIZE; omega
        · intro t ht j hj
          simp only [List.mem_singleton] at ht
          subst ht
          refine installTable_mem_fresh hj ?_
          intro h
          exact ht1p (page_word_inj hpal ht1a hj (PX_lt 1 va) h).1.symm
  · -- a level-1 table is allocated, and then a level-0 table
    rw [if_neg h2] at hw
    have hv2 : k.mem (mm.pgt + 8 * PX 2 va) &&& PTE_V = 0 := by simpa using h2
    cases hfl : k.freelist with
    | nil => rw [hfl] at hw; simp at hw
    | cons p1 rest1 =>
      rw [hfl] at hw
      have hpin : p1 ∈ k.freelist := by rw [hfl]; exact List.mem_cons_self _ _
      have hp0 := (hf.valid_lt hpin).2.1
      have hp1al : PGALIGNED p1 := (hf.valid_lt hpin).1
      simp only [hp0, if_false] at hw
      have hinv1 := hinv.alloc_root hf hfl (PX_lt 2 va) hv2
      have hf1 : FreeOk (installTable k rest1 p1 (mm.pgt + 8 * PX 2 va)) := hf.tail hfl rfl
      have hst1 := installTable_stable k rest1 p1 hfl hv2
      have hpr : mm.pgt ≠ p1 := fun h => hinv.notfree _ (List.mem_cons_self _ _) (h ▸ hpin)
      have hz : (installTable k rest1 p1 (mm.pgt + 8 * PX 2 va)).mem (p1 + 8 * PX 1 va) = 0 := by
        refine installTable_mem_fresh (PX_lt 1 va) ?_
        intro h
        exact hpr (page_word_inj hp1al hpgt_al (PX_lt 1 va) (PX_lt 2 va) h).1.symm
      rw [walkLevel_one, if_neg (by rw [hz]; simp)] at hw
      rw [installTable_freelist] at hw
      cases hfl1 : rest1 with
      | nil => rw [hfl1] at hw; simp at hw
      | cons p0 rest0 =>
        rw [hfl1] at hw
        have hfl1b : (installTable k rest1 p1 (mm.pgt + 8 * PX 2 va)).freelist = p0 :: rest0 := by
          rw [installTable_freelist, hfl1]
        have hpin0 : p0 ∈ (installTable k rest1 p1 (mm.pgt + 8 * PX 2 va)).freelist := by
          rw [hfl1b]; exact List.mem_cons_self _ _
        have hp00 := (hf1.valid_lt hpin0).2.1
        have hp0al : PGALIGNED p0 := (hf1.valid_lt hpin0).1
        simp only [hp00, if_false, Prod.mk.injEq, Option.some.injEq] at hw
        obtain ⟨rfl, rfl⟩ := hw
        have hzv : (installTable k rest1 p1 (mm.pgt + 8 * PX 2 va)).mem (p1 + 8 * PX 1 va)
            &&& PTE_V = 0 := by rw [hz]; simp
        have hinv2 := hinv1.alloc_l1 hf1 hfl1b (List.mem_cons_self _ _) (PX_lt 1 va) hzv
        have hf2 : FreeOk (installTable (installTable k rest1 p1 (mm.pgt + 8 * PX 2 va)) rest0 p0
            (p1 + 8 * PX 1 va)) := hf1.tail hfl1b rfl
        have hst2 := installTable_stable
          (installTable k rest1 p1 (mm.pgt + 8 * PX 2 va)) rest0 p0 hfl1b hzv
        have hp01 : p1 ≠ p0 := by
          have := hf.1; rw [hfl, hfl1] at this
          intro h
          exact (List.nodup_cons.mp this).1 (h ▸ List.mem_cons_self _ _)
        have hpr0 : mm.pgt ≠ p0 := fun h =>
          hinv1.notfree _ (List.mem_cons_self _ _) (h ▸ hpin0)
        have e2a := installTable_mem_entry k rest1 p1 (mm.pgt + 8 * PX 2 va)
        have e2 : (installTable (installTable k rest1 p1 (mm.pgt + 8 * PX 2 va)) rest0 p0
            (p1 + 8 * PX 1 va)).mem (mm.pgt + 8 * PX 2 va) = PA2PTE p1 ||| PTE_V := by
          rw [← e2a]
          refine installTable_mem_other hpgt_al hp0al (PX_lt 2 va) hpr0 ?_
          intro h
          exact hpr (page_word_inj hpgt_al hp1al (PX_lt 2 va) (PX_lt 1 va) h).1
        have e1 := installTable_mem_entry (installTable k rest1 p1 (mm.pgt + 8 * PX 2 va)) rest0 p0
          (p1 + 8 * PX 1 va)
        have hpte1 : PTE2PA (PA2PTE p1 ||| PTE_V) = p1 :=
          PTE2PA_PA2PTE_V p1 (hf.valid_lt hpin).1 (hf.valid_lt hpin).2.2
        have hpte0 : PTE2PA (PA2PTE p0 ||| PTE_V) = p0 :=
          PTE2PA_PA2PTE_V p0 (hf1.valid_lt hpin0).1 (hf1.valid_lt hpin0).2.2
        have hpath := hinv2.path hf2 va (by rw [e2]; exact pte_valid_V _)
          (by rw [e2, hpte1, e1]; exact pte_valid_V _)
        rw [e2, hpte1, e1, hpte0] at hpath
        have hpin0k : p0 ∈ k.freelist := by
          rw [hfl, hfl1]; exact List.mem_cons_of_mem _ (List.mem_cons_self _ _)
        refine ⟨[p1], [p0], ?_⟩
        refine ⟨hinv2, hf2, by rw [hfl, hfl1]; rfl, hst1.stable_trans hst2, hpath, ?_, ?_, ?_,
          rfl, rfl⟩
        rotate_left 2
        · subst hfl1
          intro a ha
          rcases installTable_changed (installTable k (p0 :: rest0) p1 (mm.pgt + 8 * PX 2 va))
            rest0 p0 _ a ha with h | h
          · have ha1 : (installTable k (p0 :: rest0) p1 (mm.pgt + 8 * PX 2 va)).mem a &&& PTE_V ≠
                0 := by
              rw [← h.1]; exact ha
            rcases installTable_changed k (p0 :: rest0) p1 _ a ha1 with h2 | h2
            · refine Or.inl ⟨h.1.trans h2.1, fun q hq => ?_⟩
              simp only [List.singleton_append, List.mem_cons, List.mem_singleton,
                List.not_mem_nil, or_false] at hq
              rcases hq with rfl | rfl
              · exact h2.2
              · exact h.2
            · exact Or.inr (by rw [h.1]; exact h2)
          · exact Or.inr h
        · intro a hna hnt
          rw [installTable_mem, if_neg, if_neg, installTable_mem, if_neg, if_neg]
          · intro h; exact hna ⟨p1, hpin, h.1, h.2⟩
          · intro h
            refine hnt _ (List.mem_cons_self _ _) ?_
            rw [h]
            have := PX_lt 2 va
            unfold PGSIZE; omega
          · intro h; exact hna ⟨p0, hpin0k, h.1, h.2⟩
          · intro h
            refine hna ⟨p1, hpin, ?_⟩
            rw [h]
            have := PX_lt 1 va
            unfold PGSIZE; omega
        · intro t ht j hj
          simp only [List.mem_singleton] at ht
          subst ht
          refine installTable_mem_fresh hj ?_
          intro h
          exact hp01 (page_word_inj hp0al hp1al hj (PX_lt 1 va) h).1.symm

theorem store_stable {k : Kernel} {a : Nat} (hv : k.mem a &&& PTE_V = 0) (v : Nat) :
    Stable k (k.store a v) := by
  refine ⟨fun p hp => hp, fun b _ hval => ?_⟩
  rw [store_mem, if_neg]
  intro h; rw [h] at hval; exact hval hv

theorem Stable.stable_of_eq {k k2 : Kernel} (hm : k2.mem = k.mem) (hf : k2.freelist = k.freelist) :
    Stable k k2 :=
  ⟨fun p hp => hf ▸ hp, fun a _ _ => by rw [hm]⟩

theorem PgtInv.pgt_of_eq {k k2 : Kernel} {pgt : Nat} {L1s L0s : List Nat}
    (h : PgtInv k pgt L1s L0s) (hm : k2.mem = k.mem) (hf : k2.freelist = k.freelist) :
    PgtInv k2 pgt L1s L0s := by
  constructor
  · exact h.nodup
  · exact h.aligned
  · rw [hf]; exact h.notfree
  · rw [hm]; exact h.root_sound
  · rw [hm]; exact h.l1_sound
  · rw [hm]; exact h.root_complete
  · rw [hm]; exact h.l1_complete
  · rw [hm]; exact h.root_inj
  · rw [hm]; exact h.l1_inj

theorem FreeOk.free_of_eq {k k2 : Kernel} (h : FreeOk k) (hf : k2.freelist = k.freelist) :
    FreeOk k2 := by
  unfold FreeOk at *; rw [hf]; exact h

theorem Grows.grows_refl (k : Kernel) : Grows k k [] [] := ⟨[], rfl, List.Perm.refl _⟩

theorem Grows.grows_trans {k k2 k3 : Kernel} {A1 A0 B1 B0 : List Nat} (h1 : Grows k k2 A1 A0)
    (h2 : Grows k2 k3 B1 B0) : Grows k k3 (B1 ++ A1) (B0 ++ A0) := by
  obtain ⟨t1, e1, p1⟩ := h1
  obtain ⟨t2, e2, p2⟩ := h2
  refine ⟨t1 ++ t2, by rw [e1, e2, List.append_assoc], ?_⟩
  have : (t1 ++ t2).Perm ((A1 ++ A0) ++ (B1 ++ B0)) := List.Perm.append p1 p2
  refine this.trans ?_
  -- (A1 ++ A0) ++ (B1 ++ B0) ~ (B1 ++ A1) ++ (B0 ++ A0)
  refine (List.perm_append_comm).trans ?_
  rw [List.append_assoc, List.append_assoc]
  refine List.Perm.append_left B1 ?_
  rw [← List.append_assoc, ← List.append_assoc]
  refine List.Perm.append_right A0 ?_
  exact List.perm_append_comm

theorem Grows.grows_of_eq {k k2 k3 : Kernel} {A1 A0 : List Nat} (h : Grows k k2 A1 A0)
    (hf : k3.freelist = k2.freelist) : Grows k k3 A1 A0 := by
  obtain ⟨t, e, p⟩ := h
  exact ⟨t, by rw [hf]; exact e, p⟩

theorem WalkPost.grows {k k2 : Kernel} {pgt va a0 : Nat} {L1s L0s A1 A0 : List Nat}
    (h : WalkPost k k2 pgt va a0 L1s L0s A1 A0) : Grows k k2 A1 A0 :=
  ⟨A1 ++ A0, h.taken, List.Perm.refl _⟩

/-- The pages of an aligned range, by index. -/
theorem page_of_index {s e i : Nat} (hs : PGALIGNED s) (he : PGALIGNED e) (hi : i < npages s e) :
    s ≤ s + i * PGSIZE ∧ s + i * PGSIZE < e ∧ PGALIGNED (s + i * PGSIZE) := by
  unfold npages PGALIGNED PGSIZE at *
  omega

theorem index_of_page {s e va : Nat} (hs : PGALIGNED s) (h1 : s ≤ va) (h2 : va < e)
    (hva : PGALIGNED va) : ∃ i, i < npages s e ∧ va = s + i * PGSIZE := by
  refine ⟨(va - s) / PGSIZE, ?_, ?_⟩
  · unfold npages PGALIGNED PGSIZE at *
    omega
  · unfold PGALIGNED PGSIZE at *
    omega

theorem walk_noalloc_some {k k1 : Kernel} {mm : Mm} {va a0 : Nat}
    (h : walk k mm va false = (k1, some a0)) :
    IS_USER_VA va ∧ k.mem (mm.pgt + 8 * PX 2 va) &&& PTE_V ≠ 0 ∧
    k.mem (PTE2PA (k.mem (mm.pgt + 8 * PX 2 va)) + 8 * PX 1 va) &&& PTE_V ≠ 0 ∧
    a0 = PTE2PA (k.mem (PTE2PA (k.mem (mm.pgt + 8 * PX 2 va)) + 8 * PX 1 va)) + 8 * PX 0 va := by
  unfold walk at h
  by_cases hu : IS_USER_VA va
  swap
  · rw [if_pos hu] at h; simp at h
  rw [if_neg (not_not.mpr hu)] at h
  unfold walkLevel at h
  by_cases h2 : k.mem (mm.pgt + 8 * PX 2 va) &&& PTE_V ≠ 0
  swap
  · rw [if_neg h2] at h; simp at h
  rw [if_pos h2] at h
  unfold walkLevel at h
  by_cases h1 : k.mem (PTE2PA (k.mem (mm.pgt + 8 * PX 2 va)) + 8 * PX 1 va) &&& PTE_V ≠ 0
  swap
  · rw [if_neg h1] at h; simp at h
  rw [if_pos h1] at h
  unfold walkLevel at h
  simp only [Prod.mk.injEq, Option.some.injEq] at h
  exact ⟨hu, h2, h1, h.2.symm⟩

/-- In a well-formed table a valid leaf entry found by `walk` is a mapping. -/
theorem PgtInv.mapped_of_leafPte {k : Kernel} {mm : Mm} {L1s L0s : List Nat}
    (hinv : PgtInv k mm.pgt L1s L0s) (hf : FreeOk k) {va e : Nat}
    (h : leafPte k mm va = some e) (hv : e &&& PTE_V ≠ 0) :
    IS_USER_VA va ∧ Mapped k mm.pgt va e := by
  unfold leafPte at h
  have h1 := walk_noalloc_fst k mm va
  cases hw : walk k mm va false with
  | mk k1 r =>
    rw [hw] at h h1
    simp only at h1
    subst h1
    cases r with
    | none => simp at h
    | some a0 =>
      simp only [Option.some.injEq] at h
      obtain ⟨hu, v2, v1, ha⟩ := walk_noalloc_some hw
      refine ⟨hu, a0, ?_, h, hv⟩
      rw [ha]
      exact hinv.path hf va v2 v1

theorem Mapped.leafPte_eq {k : Kernel} (mm : Mm) {va e : Nat} (hu : IS_USER_VA va)
    (h : Mapped k mm.pgt va e) : leafPte k mm va = some e := by
  obtain ⟨a0, hp, he, _⟩ := h
  unfold leafPte
  rw [hp.walk_eq hu false]
  simp only [he]

theorem Mapped.walkaddr_eq {k : Kernel} (mm : Mm) {va e : Nat} (hu : IS_USER_VA va)
    (ha : PGALIGNED va) (h : Mapped k mm.pgt va e) (hU : e &&& PTE_U ≠ 0) :
    walkaddr k mm va = some (PTE2PA e) := by
  obtain ⟨a0, hp, he, hv⟩ := h
  unfold walkaddr
  rw [if_neg (not_not.mpr hu), if_neg (not_not.mpr ha), hp.walk_eq hu false]
  simp only [he]
  rw [if_neg hv, if_neg hU]

theorem Mapped.unique {k : Kernel} {pgt va e e2 : Nat} (h : Mapped k pgt va e)
    (h2 : Mapped k pgt va e2) : e = e2 := by
  obtain ⟨a0, hp, he, _⟩ := h
  obtain ⟨b0, hq, he2, _⟩ := h2
  have : a0 = b0 := by rw [hp.2.2.2.2.1, hq.2.2.2.2.1]
  rw [← he, ← he2, this]

theorem memmove_self (k : Kernel) (pa n : Nat) : memmove k pa pa n = k := by
  unfold memmove
  cases k with
  | mk mem fl rc no =>
    simp only [Kernel.mk.injEq, and_true]
    funext a
    split
    · next h => congr 1; omega
    · rfl

theorem neg_ENOMEM_ne : (-ENOMEM : Int) ≠ 0 := by decide
theorem neg_EINVAL_ne : (-EINVAL : Int) ≠ 0 := by decide

/-- The loop of `mm_mappages_cow`, when it runs to its end: every page of the
range is mapped in the child to the frame of the parent, with the flags of
the VMA. -/
theorem cowLoop_spec (new old : Mm) (flags : Nat) :
    ∀ (n va : Nat) (k k2 : Kernel) (L1s L0s : List Nat),
      PgtInv k new.pgt L1s L0s → FreeOk k →
      (∀ i < n, IS_USER_VA (va + i * PGSIZE)) →
      (∀ i < n, ∃ e, Mapped k old.pgt (va + i * PGSIZE) e) →
      cowLoop new old flags n va k = (k2, 0) →
      ∃ A1 A0, PgtInv k2 new.pgt (A1 ++ L1s) (A0 ++ L0s) ∧ FreeOk k2 ∧ Grows k k2 A1 A0 ∧
        Stable k k2 ∧ k2.refcnt = k.refcnt ∧ k2.nextobj = k.nextobj ∧
        ∀ i < n, ∀ e, Mapped k old.pgt (va + i * PGSIZE) e →
          PTE2PA e ≠ 0 ∧
          Mapped k2 new.pgt (va + i * PGSIZE) (PA2PTE (PTE2PA e) ||| flags ||| PTE_V) := by
  intro n
  induction n with
  | zero =>
    intro va k k2 L1s L0s hinv hf _ _ hres
    simp only [cowLoop, Prod.mk.injEq] at hres
    obtain ⟨rfl, -⟩ := hres
    exact ⟨[], [], hinv, hf, Grows.grows_refl _, Stable.stable_refl _, rfl, rfl, fun i hi => by omega⟩
  | succ n ih =>
    intro va k k2 L1s L0s hinv hf huser hold hres
    rw [cowLoop] at hres
    cases hw : walk k new va true with
    | mk k1 r =>
      rw [hw] at hres
      cases r with
      | none =>
        simp only [Prod.mk.injEq] at hres
        exact absurd hres.2 neg_ENOMEM_ne
      | some pte =>
        simp only at hres
        obtain ⟨A1, A0, hpost⟩ := walk_alloc_post hinv hf hw
        by_cases hv : k1.mem pte &&& PTE_V ≠ 0
        · rw [if_pos hv] at hres
          simp only [Prod.mk.injEq] at hres
          exact absurd hres.2 neg_EINVAL_ne
        rw [if_neg hv] at hres
        have hv0 : k1.mem pte &&& PTE_V = 0 := by simpa using hv
        have hu0 : IS_USER_VA va := by simpa using huser 0 (Nat.succ_pos n)
        obtain ⟨e0, hm0⟩ := hold 0 (Nat.succ_pos n)
        simp only [Nat.zero_mul, Nat.add_zero] at hm0
        have hm1 := hm0.mapped_stable hpost.stable
        obtain ⟨a0, hpa0, hea0, hve0⟩ := hm1
        rw [hpa0.walk_eq hu0 false] at hres
        simp only [hea0] at hres
        rw [if_neg (by simpa using hve0)] at hres
        by_cases hpz : PTE2PA e0 = 0
        · rw [if_pos hpz] at hres
          simp only [Prod.mk.injEq] at hres
          exact absurd hres.2 neg_ENOMEM_ne
        rw [if_neg hpz] at hres
        -- the state after the store of the new leaf entry
        obtain ⟨t0, ht0, hpte⟩ := hpost.inv.leaf_table hpost.path
        have hst2 := store_stable hv0 (PA2PTE (PTE2PA e0) ||| flags ||| PTE_V)
        have hinv2 : PgtInv (k1.store pte (PA2PTE (PTE2PA e0) ||| flags ||| PTE_V)) new.pgt
            (A1 ++ L1s) (A0 ++ L0s) := by
          rw [hpte]; exact hpost.inv.store_leaf ht0 (PX_lt 0 va) _
        have hf2 : FreeOk (k1.store pte (PA2PTE (PTE2PA e0) ||| flags ||| PTE_V)) :=
          hpost.free.free_of_eq rfl
        have hst02 := hpost.stable.stable_trans hst2
        have huser2 : ∀ i < n, IS_USER_VA (va + PGSIZE + i * PGSIZE) := by
          intro i hi
          have := huser (i + 1) (by omega)
          rw [show va + PGSIZE + i * PGSIZE = va + (i + 1) * PGSIZE by ring]
          exact this
        have hold2 : ∀ i < n, ∃ e, Mapped (k1.store pte (PA2PTE (PTE2PA e0) ||| flags ||| PTE_V))
            old.pgt (va + PGSIZE + i * PGSIZE) e := by
          intro i hi
          obtain ⟨e, he⟩ := hold (i + 1) (by omega)
          rw [show va + PGSIZE + i * PGSIZE = va + (i + 1) * PGSIZE by ring]
          exact ⟨e, he.mapped_stable hst02⟩
        obtain ⟨B1, B0, hinv3, hf3, hg3, hst3, hrc3, hno3, hmap3⟩ :=
          ih (va + PGSIZE) _ k2 _ _ hinv2 hf2 huser2 hold2 hres
        refine ⟨B1 ++ A1, B0 ++ A0, ?_, hf3, ?_, hst02.stable_trans hst3, ?_, ?_, ?_⟩
        · rw [List.append_assoc, List.append_assoc]; exact hinv3
        · exact (hpost.grows.grows_of_eq rfl).grows_trans hg3
        · rw [hrc3]; exact hpost.refcnt
        · rw [hno3]; exact hpost.nextobj
        · intro i hi e he
          cases i with
          | zero =>
            simp only [Nat.zero_mul, Nat.add_zero] at he ⊢
            have hee : e = e0 := he.unique hm0
            subst hee
            refine ⟨hpz, Mapped.mapped_stable hst3 ?_⟩
            refine ⟨pte, hpost.path.path_stable hst2, ?_, pte_valid_of_or _ _⟩
            rw [store_mem, if_pos rfl]
          | succ j =>
            have h1 := hmap3 j (by omega) e (by
              rw [show va + PGSIZE + j * PGSIZE = va + (j + 1) * PGSIZE by ring]
              exact he.mapped_stable hst02)
            rw [show va + PGSIZE + j * PGSIZE = va + (j + 1) * PGSIZE by ring] at h1
            exact h1

theorem mm_mappages_cow_ok {k k2 : Kernel} {mm mm2 oldmm : Mm} {vma oldvma : Vma}
    (h : mm_mappages_cow k mm oldmm vma oldvma = some (k2, mm2, 0)) :
    IS_USER_VA vma.vm_start ∧ IS_USER_VA vma.vm_end ∧ PGALIGNED vma.vm_start ∧
    PGALIGNED vma.vm_end ∧
    cowLoop mm oldmm vma.pte_flags (npages vma.vm_start vma.vm_end) vma.vm_start k = (k2, 0) ∧
    mm2 = { mm with vma := vma :: mm.vma } := by
  unfold mm_mappages_cow at h
  split_ifs at h with h1 h2 h3 h4 h5 h6
  · simp only [Option.some.injEq, Prod.mk.injEq] at h
    exact absurd h.2.2 neg_EINVAL_ne
  · cases hc : cowLoop mm oldmm vma.pte_flags (npages vma.vm_start vma.vm_end) vma.vm_start k with
    | mk k1 ret =>
      rw [hc] at h
      simp only at h
      by_cases hr : ret = 0
      · rw [if_pos hr] at h
        simp only [Option.some.injEq, Prod.mk.injEq] at h
        obtain ⟨rfl, rfl, -⟩ := h
        subst hr
        push_neg at h1
        exact ⟨h1.1, h1.2, h2, h3, rfl, rfl⟩
      · rw [if_neg hr] at h
        cases hfv : freevma k1 mm vma true with
        | none => rw [hfv] at h; simp at h
        | some k3 =>
          rw [hfv] at h
          simp only [Option.some.injEq, Prod.mk.injEq] at h
          exact absurd h.2.2 hr

theorem copyLoop_id (old new : Mm) : ∀ (n va : Nat) (k : Kernel),
    (∀ i < n, ∃ pa, walkaddr k old (va + i * PGSIZE) = some pa ∧
      walkaddr k new (va + i * PGSIZE) = some pa) →
    copyLoop old new n va k = some k := by
  intro n
  induction n with
  | zero => intro va k _; rfl
  | succ n ih =>
    intro va k h
    obtain ⟨pa, h1, h2⟩ := h 0 (Nat.succ_pos n)
    simp only [Nat.zero_mul, Nat.add_zero] at h1 h2
    rw [copyLoop, h1, h2]
    simp only [memmove_self]
    apply ih
    intro i hi
    have := h (i + 1) (by omega)
    rw [show va + PGSIZE + i * PGSIZE = va + (i + 1) * PGSIZE by ring]
    exact this

theorem PTE2PA_idem (e f : Nat) (hf : f < 1024) :
    PTE2PA (PA2PTE (PTE2PA e) ||| f ||| PTE_V) = PTE2PA e :=
  PTE2PA_PA2PTE (PTE2PA e) f (PTE2PA_aligned e) (PTE2PA_lt e) hf

theorem user_of_or (x f : Nat) (hf : f &&& PTE_U ≠ 0) : (PA2PTE x ||| f ||| PTE_V) &&& PTE_U ≠ 0 := by
  intro h
  exact hf ((pte_flag_bit x f 4 (by norm_num) (by norm_num)).mp h)

/-- The loop of `mm_copy`, when it returns 0. -/
theorem copyVmas_spec (old : Mm) :
    ∀ (vmas : List Vma) (k k2 : Kernel) (new new2 : Mm) (L1s L0s : List Nat),
      PgtInv k new.pgt L1s L0s → FreeOk k →
      (∀ v ∈ vmas, v.pte_flags < 1024 ∧ v.pte_flags &&& PTE_U ≠ 0 ∧
        ∀ va, v.vm_start ≤ va → va < v.vm_end → PGALIGNED va →
          ∃ e, Mapped k old.pgt va e ∧ e &&& PTE_U ≠ 0) →
      copyVmas old vmas k new = some (k2, new2, 0) →
      new2.pgt = new.pgt ∧ new2.refcnt = new.refcnt ∧
      (∀ m ∈ new.vma, m ∈ new2.vma) ∧
      (∀ v ∈ vmas, ∃ m ∈ new2.vma, m.vm_start = v.vm_start ∧ m.vm_end = v.vm_end ∧
        m.pte_flags = v.pte_flags) ∧
      ∃ A1 A0, PgtInv k2 new.pgt (A1 ++ L1s) (A0 ++ L0s) ∧ FreeOk k2 ∧ Grows k k2 A1 A0 ∧
        Stable k k2 ∧ k2.refcnt = k.refcnt ∧
        ∀ v ∈ vmas, ∀ va, v.vm_start ≤ va → va < v.vm_end → PGALIGNED va →
          ∀ e, Mapped k old.pgt va e →
            PTE2PA e ≠ 0 ∧ IS_USER_VA va ∧
            Mapped k2 new.pgt va (PA2PTE (PTE2PA e) ||| v.pte_flags ||| PTE_V) := by
  intro vmas
  induction vmas with
  | nil =>
    intro k k2 new new2 L1s L0s hinv hf _ hres
    simp only [copyVmas, Option.some.injEq, Prod.mk.injEq] at hres
    obtain ⟨rfl, rfl, -⟩ := hres
    exact ⟨rfl, rfl, fun m hm => hm, fun v hv => by simp at hv, [], [], hinv, hf, Grows.grows_refl _,
      Stable.stable_refl _, rfl, fun v hv => by simp at hv⟩
  | cons vma next ih =>
    intro k k2 new new2 L1s L0s hinv hf hold hres
    rw [copyVmas] at hres
    simp only [mm_create_vma] at hres
    -- the state after the VMA object was allocated
    generalize hk1 : Kernel.mk k.mem k.freelist k.refcnt (k.nextobj + 1) = k1 at hres
    have hk1m : k1.mem = k.mem := by rw [← hk1]
    have hk1f : k1.freelist = k.freelist := by rw [← hk1]
    have hk1r : k1.refcnt = k.refcnt := by rw [← hk1]
    have hst1 : Stable k k1 := Stable.stable_of_eq hk1m hk1f
    generalize hnv : Vma.mk k.nextobj vma.vm_start vma.vm_end vma.pte_flags = new_vma at hres
    have hnvs : new_vma.vm_start = vma.vm_start := by rw [← hnv]
    have hnve : new_vma.vm_end = vma.vm_end := by rw [← hnv]
    have hnvf : new_vma.pte_flags = vma.pte_flags := by rw [← hnv]
    cases hcow : mm_mappages_cow k1 new old new_vma vma with
    | none => rw [hcow] at hres; simp at hres
    | some res =>
      obtain ⟨k3, new3, r⟩ := res
      rw [hcow] at hres
      simp only at hres
      by_cases hr : r ≠ 0
      · rw [if_pos hr] at hres
        cases hfv : mm_free_vmas k3 new3 with
        | none => rw [hfv] at hres; simp at hres
        | some res2 =>
          rw [hfv] at hres
          simp only [Option.some.injEq, Prod.mk.injEq] at hres
          exact absurd hres.2.2 neg_ENOMEM_ne
      rw [if_neg hr] at hres
      have hr0 : r = 0 := not_not.mp hr
      subst hr0
      obtain ⟨hus, hue, has, hae, hloop, hnew3⟩ := mm_mappages_cow_ok hcow
      rw [hnvs, hnve, hnvf] at hloop
      rw [hnvs] at hus has
      rw [hnve] at hue hae
      obtain ⟨hfl, hfu, hpagesR⟩ := hold vma (List.mem_cons_self _ _)
      have hpages : ∀ i < npages vma.vm_start vma.vm_end,
          ∃ e, Mapped k old.pgt (vma.vm_start + i * PGSIZE) e ∧ e &&& PTE_U ≠ 0 := by
        intro i hi
        have h := page_of_index has hae hi
        exact hpagesR _ h.1 h.2.1 h.2.2
      have huser : ∀ i < npages vma.vm_start vma.vm_end, IS_USER_VA (vma.vm_start + i * PGSIZE) := by
        intro i hi
        have := page_of_index has hae hi
        unfold IS_USER_VA at *
        omega
      have hmapk1 : ∀ i < npages vma.vm_start vma.vm_end,
          ∃ e, Mapped k1 old.pgt (vma.vm_start + i * PGSIZE) e := by
        intro i hi
        obtain ⟨e, he, _⟩ := hpages i hi
        exact ⟨e, he.mapped_stable hst1⟩
      obtain ⟨A1, A0, hinv3, hf3, hg3, hst3, hrc3, hno3, hmap3⟩ :=
        cowLoop_spec new old vma.pte_flags _ _ k1 k3 L1s L0s (hinv.pgt_of_eq hk1m hk1f)
          (hf.free_of_eq hk1f) huser hmapk1 hloop
      have hst03 := hst1.stable_trans hst3
      -- the copy of the pages moves every page onto itself
      have hcopy : copyLoop old new3 (npages vma.vm_start vma.vm_end) vma.vm_start k3 = some k3 := by
        apply copyLoop_id
        intro i hi
        obtain ⟨e, he, hU⟩ := hpages i hi
        have hpi := page_of_index has hae hi
        obtain ⟨_, hm⟩ := hmap3 i hi e (he.mapped_stable hst1)
        refine ⟨PTE2PA e, Mapped.walkaddr_eq old (huser i hi) hpi.2.2 (he.mapped_stable hst03) hU, ?_⟩
        have hpg : new3.pgt = new.pgt := by rw [hnew3]
        have := Mapped.walkaddr_eq new3 (huser i hi) hpi.2.2 (by rw [hpg]; exact hm)
          (user_of_or _ _ hfu)
        rw [this, PTE2PA_idem e _ hfl]
      rw [hcopy] at hres
      simp only at hres
      have hpg : new3.pgt = new.pgt := by rw [hnew3]
      have hold3 : ∀ v ∈ next, v.pte_flags < 1024 ∧ v.pte_flags &&& PTE_U ≠ 0 ∧
          ∀ va, v.vm_start ≤ va → va < v.vm_end → PGALIGNED va →
            ∃ e, Mapped k3 old.pgt va e ∧ e &&& PTE_U ≠ 0 := by
        intro v hv
        obtain ⟨h1, h2, h3⟩ := hold v (List.mem_cons_of_mem _ hv)
        refine ⟨h1, h2, fun va hs he ha => ?_⟩
        obtain ⟨e, he, hU⟩ := h3 va hs he ha
        exact ⟨e, he.mapped_stable hst03, hU⟩
      obtain ⟨hp4, hrf4, hsub4, hmir4, B1, B0, hinv4, hf4, hg4, hst4, hrc4, hmap4⟩ :=
        ih k3 k2 new3 new2 (A1 ++ L1s) (A0 ++ L0s) (by rw [hpg]; exact hinv3) hf3 hold3 hres
      rw [hpg] at hp4 hinv4 hmap4
      refine ⟨hp4, by rw [hrf4, hnew3], ?_, ?_, B1 ++ A1, B0 ++ A0, ?_, hf4, ?_,
        hst03.stable_trans hst4, ?_, ?_⟩
      · intro m hm
        apply hsub4
        rw [hnew3]; exact List.mem_cons_of_mem _ hm
      · intro v hv
        rcases List.mem_cons.mp hv with h | h
        · subst h
          exact ⟨new_vma, hsub4 _ (by rw [hnew3]; exact List.mem_cons_self _ _), hnvs, hnve, hnvf⟩
        · exact hmir4 v h
      · rw [List.append_assoc, List.append_assoc]; exact hinv4
      · have h := ((Grows.grows_refl k).grows_of_eq hk1f).grows_trans hg3
        simp only [List.append_nil] at h
        exact h.grows_trans hg4
      · rw [hrc4, hrc3, hk1r]
      · intro v hv
        rcases List.mem_cons.mp hv with h | h
        · subst h
          intro va hs he ha e hm
          obtain ⟨i, hi, rfl⟩ := index_of_page has hs he ha
          obtain ⟨hne, hm2⟩ := hmap3 i hi e (hm.mapped_stable hst1)
          exact ⟨hne, huser i hi, hm2.mapped_stable hst4⟩
        · intro va hs he ha e hm
          exact hmap4 v h va hs he ha e (hm.mapped_stable hst03)

/-- What `mm_copy` establishes when it returns 0, from the two well-formed
tables and the mapped user regions of the parent. -/
theorem mm_copy_spec {k k2 : Kernel} {old new new2 : Mm} {L1o L0o L1n L0n : List Nat}
    (hf : FreeOk k) (hold : PgtInv k old.pgt L1o L0o) (hnew : PgtInv k new.pgt L1n L0n)
    (hu : UserVmas k old) (hres : mm_copy k old new = some (k2, new2, 0)) :
    new2.pgt = new.pgt ∧
    (∀ v ∈ old.vma, ∃ m ∈ new2.vma, m.vm_start = v.vm_start ∧ m.vm_end = v.vm_end ∧
      m.pte_flags = v.pte_flags) ∧
    (∃ A1 A0, PgtInv k2 new.pgt (A1 ++ L1n) (A0 ++ L0n) ∧ Grows k k2 A1 A0) ∧
    FreeOk k2 ∧ k2.refcnt = k.refcnt ∧
    ∀ v ∈ old.vma, ∀ va, v.vm_start ≤ va → va < v.vm_end → PGALIGNED va →
      ∃ e, e &&& PTE_V ≠ 0 ∧ e &&& PTE_U ≠ 0 ∧ PTE2PA e ≠ 0 ∧ IS_USER_VA va ∧
        leafPte k old va = some e ∧ Mapped k2 old.pgt va e ∧
        Mapped k2 new.pgt va (PA2PTE (PTE2PA e) ||| v.pte_flags ||| PTE_V) := by
  have hold2 : ∀ v ∈ old.vma, v.pte_flags < 1024 ∧ v.pte_flags &&& PTE_U ≠ 0 ∧
      ∀ va, v.vm_start ≤ va → va < v.vm_end → PGALIGNED va →
        ∃ e, Mapped k old.pgt va e ∧ e &&& PTE_U ≠ 0 := by
    intro v hv
    obtain ⟨h1, h2, h3⟩ := hu v hv
    refine ⟨h1, h2, fun va hs he ha => ?_⟩
    obtain ⟨e, hl, hV, hU⟩ := h3 va hs he ha
    exact ⟨e, (hold.mapped_of_leafPte hf hl hV).2, hU⟩
  obtain ⟨hp, _, _, hmir, A1, A0, hinv2, hf2, hg, hst, hrc, hmap⟩ :=
    copyVmas_spec old old.vma k k2 new new2 L1n L0n hnew hf hold2 hres
  refine ⟨hp, hmir, ⟨A1, A0, hinv2, hg⟩, hf2, hrc, ?_⟩
  intro v hv va hs he ha
  obtain ⟨e, hl, hV, hU⟩ := (hu v hv).2.2 va hs he ha
  have hm := (hold.mapped_of_leafPte hf hl hV).2
  obtain ⟨hne, hua, hm2⟩ := hmap v hv va hs he ha e hm
  exact ⟨e, hV, hU, hne, hua, hl, hm.mapped_stable hst, hm2⟩

/-- C3: after a successful `mm_copy(old, new)` from a state in which every
page of every VMA of `old` has a valid user leaf entry, `new` has a VMA with
the same `vm_start`, `vm_end` and `pte_flags` for each VMA of `old`, and on
every page of those VMAs `walkaddr(new, va)` and `walkaddr(old, va)` are the
same non-zero frame. -/
theorem mm_copy_child_reads_parent_frames (k k2 : Kernel) (old new new2 : Mm)
    (L1o L0o L1n L0n : List Nat)
    (hf : FreeOk k) (hold : PgtInv k old.pgt L1o L0o) (hnew : PgtInv k new.pgt L1n L0n)
    (hu : UserVmas k old) (hres : mm_copy k old new = some (k2, new2, 0)) :
    (∀ v ∈ old.vma, ∃ m ∈ new2.vma, m.vm_start = v.vm_start ∧ m.vm_end = v.vm_end ∧
      m.pte_flags = v.pte_flags) ∧
    ∀ v ∈ old.vma, ∀ va, v.vm_start ≤ va → va < v.vm_end → PGALIGNED va →
      ∃ pa, pa ≠ 0 ∧ walkaddr k2 new2 va = some pa ∧ walkaddr k2 old va = some pa := by
  obtain ⟨hp, hmir, -, -, -, hpages⟩ := mm_copy_spec hf hold hnew hu hres
  refine ⟨hmir, fun v hv va hs he ha => ?_⟩
  obtain ⟨e, hV, hU, hne, hua, -, hmo, hmn⟩ := hpages v hv va hs he ha
  obtain ⟨hfl, hfu, -⟩ := hu v hv
  refine ⟨PTE2PA e, hne, ?_, Mapped.walkaddr_eq old hua ha hmo hU⟩
  have := Mapped.walkaddr_eq new2 hua ha (by rw [hp]; exact hmn) (user_of_or _ _ hfu)
  rw [this, PTE2PA_idem e _ hfl]

/-- C7: after a successful `mm_copy(old, new)`, on every page of a VMA of
`old` whose `pte_flags` do not include W the leaf entry of `old` is the
entry it was before the call, and the leaf entry of `new` has W clear. -/
theorem mm_copy_readonly_stays_readonly (k k2 : Kernel) (old new new2 : Mm)
    (L1o L0o L1n L0n : List Nat)
    (hf : FreeOk k) (hold : PgtInv k old.pgt L1o L0o) (hnew : PgtInv k new.pgt L1n L0n)
    (hu : UserVmas k old) (hres : mm_copy k old new = some (k2, new2, 0)) :
    ∀ v ∈ old.vma, v.pte_flags &&& PTE_W = 0 →
      ∀ va, v.vm_start ≤ va → va < v.vm_end → PGALIGNED va →
        (∃ e, leafPte k old va = some e ∧ leafPte k2 old va = some e) ∧
        ∃ e2, leafPte k2 new2 va = some e2 ∧ e2 &&& PTE_V ≠ 0 ∧ e2 &&& PTE_W = 0 := by
  obtain ⟨hp, -, -, -, -, hpages⟩ := mm_copy_spec hf hold hnew hu hres
  intro v hv hw va hs he ha
  obtain ⟨e, hV, hU, hne, hua, hl, hmo, hmn⟩ := hpages v hv va hs he ha
  refine ⟨⟨e, hl, Mapped.leafPte_eq old hua hmo⟩, _, Mapped.leafPte_eq new2 hua (by rw [hp]; exact hmn),
    pte_valid_of_or _ _, ?_⟩
  exact (pte_flag_bit _ _ 2 (by norm_num) (by norm_num)).mpr hw

theorem PgtInv.isPtPage_iff {k : Kernel} {pgt : Nat} {L1s L0s : List Nat}
    (hinv : PgtInv k pgt L1s L0s) (t : Nat) : IsPtPage k pgt t ↔ t ∈ L1s ++ L0s := by
  constructor
  · rintro (⟨i, hi, hv, rfl⟩ | ⟨i, hi, hv, j, hj, hv2, rfl⟩)
    · exact List.mem_append_left _ (hinv.root_sound i hi hv)
    · exact List.mem_append_right _ (hinv.l1_sound _ (hinv.root_sound i hi hv) j hj hv2)
  · intro h
    rcases List.mem_append.mp h with h | h
    · obtain ⟨i, hi, hv, he⟩ := hinv.root_complete t h
      exact Or.inl ⟨i, hi, hv, he⟩
    · obtain ⟨t1, ht1, j, hj, hv, he⟩ := hinv.l1_complete t h
      obtain ⟨i, hi, hv1, he1⟩ := hinv.root_complete t1 ht1
      exact Or.inr ⟨i, hi, hv1, j, hj, by rw [he1]; exact hv, by rw [he1]; exact he⟩

/-- C8: a successful `mm_copy(old, new)` only takes frames from the head of
the free list (it returns none), the frames it takes are pairwise distinct,
each of them is an intermediate page-table page of `new` after the call and
was not one before, and every intermediate page-table page of `new` after the
call either was one before or is one of the frames taken: the frames consumed
are exactly the page-table pages created in `new`. -/
theorem mm_copy_allocates_only_tables (k k2 : Kernel) (old new new2 : Mm)
    (L1o L0o L1n L0n : List Nat)
    (hf : FreeOk k) (hold : PgtInv k old.pgt L1o L0o) (hnew : PgtInv k new.pgt L1n L0n)
    (hu : UserVmas k old) (hres : mm_copy k old new = some (k2, new2, 0)) :
    ∃ taken, k.freelist = taken ++ k2.freelist ∧ taken.Nodup ∧
      freepages_count k = taken.length + freepages_count k2 ∧
      (∀ p ∈ taken, IsPtPage k2 new2.pgt p ∧ ¬ IsPtPage k new.pgt p) ∧
      ∀ t, IsPtPage k2 new2.pgt t → IsPtPage k new.pgt t ∨ t ∈ taken := by
  obtain ⟨hp, -, ⟨A1, A0, hinv2, taken, htk, hperm⟩, -, -, -⟩ := mm_copy_spec hf hold hnew hu hres
  rw [hp]
  have hnd : taken.Nodup := by
    have := hf.1; rw [htk] at this
    exact (List.nodup_append.mp this).1
  refine ⟨taken, htk, hnd, by simp [freepages_count, htk], ?_, ?_⟩
  · intro p hp
    have hpA : p ∈ A1 ++ A0 := hperm.subset hp
    constructor
    · rw [hinv2.isPtPage_iff]
      rcases List.mem_append.mp hpA with h | h
      · exact List.mem_append_left _ (List.mem_append_left _ h)
      · exact List.mem_append_right _ (List.mem_append_left _ h)
    · rw [hnew.isPtPage_iff]
      intro h
      exact hnew.notfree p (List.mem_cons_of_mem _ h) (by rw [htk]; exact List.mem_append_left _ hp)
  · intro t ht
    rw [hinv2.isPtPage_iff] at ht
    rw [hnew.isPtPage_iff]
    rcases List.mem_append.mp ht with h | h
    · rcases List.mem_append.mp h with h | h
      · exact Or.inr (hperm.symm.subset (List.mem_append_left _ h))
      · exact Or.inl (List.mem_append_left _ h)
    · rcases List.mem_append.mp h with h | h
      · exact Or.inr (hperm.symm.subset (List.mem_append_right _ h))
      · exact Or.inl (List.mem_append_right _ h)

/-! ### The fork scenario satisfies the hypotheses -/

set_option maxRecDepth 100000 in
theorem forkK_free : FreeOk forkK := by decide

set_option maxRecDepth 100000 in
theorem forkOld_inv :
    PgtInv forkK forkOld.pgt [0x80403000, 0x80401000] [0x80404000, 0x80402000] := by
  constructor <;> decide

set_option maxRecDepth 100000 in
theorem forkNew_inv : PgtInv forkK forkNew.pgt [0x80408000] [0x80409000] := by
  constructor <;> decide

set_option maxRecDepth 100000 in
theorem forkOld_vma : forkOld.vma =
    [{ id := 2, vm_start := 0x1000, vm_end := 0x2000, pte_flags := 22 },
     { id := 1, vm_start := 0x3000, vm_end := 0x4000, pte_flags := 26 }] := by
  decide

set_option maxRecDepth 100000 in
theorem forkOld_user : UserVmas forkK forkOld := by
  intro v hv
  rw [forkOld_vma] at hv
  simp only [List.mem_cons, List.mem_singleton, List.not_mem_nil, or_false] at hv
  rcases hv with rfl | rfl
  · refine ⟨by decide, by decide, fun va hs he ha => ?_⟩
    have hva : va = 0x1000 := by
      unfold PGALIGNED PGSIZE at ha
      simp only at hs he
      omega
    subst hva
    exact ⟨0x20101817, by decide, by decide, by decide⟩
  · refine ⟨by decide, by decide, fun va hs he ha => ?_⟩
    have hva : va = 0x3000 := by
      unfold PGALIGNED PGSIZE at ha
      simp only at hs he
      omega
    subst hva
    exact ⟨0x2010141b, by decide, by decide, by decide⟩

set_option maxRecDepth 100000 in
theorem fork_result : mm_copy forkK forkOld forkNew = some (forkK2, forkNew2, 0) := by
  have h1 : (mm_copy forkK forkOld forkNew).isSome = true := by decide
  have h2 : (mm_copy forkK forkOld forkNew).map (fun r => r.2.2) = some 0 := by decide
  unfold forkK2 forkNew2
  cases h : mm_copy forkK forkOld forkNew with
  | none => rw [h] at h1; simp at h1
  | some r =>
    obtain ⟨a, b, c⟩ := r
    rw [h] at h2
    simp only [Option.map_some', Option.some.injEq] at h2
    subst h2
    rfl

/-! ## The claims -/

set_option maxRecDepth 100000 in
/-- C1, evaluated on the fork of `forkScenario 16`: the parent's leaf entry
at `0x1000` has W set before `mm_copy`; the call returns 0; after it the
parent's entry is the same word, still with W set and with both
software-reserved bits clear (no COW mark), and the child's entry is that
same word as well. -/
theorem mm_copy_leaves_shared_page_writable :
    (mm_copy forkK forkOld forkNew).map (fun r => r.2.2) = some 0 ∧
    leafPte forkK forkOld 0x1000 = some 0x20101817 ∧
    leafPte forkK2 forkOld 0x1000 = some 0x20101817 ∧
    leafPte forkK2 forkNew2 0x1000 = some 0x20101817 ∧
    0x20101817 &&& PTE_W ≠ 0 ∧ 0x20101817 &&& PTE_RSW = 0 := by
  refine ⟨?_, ?_, ?_, ?_, ?_, ?_⟩ <;> decide

set_option maxRecDepth 100000 in
/-- C2, evaluated on the fork of `forkScenario 16`: after the fork the parent
reads 111 at `0x1000`; a user store of 222 through the child at `0x1000` is
not trapped, and the parent then reads 222 there. -/
theorem child_store_reaches_parent :
    user_load forkK2 forkOld 0x1000 = some 111 ∧
    user_load (user_store forkK2 forkNew2 0x1000 222) forkOld 0x1000 = some 222 := by
  refine ⟨?_, ?_⟩ <;> decide

set_option maxRecDepth 100000 in
/-- C4, evaluated on the fork of `forkScenario 16` followed by
`mm_free(new)`: the frame `0x80406000` of the parent's page `0x1000` is on
the free list afterwards, while the parent still maps it through a valid
leaf entry. -/
theorem mm_free_child_frees_parent_frame :
    (mm_free 3 forkK2 forkNew2).map
        (fun k => (decide (0x80406000 ∈ k.freelist), walkaddr k forkOld 0x1000,
          freepages_count k)) =
      some (true, some 0x80406000, 11) ∧
    walkaddr forkK2 forkOld 0x1000 = some 0x80406000 ∧
    decide (0x80406000 ∈ forkK2.freelist) = false := by
  refine ⟨?_, ?_, ?_⟩ <;> decide

set_option maxRecDepth 100000 in
/-- C5, evaluated on `forkScenario 16`: before the fork the frame
`0x80406000` is mapped by one valid user leaf entry (the parent's page
`0x1000`, mapped by `mm_mappages` after `uvm_init`) and its reference count
is 0; after the fork it is mapped by two and its count is still 0. -/
theorem refcnt_stays_zero :
    walkaddr forkK forkOld 0x1000 = some 0x80406000 ∧
    forkK.refcnt (frameIndex 0x80406000) = 0 ∧
    walkaddr forkK2 forkOld 0x1000 = some 0x80406000 ∧
    walkaddr forkK2 forkNew2 0x1000 = some 0x80406000 ∧
    forkK2.refcnt (frameIndex 0x80406000) = 0 := by
  refine ⟨?_, ?_, ?_, ?_, ?_⟩ <;> decide

set_option maxRecDepth 100000 in
/-- C6, evaluated on `fork2Scenario 13`: with two free frames left the fork
maps the parent's page `0x1000` in the child and then fails to allocate the
level-0 table for `0x200000`. `mm_copy` returns `-ENOMEM` and the child has
no VMA and no entry at `0x1000`, but the frame `0x80407000`, which the parent
still maps at `0x1000`, is on the free list. -/
theorem mm_copy_failure_frees_parent_frame :
    (fork2Scenario 13).map
        (fun (k, old, new, r) =>
          (r, new.vma, leafPte k new 0x1000, walkaddr k old 0x1000, k.freelist)) =
      some (-ENOMEM, [], some 0, some 0x80407000, [0x80407000]) := by
  decide

/-- C10, on the code: whenever its assertions hold `page_refcnt_increase`
returns 0 and leaves the whole state, the reference-count table included, as
it was. -/
theorem page_refcnt_increase_returns_zero (k : Kernel) (pa : Nat) :
    page_refcnt_increase k pa =
      if PGALIGNED pa ∧ VALID_PHYS_ADDR pa then some (k, 0) else none := by
  unfold page_refcnt_increase
  by_cases h1 : PGALIGNED pa
  · by_cases h2 : VALID_PHYS_ADDR pa
    · simp [h1, h2, NR_OF_PAGES, PHYS_MEM_SIZE, PGSIZE]
    · simp [h1, h2]
  · simp [h1]

/-- Witness of C3: the fork of `forkScenario 16` (a writable user page at
`0x1000` and a read-only one at `0x3000`) satisfies the hypotheses, and the
child reads the frames of the parent. -/
theorem mm_copy_child_reads_parent_frames_witness :
    (FreeOk forkK ∧ UserVmas forkK forkOld ∧
      mm_copy forkK forkOld forkNew = some (forkK2, forkNew2, 0)) ∧
    ((∀ v ∈ forkOld.vma, ∃ m ∈ forkNew2.vma, m.vm_start = v.vm_start ∧ m.vm_end = v.vm_end ∧
        m.pte_flags = v.pte_flags) ∧
      ∀ v ∈ forkOld.vma, ∀ va, v.vm_start ≤ va → va < v.vm_end → PGALIGNED va →
        ∃ pa, pa ≠ 0 ∧ walkaddr forkK2 forkNew2 va = some pa ∧
          walkaddr forkK2 forkOld va = some pa) :=
  ⟨⟨forkK_free, forkOld_user, fork_result⟩,
    mm_copy_child_reads_parent_frames forkK forkK2 forkOld forkNew forkNew2 _ _ _ _
      forkK_free forkOld_inv forkNew_inv forkOld_user fork_result⟩

/-- Witness of C7: in the fork of `forkScenario 16` the read-only page at
`0x3000` keeps its entry in the parent and is not writable in the child. -/
theorem mm_copy_readonly_stays_readonly_witness :
    (FreeOk forkK ∧ UserVmas forkK forkOld ∧
      mm_copy forkK forkOld forkNew = some (forkK2, forkNew2, 0)) ∧
    ∀ v ∈ forkOld.vma, v.pte_flags &&& PTE_W = 0 →
      ∀ va, v.vm_start ≤ va → va < v.vm_end → PGALIGNED va →
        (∃ e, leafPte forkK forkOld va = some e ∧ leafPte forkK2 forkOld va = some e) ∧
        ∃ e2, leafPte forkK2 forkNew2 va = some e2 ∧ e2 &&& PTE_V ≠ 0 ∧ e2 &&& PTE_W = 0 :=
  ⟨⟨forkK_free, forkOld_user, fork_result⟩,
    mm_copy_readonly_stays_readonly forkK forkK2 forkOld forkNew forkNew2 _ _ _ _
      forkK_free forkOld_inv forkNew_inv forkOld_user fork_result⟩

/-- Witness of C8: the fork of `forkScenario 16` takes two frames, the
level-1 and the level-0 table of the child. -/
theorem mm_copy_allocates_only_tables_witness :
    (FreeOk forkK ∧ UserVmas forkK forkOld ∧
      mm_copy forkK forkOld forkNew = some (forkK2, forkNew2, 0)) ∧
    ∃ taken, forkK.freelist = taken ++ forkK2.freelist ∧ taken.Nodup ∧
      freepages_count forkK = taken.length + freepages_count forkK2 ∧
      (∀ p ∈ taken, IsPtPage forkK2 forkNew2.pgt p ∧ ¬ IsPtPage forkK forkNew.pgt p) ∧
      ∀ t, IsPtPage forkK2 forkNew2.pgt t → IsPtPage forkK forkNew.pgt t ∨ t ∈ taken :=
  ⟨⟨forkK_free, forkOld_user, fork_result⟩,
    mm_copy_allocates_only_tables forkK forkK2 forkOld forkNew forkNew2 _ _ _ _
      forkK_free forkOld_inv forkNew_inv forkOld_user fork_result⟩

/-! ### Lemmas for the life of one address space -/

theorem freeOk_of_perm {k0 k : Kernel} (h0 : FreeOk k0) {X : List Nat}
    (hp : k0.freelist.Perm (X ++ k.freelist)) : FreeOk k := by
  constructor
  · have := (hp.nodup_iff).mp h0.1
    exact (List.nodup_append.mp this).2.1
  · intro p hp2
    exact h0.2 p (hp.symm.subset (List.mem_append_right _ hp2))

theorem perm_left_valid {k0 : Kernel} (h0 : FreeOk k0) {X Y : List Nat}
    (hp : k0.freelist.Perm (X ++ Y)) {p : Nat} (hx : p ∈ X) :
    PGALIGNED p ∧ p ≠ 0 ∧ p < 2 ^ 64 := by
  have := h0.valid_lt (hp.symm.subset (List.mem_append_left _ hx))
  exact ⟨this.1, this.2.1, this.2.2⟩

theorem Route.of_path {k : Kernel} {pgt va a : Nat} (h : Path k pgt va a) : Route k pgt va a :=
  ⟨h.1, h.2.2.1, h.2.2.2.2.1⟩

theorem PgtInv.path_of_route {k : Kernel} {pgt : Nat} {L1s L0s : List Nat}
    (hinv : PgtInv k pgt L1s L0s) (hf : FreeOk k) {va a : Nat} (h : Route k pgt va a) :
    Path k pgt va a := by
  have := hinv.path hf va h.1 h.2.1
  rw [← h.2.2] at this
  exact this

theorem Route.route_unique {k : Kernel} {pgt va a b : Nat} (h : Route k pgt va a)
    (h2 : Route k pgt va b) : a = b := by
  rw [h.2.2, h2.2.2]

theorem Route.route_walk_eq {k : Kernel} (mm : Mm) {va a0 : Nat} (hu : IS_USER_VA va)
    (hp : Route k mm.pgt va a0) (alloc : Bool) : walk k mm va alloc = (k, some a0) := by
  obtain ⟨v2, v1, ha⟩ := hp
  unfold walk
  rw [if_neg (not_not.mpr hu)]
  unfold walkLevel
  rw [if_pos v2]
  unfold walkLevel
  rw [if_pos v1]
  unfold walkLevel
  rw [ha]

theorem walk_noalloc_route {k k1 : Kernel} {mm : Mm} {va a0 : Nat}
    (h : walk k mm va false = (k1, some a0)) :
    k1 = k ∧ IS_USER_VA va ∧ Route k mm.pgt va a0 := by
  have h1 := walk_noalloc_fst k mm va
  rw [h] at h1
  obtain ⟨hu, v2, v1, ha⟩ := walk_noalloc_some h
  exact ⟨h1, hu, v2, v1, ha⟩

theorem walk_noalloc_none {k k1 : Kernel} {mm : Mm} {va : Nat}
    (h : walk k mm va false = (k1, none)) :
    k1 = k ∧ ∀ a, IS_USER_VA va → ¬ Route k mm.pgt va a := by
  have h1 := walk_noalloc_fst k mm va
  rw [h] at h1
  refine ⟨h1, fun a hu hr => ?_⟩
  have := hr.route_walk_eq mm hu false
  rw [h] at this
  simp at this

/-- The index fields determine a page-aligned user address. -/
theorem va_of_PX {va vb : Nat} (ha : PGALIGNED va) (hb : PGALIGNED vb) (hua : IS_USER_VA va)
    (hub : IS_USER_VA vb) (h2 : PX 2 va = PX 2 vb) (h1 : PX 1 va = PX 1 vb)
    (h0 : PX 0 va = PX 0 vb) : va = vb := by
  unfold PX at h2 h1 h0
  simp only [Nat.shiftRight_eq_div_pow, show (511 : Nat) = 2 ^ 9 - 1 from rfl,
    Nat.and_pow_two_sub_one_eq_mod] at h2 h1 h0
  unfold PGALIGNED PGSIZE at ha hb
  unfold IS_USER_VA USER_TOP at hua hub
  norm_num at h2 h1 h0 hua hub
  omega

theorem PgtInv.route_table {k : Kernel} {pgt : Nat} {L1s L0s : List Nat}
    (hinv : PgtInv k pgt L1s L0s) {va a : Nat} (h : Route k pgt va a) :
    PTE2PA (k.mem (pgt + 8 * PX 2 va)) ∈ L1s ∧
    PTE2PA (k.mem (PTE2PA (k.mem (pgt + 8 * PX 2 va)) + 8 * PX 1 va)) ∈ L0s := by
  have m1 := hinv.root_sound _ (PX_lt 2 va) h.1
  exact ⟨m1, hinv.l1_sound _ m1 _ (PX_lt 1 va) h.2.1⟩

theorem PgtInv.mem_aligned1 {k : Kernel} {pgt : Nat} {L1s L0s : List Nat}
    (hinv : PgtInv k pgt L1s L0s) {t : Nat} (ht : t ∈ L1s) : PGALIGNED t :=
  hinv.aligned t (List.mem_cons_of_mem _ (List.mem_append_left _ ht))

theorem PgtInv.mem_aligned0 {k : Kernel} {pgt : Nat} {L1s L0s : List Nat}
    (hinv : PgtInv k pgt L1s L0s) {t : Nat} (ht : t ∈ L0s) : PGALIGNED t :=
  hinv.aligned t (List.mem_cons_of_mem _ (List.mem_append_right _ ht))

theorem PgtInv.root_aligned {k : Kernel} {pgt : Nat} {L1s L0s : List Nat}
    (hinv : PgtInv k pgt L1s L0s) : PGALIGNED pgt :=
  hinv.aligned pgt (List.mem_cons_self _ _)

/-- Two page-aligned user addresses with the same leaf entry are the same. -/
theorem PgtInv.route_inj {k : Kernel} {pgt : Nat} {L1s L0s : List Nat}
    (hinv : PgtInv k pgt L1s L0s) {va vb a : Nat} (ha : Route k pgt va a)
    (hb : Route k pgt vb a) (hal : PGALIGNED va) (hbl : PGALIGNED vb) (hua : IS_USER_VA va)
    (hub : IS_USER_VA vb) : va = vb := by
  obtain ⟨ma1, ma0⟩ := hinv.route_table ha
  obtain ⟨mb1, mb0⟩ := hinv.route_table hb
  have e := ha.2.2.symm.trans hb.2.2
  obtain ⟨e0, p0⟩ := page_word_inj (hinv.mem_aligned0 ma0) (hinv.mem_aligned0 mb0) (PX_lt 0 va)
    (PX_lt 0 vb) e
  obtain ⟨e1, p1⟩ := hinv.l1_inj _ ma1 _ (PX_lt 1 va) ha.2.1 _ mb1 _ (PX_lt 1 vb) hb.2.1 e0
  have p2 := hinv.root_inj _ (PX_lt 2 va) ha.1 _ (PX_lt 2 vb) hb.1 e1
  exact va_of_PX hal hbl hua hub p2 p1 p0

/-- A state that agrees with `k` on the root and the level-1 tables, and whose free
list avoids the tables, has the same well-formed table. -/
theorem PgtInv.of_sameInner {k k2 : Kernel} {pgt : Nat} {L1s L0s : List Nat}
    (h : PgtInv k pgt L1s L0s)
    (hs : ∀ t ∈ pgt :: L1s, ∀ j < 512, k2.mem (t + 8 * j) = k.mem (t + 8 * j))
    (hnf : ∀ t ∈ pgt :: (L1s ++ L0s), t ∉ k2.freelist) : PgtInv k2 pgt L1s L0s := by
  have hr : ∀ j < 512, k2.mem (pgt + 8 * j) = k.mem (pgt + 8 * j) :=
    fun j hj => hs pgt (List.mem_cons_self _ _) j hj
  have hl : ∀ t ∈ L1s, ∀ j < 512, k2.mem (t + 8 * j) = k.mem (t + 8 * j) :=
    fun t ht j hj => hs t (List.mem_cons_of_mem _ ht) j hj
  constructor
  · exact h.nodup
  · exact h.aligned
  · exact hnf
  · intro j hj hval
    rw [hr j hj] at hval ⊢
    exact h.root_sound j hj hval
  · intro t ht j hj hval
    rw [hl t ht j hj] at hval ⊢
    exact h.l1_sound t ht j hj hval
  · intro t ht
    obtain ⟨j, hj, hval, he⟩ := h.root_complete t ht
    exact ⟨j, hj, by rw [hr j hj]; exact hval, by rw [hr j hj]; exact he⟩
  · intro t ht
    obtain ⟨t2, ht2, j, hj, hval, he⟩ := h.l1_complete t ht
    exact ⟨t2, ht2, j, hj, by rw [hl t2 ht2 j hj]; exact hval, by rw [hl t2 ht2 j hj]; exact he⟩
  · intro j hj hv1 j2 hj2 hv2 he
    rw [hr j hj] at hv1 he
    rw [hr j2 hj2] at hv2 he
    exact h.root_inj j hj hv1 j2 hj2 hv2 he
  · intro t ht j hj hv1 t2 ht2 j2 hj2 hv2 he
    rw [hl t ht j hj] at hv1 he
    rw [hl t2 ht2 j2 hj2] at hv2 he
    exact h.l1_inj t ht j hj hv1 t2 ht2 j2 hj2 hv2 he

theorem Route.route_sameInner {k k2 : Kernel} {pgt : Nat} {L1s L0s : List Nat}
    (h : PgtInv k pgt L1s L0s)
    (hs : ∀ t ∈ pgt :: L1s, ∀ j < 512, k2.mem (t + 8 * j) = k.mem (t + 8 * j))
    {va a : Nat} (hr : Route k pgt va a) : Route k2 pgt va a := by
  obtain ⟨m1, -⟩ := h.route_table hr
  have e2 := hs pgt (List.mem_cons_self _ _) _ (PX_lt 2 va)
  have e1 := hs _ (List.mem_cons_of_mem _ m1) _ (PX_lt 1 va)
  unfold Route
  rw [e2, e1]
  exact hr

/-- A store to a word of a level-0 table leaves the root and the level-1 tables as
they were. -/
theorem PgtInv.leaf_sameInner {k k2 : Kernel} {pgt : Nat} {L1s L0s : List Nat}
    (h : PgtInv k pgt L1s L0s) {t0 j0 : Nat} (ht0 : t0 ∈ L0s) (hj0 : j0 < 512)
    (hm : ∀ a, a ≠ t0 + 8 * j0 → k2.mem a = k.mem a) :
    ∀ t ∈ pgt :: L1s, ∀ j < 512, k2.mem (t + 8 * j) = k.mem (t + 8 * j) := by
  intro t ht j hj
  apply hm
  intro he
  have hta : PGALIGNED t := by
    rcases List.mem_cons.mp ht with h1 | h1
    · exact h1 ▸ h.root_aligned
    · exact h.mem_aligned1 h1
  have := (page_word_inj hta (h.mem_aligned0 ht0) hj hj0 he).1
  have hnd := List.nodup_cons.mp h.nodup
  rcases List.mem_cons.mp ht with h1 | h1
  · exact hnd.1 (h1 ▸ this ▸ List.mem_append_right _ ht0)
  · exact (List.nodup_append.mp hnd.2).2.2 h1 (this ▸ ht0)

theorem perm_walk {K T1 T0 F fl A1 A0 fl2 : List Nat} {pgt : Nat}
    (h : K.Perm (pgt :: (T1 ++ T0) ++ F ++ fl)) (hfl : fl = A1 ++ A0 ++ fl2) :
    K.Perm (pgt :: ((A1 ++ T1) ++ (A0 ++ T0)) ++ F ++ fl2) := by
  subst hfl
  refine h.trans ?_
  rw [List.perm_iff_count]
  intro x
  simp only [List.count_append, List.count_cons]
  omega

theorem perm_take {K T F fl2 : List Nat} {pa : Nat}
    (h : K.Perm (T ++ F ++ (pa :: fl2))) : K.Perm (T ++ (pa :: F) ++ fl2) := by
  refine h.trans ?_
  rw [List.perm_iff_count]
  intro x
  simp only [List.count_append, List.count_cons]
  omega

theorem perm_give {K T F F2 fl : List Nat} {pa : Nat}
    (h : K.Perm (T ++ F ++ fl)) (hF : F.Perm (pa :: F2)) : K.Perm (T ++ F2 ++ (pa :: fl)) := by
  refine h.trans ?_
  rw [List.perm_iff_count] at hF ⊢
  intro x
  have := hF x
  simp only [List.count_append, List.count_cons] at this ⊢
  omega

theorem leaf_entry_rwx (pa flags : Nat)
    (h : flags &&& PTE_R ≠ 0 ∨ flags &&& PTE_W ≠ 0 ∨ flags &&& PTE_X ≠ 0) :
    (PA2PTE pa ||| flags ||| PTE_V) &&& PTE_RWX ≠ 0 := by
  intro h0
  rw [and_RWX_eq_zero_iff] at h0
  obtain ⟨r, w, x⟩ := h0
  have r2 := (pte_flag_bit pa flags 1 (by norm_num) (by norm_num)).mp r
  have w2 := (pte_flag_bit pa flags 2 (by norm_num) (by norm_num)).mp w
  have x2 := (pte_flag_bit pa flags 3 (by norm_num) (by norm_num)).mp x
  rcases h with h | h | h
  · exact h r2
  · exact h w2
  · exact h x2

theorem mask_testBit : ∀ b < 64, Nat.testBit (U64 - 1 - PTE_RWX) b = (decide (b = 0) || decide (4 ≤ b)) := by
  decide

theorem PTE2PA_testBit (x i : Nat) :
    (PTE2PA x).testBit i = (decide (i < 64) && (decide (12 ≤ i) && x.testBit (10 + (i - 12)))) := by
  unfold PTE2PA
  rw [show U64 = 2 ^ 64 from rfl, Nat.testBit_mod_two_pow, Nat.testBit_shiftLeft,
    Nat.testBit_shiftRight]

theorem PTE2PA_congr {x y : Nat} (h : ∀ b, 10 ≤ b → b < 62 → x.testBit b = y.testBit b) :
    PTE2PA x = PTE2PA y := by
  apply Nat.eq_of_testBit_eq
  intro i
  rw [PTE2PA_testBit, PTE2PA_testBit]
  by_cases h1 : i < 64
  · by_cases h2 : 12 ≤ i
    · rw [h (10 + (i - 12)) (by omega) (by omega)]
    · simp [h2]
  · simp [h1]

theorem remap_entry_pa (e flags : Nat) (hf : flags < 1024) :
    PTE2PA ((e &&& (U64 - 1 - PTE_RWX)) ||| flags) = PTE2PA e := by
  apply PTE2PA_congr
  intro b h1 h2
  rw [Nat.testBit_or, Nat.testBit_and, mask_testBit b (by omega)]
  have hfb : flags.testBit b = false := by
    apply Nat.testBit_lt_two_pow
    calc flags < 2 ^ 10 := by simpa using hf
      _ ≤ 2 ^ b := Nat.pow_le_pow_right (by norm_num) h1
  have : (4 ≤ b) := by omega
  simp [hfb, this]

theorem remap_entry_valid (e flags : Nat) (hv : e &&& PTE_V ≠ 0) :
    ((e &&& (U64 - 1 - PTE_RWX)) ||| flags) &&& PTE_V ≠ 0 := by
  have h0 : e &&& PTE_V = 0 ↔ e.testBit 0 = false := and_bit_eq_zero_iff e 0
  have h1 : ((e &&& (U64 - 1 - PTE_RWX)) ||| flags) &&& PTE_V = 0 ↔
      ((e &&& (U64 - 1 - PTE_RWX)) ||| flags).testBit 0 = false :=
    and_bit_eq_zero_iff ((e &&& (U64 - 1 - PTE_RWX)) ||| flags) 0
  rw [Ne, h1]
  rw [Ne, h0] at hv
  rw [Nat.testBit_or, Nat.testBit_and, mask_testBit 0 (by norm_num)]
  simp only [Bool.not_eq_false] at hv
  simp [hv]

theorem remap_entry_rwx (e flags : Nat)
    (h : flags &&& PTE_R ≠ 0 ∨ flags &&& PTE_W ≠ 0 ∨ flags &&& PTE_X ≠ 0) :
    ((e &&& (U64 - 1 - PTE_RWX)) ||| flags) &&& PTE_RWX ≠ 0 := by
  intro h0
  rw [and_RWX_eq_zero_iff] at h0
  have hb : ∀ n, ((e &&& (U64 - 1 - PTE_RWX)) ||| flags) &&& 2 ^ n = 0 → flags &&& 2 ^ n = 0 := by
    intro n hn
    rw [and_bit_eq_zero_iff] at hn ⊢
    rw [Nat.testBit_or] at hn
    simp only [Bool.or_eq_false_iff] at hn
    exact hn.2
  obtain ⟨r, w, x⟩ := h0
  rcases h with h | h | h
  · exact h (hb 1 r)
  · exact h (hb 2 w)
  · exact h (hb 3 x)

theorem MmInv.freeOk {k0 k : Kernel} {pgt : Nat} {vmas : List Vma} {L1s L0s Lw Kw : List Nat}
    (h : MmInv k0 k pgt vmas L1s L0s Lw Kw) (h0 : FreeOk k0) : FreeOk k :=
  freeOk_of_perm h0 h.perm

theorem MmInv.nodup_all {k0 k : Kernel} {pgt : Nat} {vmas : List Vma} {L1s L0s Lw Kw : List Nat}
    (h : MmInv k0 k pgt vmas L1s L0s Lw Kw) (h0 : FreeOk k0) :
    (pgt :: (L1s ++ L0s) ++ Lw.map (fun a => PTE2PA (k.mem a)) ++ k.freelist).Nodup :=
  (h.perm.nodup_iff).mp h0.1

theorem MmInv.owned_table {k0 k : Kernel} {pgt : Nat} {vmas : List Vma}
    {L1s L0s Lw Kw : List Nat} (h : MmInv k0 k pgt vmas L1s L0s Lw Kw) {a : Nat} (ha : a ∈ Lw) :
    ∃ t ∈ L0s, ∃ j < 512, a = t + 8 * j := by
  obtain ⟨v, -, va, -, -, -, -, hr⟩ := h.owned_cover a ha
  exact ⟨_, (h.pgt_inv.route_table hr).2, _, PX_lt 0 va, hr.2.2⟩

theorem MmInv.kernel_table {k0 k : Kernel} {pgt : Nat} {vmas : List Vma}
    {L1s L0s Lw Kw : List Nat} (h : MmInv k0 k pgt vmas L1s L0s Lw Kw) {a : Nat} (ha : a ∈ Kw) :
    ∃ t ∈ L0s, ∃ j < 512, a = t + 8 * j := by
  obtain ⟨va, -, hr⟩ := h.kernel_leaves a ha
  exact ⟨_, (h.pgt_inv.route_table hr).2, _, PX_lt 0 va, hr.2.2⟩

/-- A successful allocating walk keeps the invariant of the address space. -/
theorem MmInv.walk_alloc {k0 k k1 : Kernel} {mm : Mm} {vmas : List Vma}
    {L1s L0s Lw Kw : List Nat} (h : MmInv k0 k mm.pgt vmas L1s L0s Lw Kw) (h0 : FreeOk k0)
    {va a0 : Nat} (hw : walk k mm va true = (k1, some a0)) :
    ∃ L1s2 L0s2, MmInv k0 k1 mm.pgt vmas L1s2 L0s2 Lw Kw ∧ Route k1 mm.pgt va a0 ∧
      IS_USER_VA va ∧ (∃ t0 ∈ L0s2, a0 = t0 + 8 * PX 0 va) ∧
      k1.refcnt = k.refcnt ∧ k1.nextobj = k.nextobj := by
  have hfk := h.freeOk h0
  have hu : IS_USER_VA va := by
    by_contra hu
    unfold walk at hw
    rw [if_pos hu] at hw
    simp at hw
  obtain ⟨A1, A0, hpost⟩ := walk_alloc_post h.pgt_inv hfk hw
  have hinv := h.pgt_inv
  have leaf_same : ∀ t ∈ L0s, ∀ j < 512, k1.mem (t + 8 * j) = k.mem (t + 8 * j) := by
    intro t ht j hj
    have hta := hinv.mem_aligned0 ht
    have htm : t ∈ mm.pgt :: (L1s ++ L0s) := List.mem_cons_of_mem _ (List.mem_append_right _ ht)
    refine hpost.frame _ (not_inFree_of_page hfk hta (hinv.notfree t htm) hj) ?_
    intro t2 ht2 hin
    have ht2a : PGALIGNED t2 := by
      rcases List.mem_cons.mp ht2 with h1 | h1
      · exact h1 ▸ hinv.root_aligned
      · exact hinv.mem_aligned1 h1
    have e := page_word_in hta ht2a hj hin
    have hnd := List.nodup_cons.mp hinv.nodup
    rcases List.mem_cons.mp ht2 with h1 | h1
    · exact hnd.1 (h1 ▸ e ▸ List.mem_append_right _ ht)
    · exact (List.nodup_append.mp hnd.2).2.2 h1 (e ▸ ht)
  have lw_same : ∀ a ∈ Lw, k1.mem a = k.mem a := by
    intro a ha
    obtain ⟨t, ht, j, hj, rfl⟩ := h.owned_table ha
    exact leaf_same t ht j hj
  have route : ∀ va2 a, Route k mm.pgt va2 a → Route k1 mm.pgt va2 a := by
    intro va2 a hr
    exact Route.of_path ((hinv.path_of_route hfk hr).path_stable hpost.stable)
  refine ⟨A1 ++ L1s, A0 ++ L0s, ?_, Route.of_path hpost.path, hu,
    hpost.inv.leaf_table hpost.path, hpost.refcnt, hpost.nextobj⟩
  constructor
  · exact hpost.inv
  · intro t ht j hj hval
    rcases hpost.changed _ hval with ⟨e, hnot⟩ | h1
    · have ht2 : t ∈ mm.pgt :: L1s := by
        rcases List.mem_cons.mp ht with h1 | h1
        · exact h1 ▸ List.mem_cons_self _ _
        · rcases List.mem_append.mp h1 with h2 | h2
          · exfalso
            refine hnot t (List.mem_append_left _ h2) ⟨by omega, ?_⟩
            unfold PGSIZE; omega
          · exact List.mem_cons_of_mem _ h2
      rw [e] at hval ⊢
      exact h.inner_rwx t ht2 j hj hval
    · exact h1
  · intro t ht j hj hval
    rcases List.mem_append.mp ht with h1 | h1
    · rw [hpost.fresh0 t h1 j hj] at hval; simp at hval
    · rw [leaf_same t h1 j hj] at hval ⊢
      exact h.leaf_rwx t h1 j hj hval
  · intro t ht j hj hval
    rcases List.mem_append.mp ht with h1 | h1
    · rw [hpost.fresh0 t h1 j hj] at hval; simp at hval
    · rw [leaf_same t h1 j hj] at hval
      exact h.all_leaves t h1 j hj hval
  · intro a ha
    rw [lw_same a ha]; exact h.owned_valid a ha
  · intro a ha
    obtain ⟨v, hv, va2, h1, h2, h3, h4, hr⟩ := h.owned_cover a ha
    exact ⟨v, hv, va2, h1, h2, h3, h4, route va2 a hr⟩
  · intro a ha
    obtain ⟨va2, h1, hr⟩ := h.kernel_leaves a ha
    exact ⟨va2, h1, route va2 a hr⟩
  · exact h.vma_ok
  · have hmap : Lw.map (fun a => PTE2PA (k1.mem a)) = Lw.map (fun a => PTE2PA (k.mem a)) := by
      apply List.map_congr_left
      intro a ha
      rw [lw_same a ha]
    rw [hmap]
    exact perm_walk h.perm hpost.taken

/-- A store to one leaf entry keeps the invariant, when the lists of owned and of
kernel entries are adjusted at that entry and the frames still add up. -/
theorem MmInv.leaf_store {k0 k k2 : Kernel} {pgt : Nat} {vmas : List Vma}
    {L1s L0s Lw Kw Lw2 Kw2 : List Nat} (h : MmInv k0 k pgt vmas L1s L0s Lw Kw) (h0 : FreeOk k0)
    {t0 j0 v : Nat} (ht0 : t0 ∈ L0s) (hj0 : j0 < 512)
    (hm0 : k2.mem (t0 + 8 * j0) = v) (hm : ∀ a, a ≠ t0 + 8 * j0 → k2.mem a = k.mem a)
    (hrwx : v &&& PTE_V ≠ 0 → v &&& PTE_RWX ≠ 0)
    (hin : v &&& PTE_V ≠ 0 → t0 + 8 * j0 ∈ Lw2 ∨ t0 + 8 * j0 ∈ Kw2)
    (hLw : ∀ a, a ≠ t0 + 8 * j0 → (a ∈ Lw2 ↔ a ∈ Lw))
    (hKw : ∀ a, a ≠ t0 + 8 * j0 → (a ∈ Kw2 ↔ a ∈ Kw))
    (hselfL : t0 + 8 * j0 ∈ Lw2 → v &&& PTE_V ≠ 0 ∧ ∃ w ∈ vmas, ∃ va, w.vm_start ≤ va ∧
      va < w.vm_end ∧ PGALIGNED va ∧ IS_USER_VA va ∧ Route k pgt va (t0 + 8 * j0))
    (hselfK : t0 + 8 * j0 ∈ Kw2 → ∃ va, (va = TRAPFRAME ∨ va = TRAMPOLINE) ∧
      Route k pgt va (t0 + 8 * j0))
    (hperm : k0.freelist.Perm
      (pgt :: (L1s ++ L0s) ++ Lw2.map (fun a => PTE2PA (k2.mem a)) ++ k2.freelist)) :
    MmInv k0 k2 pgt vmas L1s L0s Lw2 Kw2 := by
  have hinv := h.pgt_inv
  have hsame := hinv.leaf_sameInner ht0 hj0 hm
  have hnd : (pgt :: (L1s ++ L0s) ++ Lw2.map (fun a => PTE2PA (k2.mem a)) ++ k2.freelist).Nodup :=
    (hperm.nodup_iff).mp h0.1
  have hnf : ∀ t ∈ pgt :: (L1s ++ L0s), t ∉ k2.freelist := by
    intro t ht hfl
    exact (List.nodup_append.mp hnd).2.2 (List.mem_append_left _ ht) hfl
  have route : ∀ va a, Route k pgt va a → Route k2 pgt va a :=
    fun va a hr => Route.route_sameInner hinv hsame hr
  constructor
  · exact hinv.of_sameInner hsame hnf
  · intro t ht j hj hval
    rw [hsame t ht j hj] at hval ⊢
    exact h.inner_rwx t ht j hj hval
  · intro t ht j hj hval
    by_cases he : t + 8 * j = t0 + 8 * j0
    · rw [he, hm0] at hval ⊢; exact hrwx hval
    · rw [hm _ he] at hval ⊢; exact h.leaf_rwx t ht j hj hval
  · intro t ht j hj hval
    by_cases he : t + 8 * j = t0 + 8 * j0
    · rw [he, hm0] at hval; rw [he]; exact hin hval
    · rw [hm _ he] at hval
      rcases h.all_leaves t ht j hj hval with h1 | h1
      · exact Or.inl ((hLw _ he).mpr h1)
      · exact Or.inr ((hKw _ he).mpr h1)
  · intro a ha
    by_cases he : a = t0 + 8 * j0
    · subst he; rw [hm0]; exact (hselfL ha).1
    · rw [hm _ he]; exact h.owned_valid a ((hLw _ he).mp ha)
  · intro a ha
    by_cases he : a = t0 + 8 * j0
    · subst he
      obtain ⟨-, w, hw, va, h1, h2, h3, h4, hr⟩ := hselfL ha
      exact ⟨w, hw, va, h1, h2, h3, h4, route _ _ hr⟩
    · obtain ⟨w, hw, va, h1, h2, h3, h4, hr⟩ := h.owned_cover a ((hLw _ he).mp ha)
      exact ⟨w, hw, va, h1, h2, h3, h4, route _ _ hr⟩
  · intro a ha
    by_cases he : a = t0 + 8 * j0
    · subst he
      obtain ⟨va, h1, hr⟩ := hselfK ha
      exact ⟨va, h1, route _ _ hr⟩
    · obtain ⟨va, h1, hr⟩ := h.kernel_leaves a ((hKw _ he).mp ha)
      exact ⟨va, h1, route _ _ hr⟩
  · exact h.vma_ok
  · exact hperm

theorem MmInv.owned_nodup {k0 k : Kernel} {pgt : Nat} {vmas : List Vma}
    {L1s L0s Lw Kw : List Nat} (h : MmInv k0 k pgt vmas L1s L0s Lw Kw) (h0 : FreeOk k0) :
    Lw.Nodup := by
  have := h.nodup_all h0
  have h1 := (List.nodup_append.mp this).1
  have h2 := (List.nodup_append.mp h1).2.1
  exact List.Nodup.of_map _ h2

/-- Mapping a fresh frame at an invalid leaf entry of a page of a VMA. -/
theorem MmInv.map_leaf {k0 k : Kernel} (k2 : Kernel) {pgt : Nat} {vmas : List Vma}
    {L1s L0s Lw Kw : List Nat} (h : MmInv k0 k pgt vmas L1s L0s Lw Kw) (h0 : FreeOk k0)
    {a0 va pa flags : Nat} {w : Vma}
    (hm0 : k2.mem a0 = PA2PTE pa ||| flags ||| PTE_V) (hm : ∀ a, a ≠ a0 → k2.mem a = k.mem a)
    (hfl : k.freelist = pa :: k2.freelist)
    (hroute : Route k pgt va a0) (hinval : k.mem a0 &&& PTE_V = 0)
    (hw : w ∈ vmas) (hs : w.vm_start ≤ va) (he : va < w.vm_end) (hal : PGALIGNED va)
    (hu : IS_USER_VA va) (hflags : flags < 1024)
    (hrwx : flags &&& PTE_R ≠ 0 ∨ flags &&& PTE_W ≠ 0 ∨ flags &&& PTE_X ≠ 0) :
    MmInv k0 k2 pgt vmas L1s L0s (a0 :: Lw) Kw := by
  have ht := (h.pgt_inv.route_table hroute).2
  have ha0 := hroute.2.2
  have hnotL : a0 ∉ Lw := fun hmem => h.owned_valid a0 hmem hinval
  have hpa := (h.freeOk h0).valid_lt (p := pa) (by rw [hfl]; exact List.mem_cons_self _ _)
  rw [ha0] at hm0 hm
  refine h.leaf_store h0 ht (PX_lt 0 va) hm0 hm (fun _ => leaf_entry_rwx _ _ hrwx)
    (fun _ => Or.inl (by rw [← ha0]; exact List.mem_cons_self _ _)) ?_ (fun _ _ => Iff.rfl)
    ?_ ?_ ?_
  · intro a hne
    rw [← ha0] at hne
    simp [hne]
  · intro _
    exact ⟨pte_valid_of_or _ _, w, hw, va, hs, he, hal, hu, by rw [← ha0]; exact hroute⟩
  · intro hk
    rw [← ha0] at hk ⊢
    exact h.kernel_leaves a0 hk
  · rw [← ha0] at hm0 hm
    have hmap : (a0 :: Lw).map (fun a => PTE2PA (k2.mem a)) =
        pa :: Lw.map (fun a => PTE2PA (k.mem a)) := by
      rw [List.map_cons, hm0, PTE2PA_PA2PTE pa flags hpa.1 hpa.2.2 hflags]
      congr 1
      apply List.map_congr_left
      intro a ha
      rw [hm a (fun e => hnotL (e ▸ ha))]
    rw [hmap]
    have := h.perm
    rw [hfl] at this
    exact perm_take this

/-- Changing the flags of a valid leaf entry, as `mm_remap` does. -/
theorem MmInv.reflag_leaf {k0 k : Kernel} (k2 : Kernel) {pgt : Nat} {vmas : List Vma}
    {L1s L0s Lw Kw : List Nat} (h : MmInv k0 k pgt vmas L1s L0s Lw Kw) (h0 : FreeOk k0)
    {a0 va flags : Nat}
    (hm0 : k2.mem a0 = (k.mem a0 &&& (U64 - 1 - PTE_RWX)) ||| flags)
    (hm : ∀ a, a ≠ a0 → k2.mem a = k.mem a) (hfl : k2.freelist = k.freelist)
    (hroute : Route k pgt va a0) (hval : k.mem a0 &&& PTE_V ≠ 0) (hflags : flags < 1024)
    (hrwx : flags &&& PTE_R ≠ 0 ∨ flags &&& PTE_W ≠ 0 ∨ flags &&& PTE_X ≠ 0) :
    MmInv k0 k2 pgt vmas L1s L0s Lw Kw := by
  have ht := (h.pgt_inv.route_table hroute).2
  have ha0 := hroute.2.2
  have hmem := h.all_leaves _ ht _ (PX_lt 0 va) (by rw [← ha0]; exact hval)
  rw [← ha0] at hmem
  rw [ha0] at hm0 hm
  refine h.leaf_store h0 ht (PX_lt 0 va) hm0 hm (fun _ => ?_) (fun _ => ?_)
    (fun _ _ => Iff.rfl) (fun _ _ => Iff.rfl) ?_ ?_ ?_
  · rw [← ha0]; exact remap_entry_rwx _ _ hrwx
  · rw [← ha0]; exact hmem
  · intro hl
    rw [← ha0] at hl ⊢
    obtain ⟨w, hw, va2, h1, h2, h3, h4, hr⟩ := h.owned_cover a0 hl
    exact ⟨remap_entry_valid _ _ hval, w, hw, va2, h1, h2, h3, h4, hr⟩
  · intro hk
    rw [← ha0] at hk ⊢
    exact h.kernel_leaves a0 hk
  · rw [← ha0] at hm0 hm
    have hmap : Lw.map (fun a => PTE2PA (k2.mem a)) = Lw.map (fun a => PTE2PA (k.mem a)) := by
      apply List.map_congr_left
      intro a _
      by_cases e : a = a0
      · subst e; rw [hm0, remap_entry_pa _ _ hflags]
      · rw [hm a e]
    rw [hmap, hfl]
    exact h.perm

/-- Mapping a kernel-owned frame at an invalid leaf entry, as `mm_mappageat` does for
the trampoline and the trapframe. -/
theorem MmInv.map_kernel_leaf {k0 k : Kernel} (k2 : Kernel) {pgt : Nat} {vmas : List Vma}
    {L1s L0s Lw Kw : List Nat} (h : MmInv k0 k pgt vmas L1s L0s Lw Kw) (h0 : FreeOk k0)
    {a0 va pa flags : Nat}
    (hm0 : k2.mem a0 = PA2PTE pa ||| flags ||| PTE_V) (hm : ∀ a, a ≠ a0 → k2.mem a = k.mem a)
    (hfl : k2.freelist = k.freelist)
    (hroute : Route k pgt va a0) (hinval : k.mem a0 &&& PTE_V = 0)
    (hva : va = TRAPFRAME ∨ va = TRAMPOLINE)
    (hrwx : flags &&& PTE_R ≠ 0 ∨ flags &&& PTE_W ≠ 0 ∨ flags &&& PTE_X ≠ 0) :
    MmInv k0 k2 pgt vmas L1s L0s Lw (a0 :: Kw) := by
  have ht := (h.pgt_inv.route_table hroute).2
  have ha0 := hroute.2.2
  have hnotL : a0 ∉ Lw := fun hmem => h.owned_valid a0 hmem hinval
  rw [ha0] at hm0 hm
  refine h.leaf_store h0 ht (PX_lt 0 va) hm0 hm (fun _ => leaf_entry_rwx _ _ hrwx)
    (fun _ => Or.inr (by rw [← ha0]; exact List.mem_cons_self _ _)) (fun _ _ => Iff.rfl) ?_
    ?_ ?_ ?_
  · intro a hne
    rw [← ha0] at hne
    simp [hne]
  · intro hl
    rw [← ha0] at hl
    exact absurd hl hnotL
  · intro _
    exact ⟨va, hva, by rw [← ha0]; exact hroute⟩
  · rw [← ha0] at hm0 hm
    have hmap : Lw.map (fun a => PTE2PA (k2.mem a)) = Lw.map (fun a => PTE2PA (k.mem a)) := by
      apply List.map_congr_left
      intro a ha
      rw [hm a (fun e => hnotL (e ▸ ha))]
    rw [hmap, hfl]
    exact h.perm

/-- Freeing the frame of an owned leaf entry and clearing the entry, as `freevma`
does. -/
theorem MmInv.free_leaf {k0 k : Kernel} (k2 : Kernel) {pgt : Nat} {vmas : List Vma}
    {L1s L0s Lw Kw : List Nat} (h : MmInv k0 k pgt vmas L1s L0s Lw Kw) (h0 : FreeOk k0)
    {a0 : Nat} (hm0 : k2.mem a0 = 0) (hm : ∀ a, a ≠ a0 → k2.mem a = k.mem a)
    (hfl : k2.freelist = PTE2PA (k.mem a0) :: k.freelist) (hown : a0 ∈ Lw) :
    MmInv k0 k2 pgt vmas L1s L0s (Lw.erase a0) Kw := by
  obtain ⟨t, ht, j, hj, ha0⟩ := h.owned_table hown
  have hnd := h.owned_nodup h0
  rw [ha0] at hm0 hm
  refine h.leaf_store h0 ht hj hm0 hm (fun hv => by simp at hv) (fun hv => by simp at hv)
    ?_ (fun _ _ => Iff.rfl) ?_ ?_ ?_
  · intro a hne
    rw [← ha0] at hne
    rw [hnd.mem_erase_iff]
    simp [hne]
  · intro hl
    rw [← ha0, hnd.mem_erase_iff] at hl
    exact absurd rfl hl.1
  · intro hk
    rw [← ha0] at hk ⊢
    exact h.kernel_leaves a0 hk
  · rw [← ha0] at hm0 hm
    have hmap : (Lw.erase a0).map (fun a => PTE2PA (k2.mem a)) =
        (Lw.erase a0).map (fun a => PTE2PA (k.mem a)) := by
      apply List.map_congr_left
      intro a ha
      rw [hm a ((hnd.mem_erase_iff.mp ha).1)]
    rw [hmap, hfl]
    refine perm_give h.perm ?_
    have := (List.perm_cons_erase hown).map (fun a => PTE2PA (k.mem a))
    simpa using this

theorem MmInv.of_eq {k0 k k2 : Kernel} {pgt : Nat} {vmas : List Vma} {L1s L0s Lw Kw : List Nat}
    (h : MmInv k0 k pgt vmas L1s L0s Lw Kw) (hm : k2.mem = k.mem)
    (hf : k2.freelist = k.freelist) : MmInv k0 k2 pgt vmas L1s L0s Lw Kw := by
  have hr : ∀ va a, Route k pgt va a → Route k2 pgt va a := by
    intro va a hr; unfold Route at *; rw [hm]; exact hr
  constructor
  · exact h.pgt_inv.pgt_of_eq hm hf
  · rw [hm]; exact h.inner_rwx
  · rw [hm]; exact h.leaf_rwx
  · rw [hm]; exact h.all_leaves
  · rw [hm]; exact h.owned_valid
  · intro a ha
    obtain ⟨w, hw, va, h1, h2, h3, h4, hr2⟩ := h.owned_cover a ha
    exact ⟨w, hw, va, h1, h2, h3, h4, hr va a hr2⟩
  · intro a ha
    obtain ⟨va, h1, hr2⟩ := h.kernel_leaves a ha
    exact ⟨va, h1, hr va a hr2⟩
  · exact h.vma_ok
  · rw [hm, hf]; exact h.perm

/-- The invariant for a longer or changed VMA list that covers what the old one
covered. -/
theorem MmInv.of_vmas {k0 k : Kernel} {pgt : Nat} {vmas vmas2 : List Vma}
    {L1s L0s Lw Kw : List Nat} (h : MmInv k0 k pgt vmas L1s L0s Lw Kw)
    (hcover : ∀ w ∈ vmas, ∃ w2 ∈ vmas2, w2.vm_start ≤ w.vm_start ∧ w.vm_end ≤ w2.vm_end)
    (hok : ∀ w ∈ vmas2, PGALIGNED w.vm_start ∧ PGALIGNED w.vm_end ∧
      RangeClear w.vm_start w.vm_end ∧ w.pte_flags < 1024) :
    MmInv k0 k pgt vmas2 L1s L0s Lw Kw := by
  constructor
  · exact h.pgt_inv
  · exact h.inner_rwx
  · exact h.leaf_rwx
  · exact h.all_leaves
  · exact h.owned_valid
  · intro a ha
    obtain ⟨w, hw, va, h1, h2, h3, h4, hr⟩ := h.owned_cover a ha
    obtain ⟨w2, hw2, g1, g2⟩ := hcover w hw
    exact ⟨w2, hw2, va, by omega, by omega, h3, h4, hr⟩
  · exact h.kernel_leaves
  · exact hok
  · exact h.perm

/-- The loop of `mm_mappages`, when it runs to its end, keeps the invariant. -/
theorem mappagesLoop_inv {k0 : Kernel} (h0 : FreeOk k0) (mm : Mm) (flags : Nat) {vmas : List Vma}
    {Kw : List Nat} {w : Vma} (hw : w ∈ vmas) (hflags : flags < 1024)
    (hrwx : flags &&& PTE_R ≠ 0 ∨ flags &&& PTE_W ≠ 0 ∨ flags &&& PTE_X ≠ 0) :
    ∀ (n va : Nat) (k k2 : Kernel) (L1s L0s Lw : List Nat),
      MmInv k0 k mm.pgt vmas L1s L0s Lw Kw →
      (∀ i < n, w.vm_start ≤ va + i * PGSIZE ∧ va + i * PGSIZE < w.vm_end ∧
        PGALIGNED (va + i * PGSIZE)) →
      mappagesLoop mm flags n va k = (k2, 0) →
      ∃ L1s2 L0s2 Lw2, MmInv k0 k2 mm.pgt vmas L1s2 L0s2 Lw2 Kw := by
  intro n
  induction n with
  | zero =>
    intro va k k2 L1s L0s Lw h _ hres
    simp only [mappagesLoop, Prod.mk.injEq] at hres
    obtain ⟨rfl, -⟩ := hres
    exact ⟨_, _, _, h⟩
  | succ n ih =>
    intro va k k2 L1s L0s Lw h hpages hres
    rw [mappagesLoop] at hres
    cases hwalk : walk k mm va true with
    | mk k1 r =>
      rw [hwalk] at hres
      cases r with
      | none =>
        simp only [Prod.mk.injEq] at hres
        exact absurd hres.2 neg_ENOMEM_ne
      | some pte =>
        simp only at hres
        obtain ⟨L1a, L0a, h1, hroute, hu, -, -, -⟩ := h.walk_alloc h0 hwalk
        by_cases hv : k1.mem pte &&& PTE_V ≠ 0
        · rw [if_pos hv] at hres
          simp only [Prod.mk.injEq] at hres
          exact absurd hres.2 neg_EINVAL_ne
        rw [if_neg hv] at hres
        have hv0 : k1.mem pte &&& PTE_V = 0 := by simpa using hv
        unfold kallocpage at hres
        cases hfl : k1.freelist with
        | nil =>
          rw [hfl] at hres
          simp only [if_true, Prod.mk.injEq] at hres
          exact absurd hres.2 neg_ENOMEM_ne
        | cons pa rest =>
          rw [hfl] at hres
          simp only at hres
          have hpa := (h1.freeOk h0).valid_lt (p := pa) (by rw [hfl]; exact List.mem_cons_self _ _)
          rw [if_neg hpa.2.1] at hres
          obtain ⟨p1, p2, p3⟩ := hpages 0 (Nat.succ_pos n)
          simp only [Nat.zero_mul, Nat.add_zero] at p1 p2 p3
          have h2 := h1.map_leaf
            ((Kernel.mk k1.mem rest k1.refcnt k1.nextobj).store pte
              (PA2PTE pa ||| flags ||| PTE_V)) h0
            (by rw [store_mem, if_pos rfl])
            (fun a hne => by rw [store_mem, if_neg hne])
            (by rw [hfl]; rfl) hroute hv0 hw p1 p2 p3 hu hflags hrwx
          refine ih (va + PGSIZE) _ k2 _ _ _ h2 ?_ hres
          intro i hi
          have := hpages (i + 1) (by omega)
          rw [show va + PGSIZE + i * PGSIZE = va + (i + 1) * PGSIZE by ring]
          exact this

theorem mm_mappages_ok {k k2 : Kernel} {mm mm2 : Mm} {vma : Vma}
    (h : mm_mappages k mm vma = some (k2, mm2, 0)) :
    IS_USER_VA vma.vm_start ∧ IS_USER_VA vma.vm_end ∧ PGALIGNED vma.vm_start ∧
    PGALIGNED vma.vm_end ∧
    (vma.pte_flags &&& PTE_R ≠ 0 ∨ vma.pte_flags &&& PTE_W ≠ 0 ∨ vma.pte_flags &&& PTE_X ≠ 0) ∧
    mappagesLoop mm vma.pte_flags (npages vma.vm_start vma.vm_end) vma.vm_start k = (k2, 0) ∧
    mm2 = { mm with vma := vma :: mm.vma } := by
  unfold mm_mappages at h
  split_ifs at h with h1 h2 h3 h4 h5
  · simp only [Option.some.injEq, Prod.mk.injEq] at h
    exact absurd h.2.2 neg_EINVAL_ne
  · cases hc : mappagesLoop mm vma.pte_flags (npages vma.vm_start vma.vm_end) vma.vm_start k with
    | mk k1 ret =>
      rw [hc] at h
      simp only at h
      by_cases hr : ret = 0
      · rw [if_pos hr] at h
        simp only [Option.some.injEq, Prod.mk.injEq] at h
        obtain ⟨rfl, rfl, -⟩ := h
        subst hr
        push_neg at h1
        exact ⟨h1.1, h1.2, h2, h3, h4, rfl, rfl⟩
      · rw [if_neg hr] at h
        cases hfv : freevma k1 mm vma true with
        | none => rw [hfv] at h; simp at h
        | some k3 =>
          rw [hfv] at h
          simp only [Option.some.injEq, Prod.mk.injEq] at h
          exact absurd h.2.2 hr

/-- A successful `mm_mappages` of a VMA that keeps clear of the kernel-owned pages
keeps the invariant. -/
theorem mm_mappages_inv {k0 k k2 : Kernel} (h0 : FreeOk k0) {mm mm2 : Mm} (vma : Vma)
    {L1s L0s Lw Kw : List Nat} (h : MmInv k0 k mm.pgt mm.vma L1s L0s Lw Kw)
    (hclear : RangeClear vma.vm_start vma.vm_end) (hflags : vma.pte_flags < 1024)
    (hres : mm_mappages k mm vma = some (k2, mm2, 0)) :
    mm2.pgt = mm.pgt ∧ mm2.refcnt = mm.refcnt ∧
    ∃ L1s2 L0s2 Lw2, MmInv k0 k2 mm2.pgt mm2.vma L1s2 L0s2 Lw2 Kw := by
  obtain ⟨-, -, has, hae, hrwx, hloop, rfl⟩ := mm_mappages_ok hres
  refine ⟨rfl, rfl, ?_⟩
  have h1 : MmInv k0 k mm.pgt (vma :: mm.vma) L1s L0s Lw Kw := by
    refine h.of_vmas (fun w hw => ⟨w, List.mem_cons_of_mem _ hw, le_refl _, le_refl _⟩) ?_
    intro w hw
    rcases List.mem_cons.mp hw with rfl | hw
    · exact ⟨has, hae, hclear, hflags⟩
    · exact h.vma_ok w hw
  exact mappagesLoop_inv h0 mm vma.pte_flags (List.mem_cons_self _ _) hflags hrwx _ _ k k2 _ _ _
    h1 (fun i hi => page_of_index has hae hi) hloop

theorem mapRegion_inv {k0 k k2 : Kernel} (h0 : FreeOk k0) {mm mm2 : Mm} {s e flags : Nat}
    {L1s L0s Lw Kw : List Nat} (h : MmInv k0 k mm.pgt mm.vma L1s L0s Lw Kw)
    (hclear : RangeClear s e) (hflags : flags < 1024)
    (hres : mapRegion k mm s e flags = some (k2, mm2)) :
    mm2.pgt = mm.pgt ∧ mm2.refcnt = mm.refcnt ∧
    ∃ L1s2 L0s2 Lw2, MmInv k0 k2 mm2.pgt mm2.vma L1s2 L0s2 Lw2 Kw := by
  unfold mapRegion mm_create_vma at hres
  simp only at hres
  cases hm : mm_mappages (Kernel.mk k.mem k.freelist k.refcnt (k.nextobj + 1)) mm
      (Vma.mk k.nextobj s e flags) with
  | none => rw [hm] at hres; simp at hres
  | some r =>
    obtain ⟨k3, mm3, ret⟩ := r
    rw [hm] at hres
    simp only at hres
    by_cases hr : ret = 0
    · rw [if_pos hr] at hres
      simp only [Option.some.injEq, Prod.mk.injEq] at hres
      obtain ⟨rfl, rfl⟩ := hres
      subst hr
      have h1 : MmInv k0 (Kernel.mk k.mem k.freelist k.refcnt (k.nextobj + 1)) mm.pgt mm.vma
          L1s L0s Lw Kw := h.of_eq rfl rfl
      exact mm_mappages_inv h0 (Vma.mk k.nextobj s e flags) h1 hclear hflags hm
    · rw [if_neg hr] at hres; simp at hres

/-- The loop of `mm_remap`, when it does not stop the kernel, keeps the invariant. -/
theorem remapLoop_inv {k0 : Kernel} (h0 : FreeOk k0) (mm : Mm) (start end_ flags : Nat)
    {vmas : List Vma} {Kw : List Nat} {w : Vma} (hw : w ∈ vmas) (hflags : flags < 1024)
    (hrwx : flags &&& PTE_R ≠ 0 ∨ flags &&& PTE_W ≠ 0 ∨ flags &&& PTE_X ≠ 0) :
    ∀ (n va : Nat) (k k2 : Kernel) (L1s L0s Lw : List Nat),
      MmInv k0 k mm.pgt vmas L1s L0s Lw Kw →
      (∀ i < n, start ≤ va + i * PGSIZE → va + i * PGSIZE < end_ →
        w.vm_start ≤ va + i * PGSIZE ∧ va + i * PGSIZE < w.vm_end ∧
        PGALIGNED (va + i * PGSIZE)) →
      remapLoop mm start end_ flags n va k = some k2 →
      ∃ L1s2 L0s2 Lw2, MmInv k0 k2 mm.pgt vmas L1s2 L0s2 Lw2 Kw := by
  intro n
  induction n with
  | zero =>
    intro va k k2 L1s L0s Lw h _ hres
    simp only [remapLoop, Option.some.injEq] at hres
    subst hres
    exact ⟨_, _, _, h⟩
  | succ n ih =>
    intro va k k2 L1s L0s Lw h hpages hres
    have hnext : ∀ i < n, start ≤ va + PGSIZE + i * PGSIZE → va + PGSIZE + i * PGSIZE < end_ →
        w.vm_start ≤ va + PGSIZE + i * PGSIZE ∧ va + PGSIZE + i * PGSIZE < w.vm_end ∧
        PGALIGNED (va + PGSIZE + i * PGSIZE) := by
      intro i hi
      have := hpages (i + 1) (by omega)
      rw [show va + PGSIZE + i * PGSIZE = va + (i + 1) * PGSIZE by ring]
      exact this
    rw [remapLoop] at hres
    by_cases hout : va < start ∨ va ≥ end_
    · rw [if_pos hout] at hres
      exact ih (va + PGSIZE) k k2 _ _ _ h hnext hres
    rw [if_neg hout] at hres
    push_neg at hout
    cases hwalk : walk k mm va true with
    | mk k1 r =>
      rw [hwalk] at hres
      cases r with
      | none => simp at hres
      | some pte =>
        simp only at hres
        obtain ⟨L1a, L0a, h1, hroute, hu, -, -, -⟩ := h.walk_alloc h0 hwalk
        have hp := hpages 0 (Nat.succ_pos n)
        simp only [Nat.zero_mul, Nat.add_zero] at hp
        obtain ⟨p1, p2, p3⟩ := hp hout.1 hout.2
        by_cases hv : k1.mem pte &&& PTE_V ≠ 0
        · rw [if_pos hv] at hres
          have h2 := h1.reflag_leaf
            (k1.store pte ((k1.mem pte &&& (U64 - 1 - PTE_RWX)) ||| flags)) h0
            (by rw [store_mem, if_pos rfl])
            (fun a hne => by rw [store_mem, if_neg hne]) rfl hroute hv hflags hrwx
          exact ih (va + PGSIZE) _ k2 _ _ _ h2 hnext hres
        rw [if_neg hv] at hres
        have hv0 : k1.mem pte &&& PTE_V = 0 := by simpa using hv
        unfold kallocpage at hres
        cases hfl : k1.freelist with
        | nil =>
          rw [hfl] at hres
          simp at hres
        | cons pa rest =>
          rw [hfl] at hres
          simp only at hres
          have hpa := (h1.freeOk h0).valid_lt (p := pa) (by rw [hfl]; exact List.mem_cons_self _ _)
          rw [if_neg hpa.2.1] at hres
          have h2 := h1.map_leaf
            ((Kernel.mk k1.mem rest k1.refcnt k1.nextobj).store pte
              (PA2PTE pa ||| flags ||| PTE_V)) h0
            (by rw [store_mem, if_pos rfl])
            (fun a hne => by rw [store_mem, if_neg hne])
            (by rw [hfl]; rfl) hroute hv0 hw p1 p2 p3 hu hflags hrwx
          exact ih (va + PGSIZE) _ k2 _ _ _ h2 hnext hres

/-- A successful `mm_remap` onto a range that keeps clear of the kernel-owned pages
keeps the invariant. -/
theorem mm_remap_inv {k0 k k2 : Kernel} (h0 : FreeOk k0) {mm mm2 : Mm} {i start end_ flags : Nat}
    {L1s L0s Lw Kw : List Nat} (h : MmInv k0 k mm.pgt mm.vma L1s L0s Lw Kw)
    (hclear : RangeClear start end_)
    (hres : mm_remap k mm i start end_ flags = some (k2, mm2, 0)) :
    mm2.pgt = mm.pgt ∧ mm2.refcnt = mm.refcnt ∧
    ∃ L1s2 L0s2 Lw2, MmInv k0 k2 mm2.pgt mm2.vma L1s2 L0s2 Lw2 Kw := by
  unfold mm_remap at hres
  cases hget : mm.vma.get? i with
  | none => rw [hget] at hres; simp at hres
  | some vma =>
    rw [hget] at hres
    simp only at hres
    split_ifs at hres with c1 c2 c3 c4 c5
    · simp only [Option.some.injEq, Prod.mk.injEq] at hres
      exact absurd hres.2.2 neg_EINVAL_ne
    · push_neg at c4
      obtain ⟨cs, ce, cf⟩ := c4
      have hvm : vma ∈ mm.vma := List.get?_mem hget
      have hvok := h.vma_ok vma hvm
      cases hloop : remapLoop mm start end_ flags (npages (min start vma.vm_start)
          (max end_ vma.vm_end)) (min start vma.vm_start) k with
      | none => rw [hloop] at hres; simp at hres
      | some k1 =>
        rw [hloop] at hres
        simp only [Option.some.injEq, Prod.mk.injEq] at hres
        obtain ⟨rfl, rfl, -⟩ := hres
        refine ⟨rfl, rfl, ?_⟩
        have hmin : min start vma.vm_start = start := by rw [cs]; exact Nat.min_self _
        have hmax : max end_ vma.vm_end = end_ := Nat.max_eq_left ce
        rw [hmin, hmax] at hloop
        have hilt : i < mm.vma.length := by
          rw [List.get?_eq_some] at hget
          exact hget.1
        have hnewmem : Vma.mk vma.id start end_ flags ∈ mm.vma.set i (Vma.mk vma.id start end_ flags) :=
          List.mem_set _ _ hilt _
        have h1 : MmInv k0 k mm.pgt (mm.vma.set i (Vma.mk vma.id start end_ flags)) L1s L0s Lw Kw := by
          refine h.of_vmas ?_ ?_
          · intro w hwm
            obtain ⟨n, hn⟩ := List.mem_iff_get?.mp hwm
            by_cases hni : i = n
            · subst hni
              rw [hget] at hn
              simp only [Option.some.injEq] at hn
              subst hn
              exact ⟨_, hnewmem, by simp only; omega, by simp only; omega⟩
            · refine ⟨w, ?_, le_refl _, le_refl _⟩
              apply List.mem_iff_get?.mpr
              refine ⟨n, ?_⟩
              rw [List.get?_eq_getElem?, List.getElem?_set, if_neg hni, ← List.get?_eq_getElem?]
              exact hn
          · intro w hwm
            rcases List.mem_or_eq_of_mem_set hwm with hw1 | hw1
            · exact h.vma_ok w hw1
            · subst hw1
              exact ⟨c1, c2, hclear, by simp only; rw [cf]; exact hvok.2.2.2⟩
        have hfl : flags < 1024 := by rw [cf]; exact hvok.2.2.2
        exact remapLoop_inv h0 mm start end_ flags hnewmem hfl c3 _ _ k k1 _ _ _ h1
          (fun j hj _ _ => page_of_index c1 c2 hj) hloop

theorem mm_mappageat_ret {k k2 : Kernel} {mm : Mm} {va pa flags : Nat} {r : Int}
    (h : mm_mappageat k mm va pa flags = some (k2, r)) : r = 0 ∨ r = -EINVAL := by
  unfold mm_mappageat at h
  split_ifs at h with c1 c2
  · simp only [Option.some.injEq, Prod.mk.injEq] at h; exact Or.inr h.2.symm
  · cases hw : walk k mm va true with
    | mk k1 res =>
      rw [hw] at h
      cases res with
      | none => simp only [Option.some.injEq, Prod.mk.injEq] at h; exact Or.inr h.2.symm
      | some pte =>
        simp only at h
        split_ifs at h
        · simp only [Option.some.injEq, Prod.mk.injEq] at h; exact Or.inr h.2.symm
        · simp only [Option.some.injEq, Prod.mk.injEq] at h; exact Or.inl h.2.symm

/-- A successful `mm_mappageat` of the trapframe or the trampoline keeps the
invariant. -/
theorem mm_mappageat_inv {k0 k k2 : Kernel} (h0 : FreeOk k0) (mm : Mm) {vmas : List Vma}
    {va pa flags : Nat} {L1s L0s Lw Kw : List Nat} (h : MmInv k0 k mm.pgt vmas L1s L0s Lw Kw)
    (hva : va = TRAPFRAME ∨ va = TRAMPOLINE)
    (hrwx : flags &&& PTE_R ≠ 0 ∨ flags &&& PTE_W ≠ 0 ∨ flags &&& PTE_X ≠ 0)
    (hres : mm_mappageat k mm va pa flags = some (k2, 0)) :
    ∃ L1s2 L0s2 Kw2, MmInv k0 k2 mm.pgt vmas L1s2 L0s2 Lw Kw2 := by
  unfold mm_mappageat at hres
  split_ifs at hres with c1 c2
  · simp only [Option.some.injEq, Prod.mk.injEq] at hres
    exact absurd hres.2 neg_EINVAL_ne
  · cases hw : walk k mm va true with
    | mk k1 res =>
      rw [hw] at hres
      cases res with
      | none =>
        simp only [Option.some.injEq, Prod.mk.injEq] at hres
        exact absurd hres.2 neg_EINVAL_ne
      | some pte =>
        simp only at hres
        obtain ⟨L1a, L0a, h1, hroute, hu, -, -, -⟩ := h.walk_alloc h0 hw
        by_cases hv : k1.mem pte &&& PTE_V ≠ 0
        · rw [if_pos hv] at hres
          simp only [Option.some.injEq, Prod.mk.injEq] at hres
          exact absurd hres.2 neg_EINVAL_ne
        rw [if_neg hv] at hres
        simp only [Option.some.injEq, Prod.mk.injEq, and_true] at hres
        subst hres
        exact ⟨_, _, _, h1.map_kernel_leaf _ h0 (by rw [store_mem, if_pos rfl])
          (fun a hne => by rw [store_mem, if_neg hne]) rfl hroute (by simpa using hv) hva hrwx⟩

/-- The invariant of a table that is only a zeroed root. -/
theorem MmInv.init {k0 : Kernel} (h0 : FreeOk k0) {pa : Nat} {rest : List Nat}
    (hfl : k0.freelist = pa :: rest) :
    MmInv k0 (memset0 (Kernel.mk k0.mem rest k0.refcnt k0.nextobj) pa PGSIZE) pa [] [] [] [] [] :=
    by
  have hpa := h0.valid_lt (p := pa) (by rw [hfl]; exact List.mem_cons_self _ _)
  have hz : ∀ j < 512, (memset0 (Kernel.mk k0.mem rest k0.refcnt k0.nextobj) pa PGSIZE).mem
      (pa + 8 * j) = 0 := by
    intro j hj
    rw [memset0_mem, if_pos]
    unfold PGSIZE; omega
  have hnd := h0.1
  rw [hfl] at hnd
  constructor
  · constructor
    · simp
    · intro t ht
      simp only [List.append_nil, List.mem_singleton] at ht
      subst ht; exact hpa.1
    · intro t ht
      simp only [List.append_nil, List.mem_singleton] at ht
      subst ht
      exact (List.nodup_cons.mp hnd).1
    · intro j hj hv; rw [hz j hj] at hv; simp at hv
    · intro t ht; simp at ht
    · intro t ht; simp at ht
    · intro t ht; simp at ht
    · intro j hj hv; rw [hz j hj] at hv; simp at hv
    · intro t ht; simp at ht
  · intro t ht j hj hv
    simp only [List.mem_singleton] at ht
    subst ht
    rw [hz j hj] at hv; simp at hv
  · intro t ht; simp at ht
  · intro t ht; simp at ht
  · intro a ha; simp at ha
  · intro a ha; simp at ha
  · intro a ha; simp at ha
  · intro w hw; simp at hw
  · rw [hfl]
    simp [memset0]

/-- A successful `mm_create` establishes the invariant, with no VMA and no owned
leaf entry. -/
theorem mm_create_inv {k0 k1 : Kernel} (h0 : FreeOk k0) {tf tr : Nat} {mm : Mm}
    (hres : mm_create k0 tf tr = some (k1, some mm)) :
    mm.vma = [] ∧ 0 < mm.refcnt ∧ ∃ L1s L0s Kw, MmInv k0 k1 mm.pgt mm.vma L1s L0s [] Kw := by
  unfold mm_create kallocpage at hres
  cases hfl : k0.freelist with
  | nil => rw [hfl] at hres; simp at hres
  | cons pa rest =>
    rw [hfl] at hres
    simp only at hres
    have hpa := h0.valid_lt (p := pa) (by rw [hfl]; exact List.mem_cons_self _ _)
    rw [if_neg hpa.2.1] at hres
    have hinit := MmInv.init h0 hfl
    cases hm1 : mm_mappageat (memset0 (Kernel.mk k0.mem rest k0.refcnt k0.nextobj) pa PGSIZE)
        (Mm.mk pa [] 1) TRAMPOLINE tr (PTE_A ||| PTE_R ||| PTE_X) with
    | none => rw [hm1] at hres; simp at hres
    | some res1 =>
      obtain ⟨k3, r1⟩ := res1
      rw [hm1] at hres
      simp only at hres
      rcases mm_mappageat_ret hm1 with hr1 | hr1
      swap
      · subst hr1
        rw [if_pos (by decide)] at hres
        simp at hres
      subst hr1
      rw [if_neg (by decide)] at hres
      obtain ⟨L1a, L0a, Kwa, h1⟩ := mm_mappageat_inv h0 (Mm.mk pa [] 1) hinit (Or.inr rfl)
        (Or.inl (by decide)) hm1
      cases hm2 : mm_mappageat k3 (Mm.mk pa [] 1) TRAPFRAME tf
          (PTE_A ||| PTE_D ||| PTE_R ||| PTE_W) with
      | none => rw [hm2] at hres; simp at hres
      | some res2 =>
        obtain ⟨k4, r2⟩ := res2
        rw [hm2] at hres
        simp only at hres
        by_cases hr2 : r2 ≠ 0
        · rw [if_pos hr2] at hres; simp at hres
        rw [if_neg hr2] at hres
        simp only [Option.some.injEq, Prod.mk.injEq] at hres
        obtain ⟨rfl, rfl⟩ := hres
        have hr2' : r2 = 0 := not_not.mp hr2
        subst hr2'
        obtain ⟨L1b, L0b, Kwb, h2⟩ := mm_mappageat_inv h0 (Mm.mk pa [] 1) h1 (Or.inl rfl)
          (Or.inl (by decide)) hm2
        exact ⟨rfl, Nat.one_pos, _, _, _, h2⟩

/-- A sequence of mapping calls that keep clear of the kernel-owned pages keeps
the invariant. -/
theorem runOps_inv {k0 : Kernel} (h0 : FreeOk k0) (ops : List MapOp) :
    ∀ {k k2 : Kernel} {mm mm2 : Mm} {L1s L0s Lw Kw : List Nat},
    MmInv k0 k mm.pgt mm.vma L1s L0s Lw Kw → (∀ op ∈ ops, OpClear op) →
    runOps ops k mm = some (k2, mm2) →
    mm2.pgt = mm.pgt ∧ mm2.refcnt = mm.refcnt ∧
    ∃ L1s2 L0s2 Lw2, MmInv k0 k2 mm2.pgt mm2.vma L1s2 L0s2 Lw2 Kw := by
  induction ops with
  | nil =>
    intro k k2 mm mm2 L1s L0s Lw Kw h _ hres
    simp only [runOps, Option.some.injEq, Prod.mk.injEq] at hres
    obtain ⟨rfl, rfl⟩ := hres
    exact ⟨rfl, rfl, _, _, _, h⟩
  | cons op ops ih =>
    intro k k2 mm mm2 L1s L0s Lw Kw h hc hres
    have hop := hc op (List.mem_cons_self _ _)
    have hrest : ∀ o ∈ ops, OpClear o := fun o ho => hc o (List.mem_cons_of_mem _ ho)
    cases op with
    | mappages s e flags =>
      simp only [runOps] at hres
      cases hm : mapRegion k mm s e flags with
      | none => rw [hm] at hres; simp at hres
      | some r =>
        obtain ⟨k1, mm1⟩ := r
        rw [hm] at hres
        simp only at hres
        obtain ⟨hp, hr, L1a, L0a, Lwa, h1⟩ := mapRegion_inv h0 h hop.1 hop.2 hm
        obtain ⟨hp2, hr2, hex⟩ := ih h1 hrest hres
        exact ⟨hp2.trans hp, hr2.trans hr, hex⟩
    | remap i s e flags =>
      simp only [runOps] at hres
      cases hm : mm_remap k mm i s e flags with
      | none => rw [hm] at hres; simp at hres
      | some r =>
        obtain ⟨k1, mm1, ret⟩ := r
        rw [hm] at hres
        simp only at hres
        by_cases hret : ret = 0
        · rw [if_pos hret] at hres
          subst hret
          obtain ⟨hp, hr, L1a, L0a, Lwa, h1⟩ := mm_remap_inv h0 h hop hm
          obtain ⟨hp2, hr2, hex⟩ := ih h1 hrest hres
          exact ⟨hp2.trans hp, hr2.trans hr, hex⟩
        · rw [if_neg hret] at hres; simp at hres

/-- One iteration of the loop of `freevma` on a page that is neither the
trapframe nor the trampoline: the invariant is kept, and no owned leaf entry
is left on the page `va`. -/
theorem freevma_step {k0 k : Kernel} (h0 : FreeOk k0) {mm : Mm} {vmas : List Vma}
    {L1s L0s Lw Kw : List Nat} (h : MmInv k0 k mm.pgt vmas L1s L0s Lw Kw) (Q : Nat → Prop)
    {va : Nat} (hal : PGALIGNED va) (hne1 : va ≠ TRAPFRAME) (hne2 : va ≠ TRAMPOLINE)
    (hQ : ∀ a ∈ Lw, ∃ vb, Q vb ∧ PGALIGNED vb ∧ IS_USER_VA vb ∧ Route k mm.pgt vb a) :
    ∃ k2 Lw2, (∀ n, freevmaLoop mm true (n + 1) va k = freevmaLoop mm true n (va + PGSIZE) k2) ∧
      MmInv k0 k2 mm.pgt vmas L1s L0s Lw2 Kw ∧
      ∀ a ∈ Lw2, ∃ vb, (Q vb ∧ vb ≠ va) ∧ PGALIGNED vb ∧ IS_USER_VA vb ∧
        Route k2 mm.pgt vb a := by
  cases hw : walk k mm va false with
  | mk k1 res =>
    cases res with
    | none =>
      obtain ⟨rfl, hno⟩ := walk_noalloc_none hw
      refine ⟨k1, Lw, fun n => ?_, h, ?_⟩
      · simp only [freevmaLoop]; rw [hw]
      · intro a ha
        obtain ⟨vb, hq, hbal, hbu, hr⟩ := hQ a ha
        refine ⟨vb, ⟨hq, ?_⟩, hbal, hbu, hr⟩
        rintro rfl
        exact hno a hbu hr
    | some pte =>
      obtain ⟨rfl, hu, hroute⟩ := walk_noalloc_route hw
      by_cases hv : k1.mem pte &&& PTE_V ≠ 0
      · have htab := h.pgt_inv.route_table hroute
        have hpx := PX_lt 0 va
        have hpte : pte = PTE2PA (k1.mem (PTE2PA (k1.mem (mm.pgt + 8 * PX 2 va)) + 8 * PX 1 va))
            + 8 * PX 0 va := hroute.2.2
        have hown : pte ∈ Lw := by
          have hl := h.all_leaves _ htab.2 _ hpx (by rw [← hpte]; exact hv)
          rw [← hpte] at hl
          rcases hl with hl | hl
          · exact hl
          · obtain ⟨vk, hvk, hrk⟩ := h.kernel_leaves pte hl
            have hkal : PGALIGNED vk := by rcases hvk with rfl | rfl <;> decide
            have hku : IS_USER_VA vk := by rcases hvk with rfl | rfl <;> decide
            have := h.pgt_inv.route_inj hroute hrk hal hkal hu hku
            rcases hvk with rfl | rfl
            · exact absurd this hne1
            · exact absurd this hne2
        have hm : ∀ a, a ≠ pte →
            ((kfreepage k1 (PTE2PA (k1.mem pte))).store pte 0).mem a = k1.mem a := by
          intro a hne
          rw [store_mem, if_neg hne]; rfl
        have h2 := h.free_leaf ((kfreepage k1 (PTE2PA (k1.mem pte))).store pte 0) h0
          (by rw [store_mem, if_pos rfl]) hm rfl hown
        have hs : ∀ t ∈ mm.pgt :: L1s, ∀ j < 512,
            ((kfreepage k1 (PTE2PA (k1.mem pte))).store pte 0).mem (t + 8 * j) =
              k1.mem (t + 8 * j) :=
          h.pgt_inv.leaf_sameInner htab.2 hpx (by rw [← hpte]; exact hm)
        refine ⟨_, _, fun n => ?_, h2, ?_⟩
        · simp only [freevmaLoop]; rw [hw]; simp only; rw [if_pos hv]; rfl
        · intro a ha
          have hnd := h.owned_nodup h0
          rw [hnd.mem_erase_iff] at ha
          obtain ⟨vb, hq, hbal, hbu, hr⟩ := hQ a ha.2
          refine ⟨vb, ⟨hq, ?_⟩, hbal, hbu, Route.route_sameInner h.pgt_inv hs hr⟩
          rintro rfl
          exact ha.1 (Route.route_unique hr hroute)
      · refine ⟨k1, Lw, fun n => ?_, h, ?_⟩
        · simp only [freevmaLoop]; rw [hw]; simp only; rw [if_neg hv]
        · intro a ha
          obtain ⟨vb, hq, hbal, hbu, hr⟩ := hQ a ha
          refine ⟨vb, ⟨hq, ?_⟩, hbal, hbu, hr⟩
          rintro rfl
          have := Route.route_unique hr hroute
          subst this
          exact hv (h.owned_valid a ha)

/-- The loop of `freevma` over `n` pages from `va`, none of them the trapframe
or the trampoline. -/
theorem freevmaLoop_inv {k0 : Kernel} (h0 : FreeOk k0) (mm : Mm) {vmas : List Vma}
    {L1s L0s Kw : List Nat} (n : Nat) :
    ∀ (Q : Nat → Prop) (va : Nat) (k : Kernel) (Lw : List Nat),
    MmInv k0 k mm.pgt vmas L1s L0s Lw Kw → PGALIGNED va →
    RangeClear va (va + n * PGSIZE) →
    (∀ a ∈ Lw, ∃ vb, Q vb ∧ PGALIGNED vb ∧ IS_USER_VA vb ∧ Route k mm.pgt vb a) →
    ∃ Lw2, MmInv k0 (freevmaLoop mm true n va k) mm.pgt vmas L1s L0s Lw2 Kw ∧
      ∀ a ∈ Lw2, ∃ vb, (Q vb ∧ ¬ (va ≤ vb ∧ vb < va + n * PGSIZE)) ∧ PGALIGNED vb ∧
        IS_USER_VA vb ∧ Route (freevmaLoop mm true n va k) mm.pgt vb a := by
  induction n with
  | zero =>
    intro Q va k Lw h _ _ hQ
    refine ⟨Lw, h, ?_⟩
    intro a ha
    obtain ⟨vb, hq, hbal, hbu, hr⟩ := hQ a ha
    exact ⟨vb, ⟨hq, by omega⟩, hbal, hbu, hr⟩
  | succ n ih =>
    intro Q va k Lw h hal hclear hQ
    have hne : va ≠ TRAPFRAME ∧ va ≠ TRAMPOLINE := by
      unfold RangeClear TRAPFRAME TRAMPOLINE USER_TOP PGSIZE at *
      omega
    obtain ⟨k2, Lw2, hstep, h2, hQ2⟩ := freevma_step h0 h Q hal hne.1 hne.2 hQ
    rw [hstep n]
    have hal2 : PGALIGNED (va + PGSIZE) := by
      unfold PGALIGNED PGSIZE at *; omega
    have hclear2 : RangeClear (va + PGSIZE) (va + PGSIZE + n * PGSIZE) := by
      unfold RangeClear TRAPFRAME TRAMPOLINE USER_TOP PGSIZE PGALIGNED at *
      omega
    obtain ⟨Lw3, h3, hQ3⟩ := ih (fun vb => Q vb ∧ vb ≠ va) (va + PGSIZE) k2 Lw2 h2 hal2 hclear2 hQ2
    refine ⟨Lw3, h3, ?_⟩
    intro a ha
    obtain ⟨vb, ⟨⟨hq, hnva⟩, hout⟩, hbal, hbu, hr⟩ := hQ3 a ha
    refine ⟨vb, ⟨hq, ?_⟩, hbal, hbu, hr⟩
    unfold PGALIGNED PGSIZE at *
    omega

theorem npages_end {s e : Nat} (hs : PGALIGNED s) (he : PGALIGNED e) (hle : s ≤ e) :
    s + npages s e * PGSIZE = e := by
  unfold npages PGALIGNED PGSIZE at *
  omega

theorem npages_zero {s e : Nat} (hle : e ≤ s) : npages s e = 0 := by
  unfold npages PGSIZE
  omega

/-- The loop of `mm_free_vmas`: it returns, and no owned leaf entry is left when
every owned entry lies in one of the VMAs still to free. -/
theorem freeVmaList_inv {k0 : Kernel} (h0 : FreeOk k0) (mm : Mm) {vmas : List Vma}
    {L1s L0s Kw : List Nat} (todo : List Vma) :
    ∀ (k : Kernel) (Lw : List Nat), MmInv k0 k mm.pgt vmas L1s L0s Lw Kw →
    (∀ v ∈ todo, v ∈ vmas) →
    (∀ a ∈ Lw, ∃ vb, (∃ v ∈ todo, v.vm_start ≤ vb ∧ vb < v.vm_end) ∧ PGALIGNED vb ∧
      IS_USER_VA vb ∧ Route k mm.pgt vb a) →
    ∃ k2, freeVmaList mm todo k = some k2 ∧ MmInv k0 k2 mm.pgt vmas L1s L0s [] Kw := by
  induction todo with
  | nil =>
    intro k Lw h _ hQ
    have : Lw = [] := by
      rw [List.eq_nil_iff_forall_not_mem]
      intro a ha
      obtain ⟨vb, ⟨v, hv, _⟩, _⟩ := hQ a ha
      simp at hv
    subst this
    exact ⟨k, rfl, h⟩
  | cons v rest ih =>
    intro k Lw h hsub hQ
    obtain ⟨hs, he, hclear, -⟩ := h.vma_ok v (hsub v (List.mem_cons_self _ _))
    have hfv : freevma k mm v true =
        some (freevmaLoop mm true (npages v.vm_start v.vm_end) v.vm_start k) := by
      unfold freevma
      rw [if_neg (not_not.mpr ⟨hs, he⟩)]
    have hclear2 : RangeClear v.vm_start
        (v.vm_start + npages v.vm_start v.vm_end * PGSIZE) := by
      rcases Nat.le_total v.vm_start v.vm_end with hle | hle
      · rw [npages_end hs he hle]; exact hclear
      · rw [npages_zero hle]
        unfold RangeClear; omega
    obtain ⟨Lw2, h2, hQ2⟩ := freevmaLoop_inv h0 mm (npages v.vm_start v.vm_end) _ v.vm_start k Lw
      h hs hclear2 hQ
    simp only [freeVmaList]
    rw [hfv]
    simp only
    refine ih _ Lw2 h2 (fun w hw => hsub w (List.mem_cons_of_mem _ hw)) ?_
    intro a ha
    obtain ⟨vb, ⟨⟨w, hw, hin⟩, hout⟩, hbal, hbu, hr⟩ := hQ2 a ha
    refine ⟨vb, ⟨w, ?_, hin⟩, hbal, hbu, hr⟩
    rcases List.mem_cons.mp hw with rfl | hw
    · exfalso
      apply hout
      have hle : w.vm_start ≤ w.vm_end := by omega
      rw [npages_end hs he hle]
      exact hin
    · exact hw

/-- From the invariant, `mm_free_vmas` returns, and leaves the tables with the two
kernel-owned leaf entries only. -/
theorem mm_free_vmas_inv {k0 k : Kernel} (h0 : FreeOk k0) {mm : Mm}
    {L1s L0s Lw Kw : List Nat} (h : MmInv k0 k mm.pgt mm.vma L1s L0s Lw Kw) :
    ∃ k2 mm2, mm_free_vmas k mm = some (k2, mm2) ∧ mm2.pgt = mm.pgt ∧
      MmInv k0 k2 mm.pgt mm.vma L1s L0s [] Kw := by
  obtain ⟨k2, hres, h2⟩ := freeVmaList_inv h0 mm mm.vma k Lw h (fun _ hv => hv) (by
    intro a ha
    obtain ⟨v, hv, va, h1, h2, h3, h4, h5⟩ := h.owned_cover a ha
    exact ⟨va, ⟨v, hv, h1, h2⟩, h3, h4, h5⟩)
  refine ⟨k2, Mm.mk mm.pgt [] mm.refcnt, ?_, rfl, h2⟩
  unfold mm_free_vmas
  rw [hres]

/-- A loop of `freepgt` over entries none of which is a valid inner entry
changes nothing. -/
theorem freepgtLoop_id (recur : Nat → Kernel → Option Kernel) (t : Nat) (k : Kernel) (n : Nat) :
    ∀ i, (∀ j, i ≤ j → j < i + n →
      ¬ (k.mem (t + 8 * j) &&& PTE_V ≠ 0 ∧ k.mem (t + 8 * j) &&& PTE_RWX = 0)) →
    freepgtLoop recur t n i k = some k := by
  induction n with
  | zero => intro i _; rfl
  | succ n ih =>
    intro i h
    simp only [freepgtLoop]
    rw [if_neg (h i (le_refl _) (by omega))]
    exact ih (i + 1) (fun j h1 h2 => h j (by omega) (by omega))

/-- With fuel left, `freepgt` on a level-0 table frees the table and nothing
else. -/
theorem freepgt_l0 {k0 k : Kernel} {pgt : Nat} {L1s L0s : List Nat}
    (h : FreeInv k0 k pgt L1s L0s) {t0 : Nat} (ht0 : t0 ∈ L0s) (f : Nat) :
    freepgt (f + 1) t0 k = some (kfreepage k t0) := by
  simp only [freepgt]
  rw [freepgtLoop_id (freepgt f) t0 k 512 0 (fun j _ hj hc =>
    h.leaf t0 ht0 j (by omega) hc.1 hc.2)]

theorem FreeInv.tables_perm {K L1s L0s L0s2 fl : List Nat} {pgt t0 : Nat}
    (h : K.Perm (pgt :: (L1s ++ L0s) ++ fl)) (he : L0s.Perm (t0 :: L0s2)) :
    K.Perm (pgt :: (L1s ++ L0s2) ++ t0 :: fl) := by
  refine h.trans ?_
  rw [List.perm_iff_count]
  intro a
  have := he.count_eq a
  simp only [List.count_append, List.count_cons, List.cons_append] at *
  omega

theorem FreeInv.tables_perm1 {K L1s L1s2 L0s fl : List Nat} {pgt t1 : Nat}
    (h : K.Perm (pgt :: (L1s ++ L0s) ++ fl)) (he : L1s.Perm (t1 :: L1s2)) :
    K.Perm (pgt :: (L1s2 ++ L0s) ++ t1 :: fl) := by
  refine h.trans ?_
  rw [List.perm_iff_count]
  intro a
  have := he.count_eq a
  simp only [List.count_append, List.count_cons, List.cons_append] at *
  omega

/-- Freeing the level-0 table of a valid level-1 entry and clearing the entry
keeps the invariant of `freepgt`. -/
theorem FreeInv.free_l0 {k0 k : Kernel} (k2 : Kernel) {pgt : Nat} {L1s L0s : List Nat}
    (h : FreeInv k0 k pgt L1s L0s) {t1 j : Nat} (ht1 : t1 ∈ L1s) (hj : j < 512)
    (hv : k.mem (t1 + 8 * j) &&& PTE_V ≠ 0) (hm0 : k2.mem (t1 + 8 * j) = 0)
    (hm : ∀ a, a ≠ t1 + 8 * j → k2.mem a = k.mem a)
    (hfl : k2.freelist = PTE2PA (k.mem (t1 + 8 * j)) :: k.freelist) :
    FreeInv k0 k2 pgt L1s (L0s.erase (PTE2PA (k.mem (t1 + 8 * j)))) := by
  have ht0 := h.pg.l1_sound t1 ht1 j hj hv
  have hnd := h.pg.nodup
  have hnd0 : L0s.Nodup := (List.nodup_append.mp (List.nodup_cons.mp hnd).2).2.1
  have hsub : (pgt :: (L1s ++ L0s.erase (PTE2PA (k.mem (t1 + 8 * j))))).Sublist
      (pgt :: (L1s ++ L0s)) :=
    ((List.Sublist.refl L1s).append (List.erase_sublist _ _)).cons₂ _
  have ht1m : t1 ∈ pgt :: (L1s ++ L0s) :=
    List.mem_cons_of_mem _ (List.mem_append_left _ ht1)
  have hword : ∀ t ∈ pgt :: (L1s ++ L0s), ∀ i < 512, (t ≠ t1 ∨ i ≠ j) →
      k2.mem (t + 8 * i) = k.mem (t + 8 * i) := by
    intro t ht i hi hne
    apply hm
    intro heq
    have := page_word_inj (h.pg.aligned t ht) (h.pg.aligned t1 ht1m) hi hj heq
    rcases hne with hne | hne
    · exact hne this.1
    · exact hne this.2
  have hval : ∀ t ∈ pgt :: (L1s ++ L0s), ∀ i < 512, k2.mem (t + 8 * i) &&& PTE_V ≠ 0 →
      (t ≠ t1 ∨ i ≠ j) ∧ k2.mem (t + 8 * i) = k.mem (t + 8 * i) := by
    intro t ht i hi hvi
    have hne : t ≠ t1 ∨ i ≠ j := by
      by_contra hc
      push_neg at hc
      rw [hc.1, hc.2, hm0] at hvi
      simp at hvi
    exact ⟨hne, hword t ht i hi hne⟩
  have hp1 : pgt ≠ t1 := by
    rintro rfl
    exact (List.nodup_cons.mp hnd).1 (List.mem_append_left _ ht1)
  have hroot : ∀ i < 512, k2.mem (pgt + 8 * i) = k.mem (pgt + 8 * i) := fun i hi =>
    hword pgt (List.mem_cons_self _ _) i hi (Or.inl hp1)
  have hl0 : ∀ t ∈ L0s, ∀ i < 512, k2.mem (t + 8 * i) = k.mem (t + 8 * i) := by
    intro t ht i hi
    refine hword t (List.mem_cons_of_mem _ (List.mem_append_right _ ht)) i hi (Or.inl ?_)
    rintro rfl
    exact (List.nodup_append.mp (List.nodup_cons.mp hnd).2).2.2 ht1 ht
  have hl1m : ∀ t ∈ L1s, t ∈ pgt :: (L1s ++ L0s) := fun t ht =>
    List.mem_cons_of_mem _ (List.mem_append_left _ ht)
  constructor
  · constructor
    · exact hnd.sublist hsub
    · exact fun t ht => h.pg.aligned t (hsub.subset ht)
    · intro t ht
      rw [hfl, List.mem_cons, not_or]
      refine ⟨?_, h.pg.notfree t (hsub.subset ht)⟩
      rintro rfl
      rcases List.mem_cons.mp ht with hp | hp
      · exact (List.nodup_cons.mp hnd).1 (hp ▸ List.mem_append_right _ ht0)
      · rcases List.mem_append.mp hp with hp | hp
        · exact (List.nodup_append.mp (List.nodup_cons.mp hnd).2).2.2 hp ht0
        · exact (hnd0.mem_erase_iff.mp hp).1 rfl
    · intro i hi hvi
      rw [hroot i hi] at hvi ⊢
      exact h.pg.root_sound i hi hvi
    · intro t ht i hi hvi
      obtain ⟨hne, heq⟩ := hval t (hl1m t ht) i hi hvi
      rw [heq] at hvi ⊢
      rw [hnd0.mem_erase_iff]
      refine ⟨?_, h.pg.l1_sound t ht i hi hvi⟩
      intro hc
      have := h.pg.l1_inj t ht i hi hvi t1 ht1 j hj hv hc
      rcases hne with hne | hne
      · exact hne this.1
      · exact hne this.2
    · intro t ht
      obtain ⟨i, hi, hvi, hpa⟩ := h.pg.root_complete t ht
      exact ⟨i, hi, by rw [hroot i hi]; exact hvi, by rw [hroot i hi]; exact hpa⟩
    · intro t ht
      rw [hnd0.mem_erase_iff] at ht
      obtain ⟨t1b, ht1b, i, hi, hvi, hpa⟩ := h.pg.l1_complete t ht.2
      have hne : t1b ≠ t1 ∨ i ≠ j := by
        by_contra hc
        push_neg at hc
        rw [hc.1, hc.2] at hpa
        exact ht.1 hpa.symm
      have := hword t1b (hl1m t1b ht1b) i hi hne
      exact ⟨t1b, ht1b, i, hi, by rw [this]; exact hvi, by rw [this]; exact hpa⟩
    · intro i hi hvi i2 hi2 hvi2
      rw [hroot i hi] at hvi ⊢
      rw [hroot i2 hi2] at hvi2 ⊢
      exact h.pg.root_inj i hi hvi i2 hi2 hvi2
    · intro t ht i hi hvi t2 ht2 i2 hi2 hvi2
      obtain ⟨-, heq⟩ := hval t (hl1m t ht) i hi hvi
      obtain ⟨-, heq2⟩ := hval t2 (hl1m t2 ht2) i2 hi2 hvi2
      rw [heq] at hvi ⊢
      rw [heq2] at hvi2 ⊢
      exact h.pg.l1_inj t ht i hi hvi t2 ht2 i2 hi2 hvi2
  · intro t ht i hi hvi
    have htm : t ∈ pgt :: (L1s ++ L0s) := by
      rcases List.mem_cons.mp ht with rfl | hp
      · exact List.mem_cons_self _ _
      · exact hl1m t hp
    obtain ⟨-, heq⟩ := hval t htm i hi hvi
    rw [heq] at hvi ⊢
    exact h.inner t ht i hi hvi
  · intro t ht i hi hvi
    have ht' := (hnd0.mem_erase_iff.mp ht).2
    rw [hl0 t ht' i hi] at hvi ⊢
    exact h.leaf t ht' i hi hvi
  · rw [hfl]
    exact FreeInv.tables_perm h.perm (List.perm_cons_erase ht0)

theorem freepgt_succ (f pgt : Nat) (k : Kernel) :
    freepgt (f + 1) pgt k =
      match freepgtLoop (freepgt f) pgt 512 0 k with
      | none => none
      | some k1 => some (kfreepage k1 pgt) := rfl

/-- Freeing the level-1 table of a valid root entry, once the table has no valid
entry left, and clearing the root entry keeps the invariant of `freepgt`. -/
theorem FreeInv.free_l1 {k0 k : Kernel} (k2 : Kernel) {pgt : Nat} {L1s L0s : List Nat}
    (h : FreeInv k0 k pgt L1s L0s) {i : Nat} (hi : i < 512)
    (hv : k.mem (pgt + 8 * i) &&& PTE_V ≠ 0)
    (hempty : ∀ j < 512, k.mem (PTE2PA (k.mem (pgt + 8 * i)) + 8 * j) &&& PTE_V = 0)
    (hm0 : k2.mem (pgt + 8 * i) = 0)
    (hm : ∀ a, a ≠ pgt + 8 * i → k2.mem a = k.mem a)
    (hfl : k2.freelist = PTE2PA (k.mem (pgt + 8 * i)) :: k.freelist) :
    FreeInv k0 k2 pgt (L1s.erase (PTE2PA (k.mem (pgt + 8 * i)))) L0s := by
  have ht1 := h.pg.root_sound i hi hv
  have hnd := h.pg.nodup
  have hnd1 : L1s.Nodup := (List.nodup_append.mp (List.nodup_cons.mp hnd).2).1
  have hsub : (pgt :: (L1s.erase (PTE2PA (k.mem (pgt + 8 * i))) ++ L0s)).Sublist
      (pgt :: (L1s ++ L0s)) :=
    ((List.erase_sublist _ _).append (List.Sublist.refl L0s)).cons₂ _
  have hpm : pgt ∈ pgt :: (L1s ++ L0s) := List.mem_cons_self _ _
  have hword : ∀ t ∈ pgt :: (L1s ++ L0s), ∀ j < 512, (t ≠ pgt ∨ j ≠ i) →
      k2.mem (t + 8 * j) = k.mem (t + 8 * j) := by
    intro t ht j hj hne
    apply hm
    intro heq
    have := page_word_inj (h.pg.aligned t ht) (h.pg.aligned pgt hpm) hj hi heq
    rcases hne with hne | hne
    · exact hne this.1
    · exact hne this.2
  have hval : ∀ t ∈ pgt :: (L1s ++ L0s), ∀ j < 512, k2.mem (t + 8 * j) &&& PTE_V ≠ 0 →
      (t ≠ pgt ∨ j ≠ i) ∧ k2.mem (t + 8 * j) = k.mem (t + 8 * j) := by
    intro t ht j hj hvj
    have hne : t ≠ pgt ∨ j ≠ i := by
      by_contra hc
      push_neg at hc
      rw [hc.1, hc.2, hm0] at hvj
      simp at hvj
    exact ⟨hne, hword t ht j hj hne⟩
  have hl1m : ∀ t ∈ L1s, t ∈ pgt :: (L1s ++ L0s) := fun t ht =>
    List.mem_cons_of_mem _ (List.mem_append_left _ ht)
  have hl0m : ∀ t ∈ L0s, t ∈ pgt :: (L1s ++ L0s) := fun t ht =>
    List.mem_cons_of_mem _ (List.mem_append_right _ ht)
  have hl1 : ∀ t ∈ L1s, ∀ j < 512, k2.mem (t + 8 * j) = k.mem (t + 8 * j) := by
    intro t ht j hj
    refine hword t (hl1m t ht) j hj (Or.inl ?_)
    rintro rfl
    exact (List.nodup_cons.mp hnd).1 (List.mem_append_left _ ht)
  have hl0 : ∀ t ∈ L0s, ∀ j < 512, k2.mem (t + 8 * j) = k.mem (t + 8 * j) := by
    intro t ht j hj
    refine hword t (hl0m t ht) j hj (Or.inl ?_)
    rintro rfl
    exact (List.nodup_cons.mp hnd).1 (List.mem_append_right _ ht)
  constructor
  · constructor
    · exact hnd.sublist hsub
    · exact fun t ht => h.pg.aligned t (hsub.subset ht)
    · intro t ht
      rw [hfl, List.mem_cons, not_or]
      refine ⟨?_, h.pg.notfree t (hsub.subset ht)⟩
      rintro rfl
      rcases List.mem_cons.mp ht with hp | hp
      · exact (List.nodup_cons.mp hnd).1 (hp ▸ List.mem_append_left _ ht1)
      · rcases List.mem_append.mp hp with hp | hp
        · exact (hnd1.mem_erase_iff.mp hp).1 rfl
        · exact (List.nodup_append.mp (List.nodup_cons.mp hnd).2).2.2 ht1 hp
    · intro j hj hvj
      obtain ⟨hne, heq⟩ := hval pgt hpm j hj hvj
      rw [heq] at hvj ⊢
      rw [hnd1.mem_erase_iff]
      refine ⟨?_, h.pg.root_sound j hj hvj⟩
      intro hc
      have := h.pg.root_inj j hj hvj i hi hv hc
      rcases hne with hne | hne
      · exact hne rfl
      · exact hne this
    · intro t ht j hj hvj
      have ht' := (hnd1.mem_erase_iff.mp ht).2
      rw [hl1 t ht' j hj] at hvj ⊢
      exact h.pg.l1_sound t ht' j hj hvj
    · intro t ht
      rw [hnd1.mem_erase_iff] at ht
      obtain ⟨j, hj, hvj, hpa⟩ := h.pg.root_complete t ht.2
      have hne : pgt ≠ pgt ∨ j ≠ i := by
        right
        rintro rfl
        exact ht.1 hpa.symm
      have := hword pgt hpm j hj hne
      exact ⟨j, hj, by rw [this]; exact hvj, by rw [this]; exact hpa⟩
    · intro t ht
      obtain ⟨t1b, ht1b, j, hj, hvj, hpa⟩ := h.pg.l1_complete t ht
      have hne : t1b ≠ PTE2PA (k.mem (pgt + 8 * i)) := by
        rintro rfl
        exact hvj (hempty j hj)
      have := hl1 t1b ht1b j hj
      exact ⟨t1b, hnd1.mem_erase_iff.mpr ⟨hne, ht1b⟩, j, hj, by rw [this]; exact hvj,
        by rw [this]; exact hpa⟩
    · intro j hj hvj j2 hj2 hvj2
      obtain ⟨-, heq⟩ := hval pgt hpm j hj hvj
      obtain ⟨-, heq2⟩ := hval pgt hpm j2 hj2 hvj2
      rw [heq] at hvj ⊢
      rw [heq2] at hvj2 ⊢
      exact h.pg.root_inj j hj hvj j2 hj2 hvj2
    · intro t ht j hj hvj t2 ht2 j2 hj2 hvj2
      have ht' := (hnd1.mem_erase_iff.mp ht).2
      have ht2' := (hnd1.mem_erase_iff.mp ht2).2
      rw [hl1 t ht' j hj] at hvj ⊢
      rw [hl1 t2 ht2' j2 hj2] at hvj2 ⊢
      exact h.pg.l1_inj t ht' j hj hvj t2 ht2' j2 hj2 hvj2
  · intro t ht j hj hvj
    have ht' : t ∈ pgt :: L1s := by
      rcases List.mem_cons.mp ht with rfl | hp
      · exact List.mem_cons_self _ _
      · exact List.mem_cons_of_mem _ (hnd1.mem_erase_iff.mp hp).2
    have htm : t ∈ pgt :: (L1s ++ L0s) := by
      rcases List.mem_cons.mp ht' with rfl | hp
      · exact hpm
      · exact hl1m t hp
    obtain ⟨-, heq⟩ := hval t htm j hj hvj
    rw [heq] at hvj ⊢
    exact h.inner t ht' j hj hvj
  · intro t ht j hj hvj
    rw [hl0 t ht j hj] at hvj ⊢
    exact h.leaf t ht j hj hvj
  · rw [hfl]
    exact FreeInv.tables_perm1 h.perm (List.perm_cons_erase ht1)

/-- The loop of `freepgt` over a level-1 table: it returns, every level-0 table
under it is freed, no entry of the table is valid afterwards, and no word
outside the table is written. -/
theorem freepgt_l1_loop {k0 : Kernel} {pgt : Nat} {L1s : List Nat} {t1 : Nat} (ht1 : t1 ∈ L1s)
    (f n : Nat) : ∀ (i : Nat) (k : Kernel) (L0s : List Nat), i + n = 512 →
    FreeInv k0 k pgt L1s L0s → (∀ j < i, k.mem (t1 + 8 * j) &&& PTE_V = 0) →
    ∃ k2 L0s2, freepgtLoop (freepgt (f + 1)) t1 n i k = some k2 ∧ FreeInv k0 k2 pgt L1s L0s2 ∧
      (∀ j < 512, k2.mem (t1 + 8 * j) &&& PTE_V = 0) ∧
      ∀ a, (∀ j < 512, a ≠ t1 + 8 * j) → k2.mem a = k.mem a := by
  induction n with
  | zero =>
    intro i k L0s hin h hpre
    exact ⟨k, L0s, rfl, h, fun j hj => hpre j (by omega), fun _ _ => rfl⟩
  | succ n ih =>
    intro i k L0s hin h hpre
    have hi : i < 512 := by omega
    simp only [freepgtLoop]
    by_cases hv : k.mem (t1 + 8 * i) &&& PTE_V ≠ 0
    · have hr := h.inner t1 (List.mem_cons_of_mem _ ht1) i hi hv
      rw [if_pos ⟨hv, hr⟩, freepgt_l0 h (h.pg.l1_sound t1 ht1 i hi hv) f]
      simp only
      have hm : ∀ a, a ≠ t1 + 8 * i →
          ((kfreepage k (PTE2PA (k.mem (t1 + 8 * i)))).store (t1 + 8 * i) 0).mem a = k.mem a := by
        intro a hne
        rw [store_mem, if_neg hne]; rfl
      have h2 := h.free_l0 ((kfreepage k (PTE2PA (k.mem (t1 + 8 * i)))).store (t1 + 8 * i) 0)
        ht1 hi hv (by rw [store_mem, if_pos rfl]) hm rfl
      obtain ⟨k3, L0s3, hres, h3, hemp, hfr⟩ := ih (i + 1) _ _ (by omega) h2 (by
        intro j hj
        by_cases hji : j = i
        · subst hji
          rw [store_mem, if_pos rfl]; rfl
        · rw [hm _ (by omega)]
          exact hpre j (by omega))
      refine ⟨k3, L0s3, hres, h3, hemp, fun a ha => ?_⟩
      rw [hfr a ha, hm a (ha i hi)]
    · rw [if_neg (fun hc => hv hc.1)]
      obtain ⟨k3, L0s3, hres, h3, hemp, hfr⟩ := ih (i + 1) k L0s (by omega) h (by
        intro j hj
        by_cases hji : j = i
        · subst hji
          exact not_not.mp hv
        · exact hpre j (by omega))
      exact ⟨k3, L0s3, hres, h3, hemp, hfr⟩

/-- The loop of `freepgt` over the root: it returns, every table under the root
is freed and no entry of the root is valid afterwards. -/
theorem freepgt_root_loop {k0 : Kernel} {pgt : Nat} (f n : Nat) :
    ∀ (i : Nat) (k : Kernel) (L1s L0s : List Nat), i + n = 512 →
    FreeInv k0 k pgt L1s L0s → (∀ j < i, k.mem (pgt + 8 * j) &&& PTE_V = 0) →
    ∃ k2 L1s2 L0s2, freepgtLoop (freepgt (f + 1 + 1)) pgt n i k = some k2 ∧
      FreeInv k0 k2 pgt L1s2 L0s2 ∧ ∀ j < 512, k2.mem (pgt + 8 * j) &&& PTE_V = 0 := by
  induction n with
  | zero =>
    intro i k L1s L0s hin h hpre
    exact ⟨k, L1s, L0s, rfl, h, fun j hj => hpre j (by omega)⟩
  | succ n ih =>
    intro i k L1s L0s hin h hpre
    have hi : i < 512 := by omega
    simp only [freepgtLoop]
    by_cases hv : k.mem (pgt + 8 * i) &&& PTE_V ≠ 0
    · have hr := h.inner pgt (List.mem_cons_self _ _) i hi hv
      have ht1 := h.pg.root_sound i hi hv
      obtain ⟨k1, L0s1, hloop, h1, hemp, hfr⟩ := freepgt_l1_loop ht1 f 512 0 k L0s rfl h
        (fun j hj => absurd hj (Nat.not_lt_zero j))
      have hpm : pgt ∈ pgt :: (L1s ++ L0s) := List.mem_cons_self _ _
      have ht1m : PTE2PA (k.mem (pgt + 8 * i)) ∈ pgt :: (L1s ++ L0s) :=
        List.mem_cons_of_mem _ (List.mem_append_left _ ht1)
      have hp1 : pgt ≠ PTE2PA (k.mem (pgt + 8 * i)) := by
        intro hc
        exact (List.nodup_cons.mp h.pg.nodup).1 (hc ▸ List.mem_append_left _ ht1)
      have hroot : ∀ j < 512, k1.mem (pgt + 8 * j) = k.mem (pgt + 8 * j) := by
        intro j hj
        apply hfr
        intro j2 hj2 heq
        exact hp1 (page_word_inj (h.pg.aligned pgt hpm) (h.pg.aligned _ ht1m) hj hj2 heq).1
      have hfp : freepgt (f + 1 + 1) (PTE2PA (k.mem (pgt + 8 * i))) k =
          some (kfreepage k1 (PTE2PA (k.mem (pgt + 8 * i)))) := by
        rw [freepgt_succ, hloop]
      rw [if_pos ⟨hv, hr⟩, hfp]
      simp only
      have hm : ∀ a, a ≠ pgt + 8 * i →
          ((kfreepage k1 (PTE2PA (k.mem (pgt + 8 * i)))).store (pgt + 8 * i) 0).mem a =
            k1.mem a := by
        intro a hne
        rw [store_mem, if_neg hne]; rfl
      have h2 := h1.free_l1 ((kfreepage k1 (PTE2PA (k.mem (pgt + 8 * i)))).store (pgt + 8 * i) 0)
        hi (by rw [hroot i hi]; exact hv) (by rw [hroot i hi]; exact hemp)
        (by rw [store_mem, if_pos rfl]) hm (by rw [hroot i hi]; rfl)
      obtain ⟨k3, L1s3, L0s3, hres, h3, hemp3⟩ := ih (i + 1) _ _ _ (by omega) h2 (by
        intro j hj
        by_cases hji : j = i
        · subst hji
          rw [store_mem, if_pos rfl]; rfl
        · rw [hm _ (by omega), hroot j (by omega)]
          exact hpre j (by omega))
      exact ⟨k3, L1s3, L0s3, hres, h3, hemp3⟩
    · rw [if_neg (fun hc => hv hc.1)]
      exact ih (i + 1) k L1s L0s (by omega) h (by
        intro j hj
        by_cases hji : j = i
        · subst hji
          exact not_not.mp hv
        · exact hpre j (by omega))

/-- With three levels of fuel, `freepgt` on the root returns, and the free list
afterwards holds the frames of the free list of `k0`, each once. -/
theorem freepgt_root {k0 k : Kernel} {pgt : Nat} {L1s L0s : List Nat}
    (h : FreeInv k0 k pgt L1s L0s) (f : Nat) :
    ∃ k3, freepgt (f + 1 + 1 + 1) pgt k = some k3 ∧ k3.freelist.Perm k0.freelist := by
  obtain ⟨k2, L1s2, L0s2, hloop, h2, hemp⟩ := freepgt_root_loop f 512 0 k L1s L0s rfl h
    (fun j hj => absurd hj (Nat.not_lt_zero j))
  have hL1 : L1s2 = [] := by
    rw [List.eq_nil_iff_forall_not_mem]
    intro t ht
    obtain ⟨i, hi, hv, -⟩ := h2.pg.root_complete t ht
    exact hv (hemp i hi)
  subst hL1
  have hL0 : L0s2 = [] := by
    rw [List.eq_nil_iff_forall_not_mem]
    intro t ht
    obtain ⟨t1, ht1, -⟩ := h2.pg.l1_complete t ht
    simp at ht1
  subst hL0
  refine ⟨kfreepage k2 pgt, ?_, ?_⟩
  · rw [freepgt_succ, hloop]
  · have := h2.perm
    simp only [List.append_nil, List.cons_append, List.nil_append] at this
    exact this.symm

/-- Without owned leaf entries, the invariant of an address space is the
invariant of `freepgt`. -/
theorem MmInv.freeInv {k0 k : Kernel} {pgt : Nat} {vmas : List Vma} {L1s L0s Kw : List Nat}
    (h : MmInv k0 k pgt vmas L1s L0s [] Kw) : FreeInv k0 k pgt L1s L0s := by
  refine ⟨h.pgt_inv, h.inner_rwx, h.leaf_rwx, ?_⟩
  have := h.perm
  simpa using this

/-- From the invariant, `mm_free` returns, and the free list afterwards holds the
frames of the free list of `k0`, each once. -/
theorem mm_free_inv {k0 k : Kernel} (h0 : FreeOk k0) {mm : Mm} {L1s L0s Lw Kw : List Nat}
    (h : MmInv k0 k mm.pgt mm.vma L1s L0s Lw Kw) (href : 0 < mm.refcnt) {fuel : Nat}
    (hfuel : 3 ≤ fuel) :
    ∃ k3, mm_free fuel k mm = some k3 ∧ k3.freelist.Perm k0.freelist := by
  obtain ⟨f, rfl⟩ : ∃ f, fuel = f + 1 + 1 + 1 := ⟨fuel - 3, by omega⟩
  obtain ⟨k2, mm2, hv, hp, h2⟩ := mm_free_vmas_inv h0 h
  obtain ⟨k3, hres, hperm⟩ := freepgt_root h2.freeInv f
  refine ⟨k3, ?_, hperm⟩
  unfold mm_free
  rw [if_neg (not_not.mpr href), hv]
  simp only
  rw [hp]
  exact hres

/-- What holds of the life of an address space away from the trapframe and the
trampoline: built by `mm_create` and followed by any sequence of successful
`mm_mappages` and `mm_remap` calls whose ranges keep clear of these two pages
(and whose new VMAs carry protection flags only), never forked, `mm_free`
returns, and the free list afterwards holds exactly the frames of the free
list before `mm_create`, each once, so the free-page count is what it was
before `mm_create`. -/
theorem mm_free_returns_every_frame {k0 : Kernel} {tf tr : Nat} {ops : List MapOp} {fuel : Nat}
    (h0 : FreeOk k0) (hclear : ∀ op ∈ ops, OpClear op)
    (hbuilt : (addressSpace k0 tf tr ops).isSome = true) (hfuel : 3 ≤ fuel) :
    ∃ k3, lifeCycle k0 tf tr ops fuel = some k3 ∧ k3.freelist.Perm k0.freelist ∧
      freepages_count k3 = freepages_count k0 := by
  unfold lifeCycle
  cases hb : addressSpace k0 tf tr ops with
  | none => rw [hb] at hbuilt; simp at hbuilt
  | some r =>
    obtain ⟨k2, mm2⟩ := r
    simp only
    unfold addressSpace at hb
    cases hc : mm_create k0 tf tr with
    | none => rw [hc] at hb; simp at hb
    | some c =>
      obtain ⟨k1, omm⟩ := c
      cases omm with
      | none => rw [hc] at hb; simp at hb
      | some mm =>
        rw [hc] at hb
        simp only at hb
        obtain ⟨-, href, L1s, L0s, Kw, h1⟩ := mm_create_inv h0 hc
        obtain ⟨-, hr, L1s2, L0s2, Lw2, h2⟩ := runOps_inv h0 ops h1 hclear hb
        obtain ⟨k3, hres, hperm⟩ := mm_free_inv h0 h2 (by rw [hr]; exact href) hfuel
        exact ⟨k3, hres, hperm, hperm.length_eq⟩

set_option maxRecDepth 100000 in
/-- C9, evaluated on `remapOverTrapframe` (`mm_create`, `mm_mappages` of the
page below the trapframe, `mm_remap` of that VMA up to the trampoline,
`mm_free`, every call successful): `mm_remap` re-flags the valid leaf of the
trapframe page, which the VMA never owned, and `mm_free` then frees the frame
of the trapframe, which `mm_create` did not take from the allocator. Of 16
free frames before `mm_create`, 17 are free after `mm_free`, the trapframe
frame `0x80300000` among them. -/
theorem remap_over_trapframe_frees_trapframe :
    freepages_count (uvm_init (bootKernel 16)) = 16 ∧
    remapOverTrapframe.map freepages_count = some 17 ∧
    remapOverTrapframe.map (fun k => decide (0x80300000 ∈ k.freelist)) = some true := by
  decide

set_option maxRecDepth 100000 in
theorem mm_free_returns_every_frame_witness :
    ∃ k3, lifeCycle (uvm_init (bootKernel 16)) 0x80300000 scenTrampoline heapGrowOps 3 = some k3 ∧
      k3.freelist.Perm (uvm_init (bootKernel 16)).freelist ∧
      freepages_count k3 = freepages_count (uvm_init (bootKernel 16)) :=
  mm_free_returns_every_frame (by decide) (by decide) (by decide) (by decide)

/-- C11, on the code: whenever its assertions hold `page_refcnt_decrease`
returns 0 and leaves the whole state, the reference-count table and the page
allocator included, as it was: nothing is subtracted, no frame is freed, and
a call on a frame whose count is 0 returns like any other. -/
theorem page_refcnt_decrease_returns_zero (k : Kernel) (pa : Nat) :
    page_refcnt_decrease k pa =
      if PGALIGNED pa ∧ VALID_PHYS_ADDR pa then some (k, 0) else none := by
  unfold page_refcnt_decrease
  by_cases h1 : PGALIGNED pa
  · by_cases h2 : VALID_PHYS_ADDR pa
    · simp [h1, h2, NR_OF_PAGES, PHYS_MEM_SIZE, PGSIZE]
    · simp [h1, h2]
  · simp [h1]

/-- What the loop of `vma_check_overlap` tests: it returns non-zero exactly when
`start` or `end_` falls into a VMA other than `exclude`. -/
theorem overlapLoop_ne_zero_iff (start end_ : Nat) (exclude : Option Nat) (l : List Vma) :
    overlapLoop start end_ exclude l ≠ 0 ↔
      ∃ v ∈ l, some v.id ≠ exclude ∧
        ((v.vm_start ≤ start ∧ start < v.vm_end) ∨ (v.vm_start < end_ ∧ end_ ≤ v.vm_end)) := by
  induction l with
  | nil => simp [overlapLoop]
  | cons v next ih =>
    rw [overlapLoop]
    by_cases hc : some v.id ≠ exclude ∧
        ((start < v.vm_end ∧ start ≥ v.vm_start) ∨ (end_ > v.vm_start ∧ end_ ≤ v.vm_end))
    · rw [if_pos hc]
      constructor
      · intro _
        refine ⟨v, List.mem_cons_self _ _, hc.1, ?_⟩
        rcases hc.2 with h | h
        · exact Or.inl ⟨h.2, h.1⟩
        · exact Or.inr ⟨h.1, h.2⟩
      · intro _; decide
    · rw [if_neg hc, ih]
      constructor
      · rintro ⟨w, hw, h⟩
        exact ⟨w, List.mem_cons_of_mem _ hw, h⟩
      · rintro ⟨w, hw, hne, h⟩
        rcases List.mem_cons.mp hw with rfl | hw
        · exfalso
          apply hc
          refine ⟨hne, ?_⟩
          rcases h with h | h
          · exact Or.inl ⟨h.2, h.1⟩
          · exact Or.inr ⟨h.1, h.2⟩
        · exact ⟨w, hw, hne, h⟩

theorem vma_check_overlap_ne_zero_iff (mm : Mm) (start end_ : Nat) (exclude : Option Nat) :
    vma_check_overlap mm start end_ exclude ≠ 0 ↔
      start ≠ end_ ∧ ∃ v ∈ mm.vma, some v.id ≠ exclude ∧
        ((v.vm_start ≤ start ∧ start < v.vm_end) ∨ (v.vm_start < end_ ∧ end_ ≤ v.vm_end)) := by
  unfold vma_check_overlap
  by_cases h : start = end_
  · simp [h]
  · rw [if_neg h, overlapLoop_ne_zero_iff]
    simp [h]

/-- C12, on the code: `vma_check_overlap` returns 0 for the range
`[0x1000, 0x4000)` against the single VMA `[0x2000, 0x3000)`, which the range
strictly contains and therefore intersects: neither `start` nor `end` falls
into the VMA, and the source tests nothing else. -/
theorem vma_check_overlap_misses_contained_vma :
    overlapSpec (Mm.mk 0 [Vma.mk 1 0x2000 0x3000 (PTE_R ||| PTE_W ||| PTE_U)] 1)
      0x1000 0x4000 none ∧
    vma_check_overlap (Mm.mk 0 [Vma.mk 1 0x2000 0x3000 (PTE_R ||| PTE_W ||| PTE_U)] 1)
      0x1000 0x4000 none = 0 := by
  decide

/-- C13. `vma_check_overlap` reports no false overlap: for `start < end_`, when
no VMA of `mm` other than `exclude` intersects `[start, end_)` it returns 0. In
particular, for `a < b < c`, the range `[b, c)` is accepted next to a VMA
`[a, b)` and the range `[a, b)` next to a VMA `[b, c)`. -/
theorem vma_check_overlap_no_false_overlap (mm : Mm) (start end_ : Nat) (exclude : Option Nat)
    (a b c : Nat) (va vb : Vma) (hlt : start < end_)
    (hno : ¬ overlapSpec mm start end_ exclude) (hab : a < b) (hbc : b < c)
    (hva : va.vm_start = a ∧ va.vm_end = b) (hvb : vb.vm_start = b ∧ vb.vm_end = c) :
    vma_check_overlap mm start end_ exclude = 0 ∧
    vma_check_overlap { mm with vma := [va] } b c exclude = 0 ∧
    vma_check_overlap { mm with vma := [vb] } a b exclude = 0 := by
  have key : ∀ (m : Mm) (s e : Nat), s < e → ¬ overlapSpec m s e exclude →
      vma_check_overlap m s e exclude = 0 := by
    intro m s e hse hn
    by_contra hc
    obtain ⟨-, v, hv, hne, h⟩ := (vma_check_overlap_ne_zero_iff m s e exclude).mp hc
    apply hn
    refine ⟨v, hv, hne, ?_⟩
    rcases h with h | h
    · exact ⟨h.2, by omega⟩
    · exact ⟨by omega, h.1⟩
  refine ⟨key mm start end_ hlt hno, key _ b c hbc ?_, key _ a b hab ?_⟩
  · rintro ⟨v, hv, -, h1, h2⟩
    simp only [List.mem_singleton] at hv
    subst hv
    omega
  · rintro ⟨v, hv, -, h1, h2⟩
    simp only [List.mem_singleton] at hv
    subst hv
    omega

theorem vma_check_overlap_no_false_overlap_witness :
    vma_check_overlap (Mm.mk 0 [Vma.mk 1 0x1000 0x2000 6, Vma.mk 2 0x5000 0x6000 6] 1)
      0x2000 0x5000 none = 0 ∧
    vma_check_overlap (Mm.mk 0 [Vma.mk 3 0x1000 0x2000 6] 1) 0x2000 0x3000 none = 0 ∧
    vma_check_overlap (Mm.mk 0 [Vma.mk 4 0x2000 0x3000 6] 1) 0x1000 0x2000 none = 0 :=
  vma_check_overlap_no_false_overlap
    (Mm.mk 0 [Vma.mk 1 0x1000 0x2000 6, Vma.mk 2 0x5000 0x6000 6] 1) 0x2000 0x5000 none
    0x1000 0x2000 0x3000 (Vma.mk 3 0x1000 0x2000 6) (Vma.mk 4 0x2000 0x3000 6)
    (by decide) (by decide) (by decide) (by decide) ⟨rfl, rfl⟩ ⟨rfl, rfl⟩

/-- C15. `walk(mm, va, 0)` leaves the state as it is (no entry is written, no
frame is taken), returns `NULL` when `va` is not a user VA or when the level-2
or the level-1 entry on the path of `va` lacks V, and otherwise returns the
address of entry `PX(0, va)` of the level-0 table on that path, whatever that
entry holds. -/
theorem walk_noalloc_spec (k : Kernel) (mm : Mm) (va : Nat) :
    walk k mm va false =
      (k, if IS_USER_VA va ∧ k.mem (mm.pgt + 8 * PX 2 va) &&& PTE_V ≠ 0 ∧
            k.mem (PTE2PA (k.mem (mm.pgt + 8 * PX 2 va)) + 8 * PX 1 va) &&& PTE_V ≠ 0
          then some (PTE2PA (k.mem (PTE2PA (k.mem (mm.pgt + 8 * PX 2 va)) + 8 * PX 1 va)) +
            8 * PX 0 va)
          else none) := by
  have h1 := walk_noalloc_fst k mm va
  cases hw : walk k mm va false with
  | mk k1 r =>
    rw [hw] at h1
    simp only at h1
    subst h1
    cases r with
    | none =>
      obtain ⟨-, hno⟩ := walk_noalloc_none hw
      rw [if_neg]
      rintro ⟨hu, h2, h1⟩
      exact hno _ hu ⟨h2, h1, rfl⟩
    | some a0 =>
      obtain ⟨hu, h2, h1, ha⟩ := walk_noalloc_some hw
      rw [if_pos ⟨hu, h2, h1⟩, ha]

/-- The leaf entry of `va`, read along the path of `va`. -/
theorem leafPte_formula (k : Kernel) (mm : Mm) (va : Nat) :
    leafPte k mm va =
      if IS_USER_VA va ∧ k.mem (mm.pgt + 8 * PX 2 va) &&& PTE_V ≠ 0 ∧
          k.mem (PTE2PA (k.mem (mm.pgt + 8 * PX 2 va)) + 8 * PX 1 va) &&& PTE_V ≠ 0
      then some (k.mem (PTE2PA (k.mem (PTE2PA (k.mem (mm.pgt + 8 * PX 2 va)) + 8 * PX 1 va)) +
        8 * PX 0 va))
      else none := by
  unfold leafPte
  rw [walk_noalloc_spec]
  split_ifs <;> rfl

/-- C17. For a page-aligned `va`, `walkaddr(mm, va)` returns 0 when `va` is not
a user VA, when `walk` finds no leaf entry, when the leaf entry lacks V and
when it lacks U; otherwise it returns `PTE2PA` of the leaf entry. It always
returns, and its result is page-aligned. -/
theorem walkaddr_spec (k : Kernel) (mm : Mm) (va : Nat) (hal : PGALIGNED va) :
    (¬ IS_USER_VA va → walkaddr k mm va = some 0) ∧
    (leafPte k mm va = none → walkaddr k mm va = some 0) ∧
    (∀ e, leafPte k mm va = some e → e &&& PTE_V = 0 → walkaddr k mm va = some 0) ∧
    (∀ e, leafPte k mm va = some e → e &&& PTE_U = 0 → walkaddr k mm va = some 0) ∧
    (∀ e, leafPte k mm va = some e → e &&& PTE_V ≠ 0 → e &&& PTE_U ≠ 0 →
      walkaddr k mm va = some (PTE2PA e)) ∧
    ∃ pa, walkaddr k mm va = some pa ∧ PGALIGNED pa := by
  have hz : PGALIGNED 0 := by decide
  have hw : walkaddr k mm va =
      if ¬ IS_USER_VA va then some 0
      else match leafPte k mm va with
        | none => some 0
        | some e => if e &&& PTE_V = 0 then some 0 else if e &&& PTE_U = 0 then some 0
            else some (PTE2PA e) := by
    unfold walkaddr leafPte
    by_cases hu : IS_USER_VA va
    · rw [if_neg (not_not.mpr hu), if_neg (not_not.mpr hal), if_neg (not_not.mpr hu)]
      cases walk k mm va false with
      | mk k1 r => cases r <;> rfl
    · rw [if_pos hu, if_pos hu]
  have hnu : ¬ IS_USER_VA va → leafPte k mm va = none := by
    intro hu
    rw [leafPte_formula, if_neg (fun h => hu h.1)]
  refine ⟨?_, ?_, ?_, ?_, ?_, ?_⟩
  · intro hu; rw [hw, if_pos hu]
  · intro hn
    rw [hw, hn]
    split_ifs <;> rfl
  · intro e he hv
    rw [hw, he]
    simp only [hv, if_true]
    split_ifs <;> rfl
  · intro e he hU
    rw [hw, he]
    simp only [hU, if_true]
    split_ifs <;> rfl
  · intro e he hv hU
    have hu : IS_USER_VA va := by
      by_contra hu
      rw [hnu hu] at he
      simp at he
    rw [hw, he, if_neg (not_not.mpr hu)]
    simp only [hv, hU, if_false]
  · rw [hw]
    by_cases hu : IS_USER_VA va
    swap
    · rw [if_pos hu]; exact ⟨0, rfl, hz⟩
    rw [if_neg (not_not.mpr hu)]
    cases leafPte k mm va with
    | none => exact ⟨0, rfl, hz⟩
    | some e =>
      simp only
      split_ifs
      · exact ⟨0, rfl, hz⟩
      · exact ⟨0, rfl, hz⟩
      · exact ⟨_, rfl, PTE2PA_aligned e⟩

set_option maxRecDepth 100000 in
theorem walkaddr_spec_witness :
    walkaddr forkK forkOld 0x1000 = some (PTE2PA 0x20101817) ∧
    ∃ pa, walkaddr forkK forkOld 0x1000 = some pa ∧ PGALIGNED pa :=
  ⟨(walkaddr_spec forkK forkOld 0x1000 (by decide)).2.2.2.2.1 0x20101817 (by decide)
      (by decide) (by decide),
    (walkaddr_spec forkK forkOld 0x1000 (by decide)).2.2.2.2.2⟩

set_option maxRecDepth 100000 in
/-- C14, evaluated on the parent of `forkScenario 16`: its two VMAs
`[0x1000, 0x2000)` and `[0x3000, 0x4000)` share no address and all their
pages are mapped; `mm_remap` of the first to `[0x1000, 0x5000)` returns 0,
and the VMA list then holds `[0x1000, 0x5000)` and `[0x3000, 0x4000)`, which
overlap. -/
theorem mm_remap_makes_vmas_overlap :
    VmasDisjoint forkOld.vma ∧ UserVmas forkK forkOld ∧
    forkOld.vma.map (fun v => (v.vm_start, v.vm_end)) = [(0x1000, 0x2000), (0x3000, 0x4000)] ∧
    remapOverVma.map (fun r => (r.2.2, r.2.1.vma.map (fun v => (v.vm_start, v.vm_end)),
        decide (VmasDisjoint r.2.1.vma))) =
      some (0, [(0x1000, 0x5000), (0x3000, 0x4000)], false) := by
  refine ⟨?_, forkOld_user, ?_, ?_⟩ <;> decide

set_option maxRecDepth 100000 in
/-- C19, evaluated on the parent of `forkScenario 16`: page `0x3000` is mapped
to frame `0x80405000` by a valid leaf entry and the frame is not free;
`mm_mappages` of a new VMA `[0x2000, 0x5000)` returns `-EINVAL` at that page,
and afterwards the leaf entry of `0x3000` is 0 and frame `0x80405000` is on
the free list, which is one frame longer than before the call. -/
theorem mm_mappages_failure_frees_older_page :
    leafPte forkK forkOld 0x3000 = some 0x2010141b ∧
    walkaddr forkK forkOld 0x3000 = some 0x80405000 ∧
    decide (0x80405000 ∈ forkK.freelist) = false ∧
    freepages_count forkK = 6 ∧
    mappagesOverVma.map (fun r => (r.2.2, leafPte r.1 forkOld 0x3000,
        decide (0x80405000 ∈ r.1.freelist), freepages_count r.1)) =
      some (-EINVAL, some 0, true, 7) := by
  refine ⟨?_, ?_, ?_, ?_, ?_⟩ <;> decide

/-- The allocating walk of a user address in a well-formed state, branch by
branch. -/
theorem walk_alloc_eq {k : Kernel} {mm : Mm} {L1s L0s : List Nat} (hf : FreeOk k)
    (hinv : PgtInv k mm.pgt L1s L0s) {va : Nat} (hu : IS_USER_VA va) :
    walk k mm va true =
      if k.mem (mm.pgt + 8 * PX 2 va) &&& PTE_V ≠ 0 then
        if k.mem (PTE2PA (k.mem (mm.pgt + 8 * PX 2 va)) + 8 * PX 1 va) &&& PTE_V ≠ 0 then
          (k, some (PTE2PA (k.mem (PTE2PA (k.mem (mm.pgt + 8 * PX 2 va)) + 8 * PX 1 va)) +
            8 * PX 0 va))
        else
          match k.freelist with
          | [] => (k, none)
          | p :: rest =>
            (installTable k rest p (PTE2PA (k.mem (mm.pgt + 8 * PX 2 va)) + 8 * PX 1 va),
              some (p + 8 * PX 0 va))
      else
        match k.freelist with
        | [] => (k, none)
        | [p1] => (installTable k [] p1 (mm.pgt + 8 * PX 2 va), none)
        | p1 :: p0 :: rest =>
          (installTable (installTable k (p0 :: rest) p1 (mm.pgt + 8 * PX 2 va)) rest p0
            (p1 + 8 * PX 1 va), some (p0 + 8 * PX 0 va)) := by
  unfold walk
  rw [if_neg (not_not.mpr hu), walkLevel_two]
  by_cases h2 : k.mem (mm.pgt + 8 * PX 2 va) &&& PTE_V ≠ 0
  · rw [if_pos h2, if_pos h2, walkLevel_one]
    by_cases h1 : k.mem (PTE2PA (k.mem (mm.pgt + 8 * PX 2 va)) + 8 * PX 1 va) &&& PTE_V ≠ 0
    · rw [if_pos h1, if_pos h1]
    · rw [if_neg h1, if_neg h1]
      have hall : ∀ p ∈ k.freelist, p ≠ 0 := fun p hp => (hf.valid_lt hp).2.1
      cases hfl : k.freelist with
      | nil => rfl
      | cons p rest =>
        rw [hfl] at hall
        simp only [hall p (List.mem_cons_self _ _), if_false]
  · rw [if_neg h2, if_neg h2]
    have hall : ∀ p ∈ k.freelist, p ≠ 0 := fun p hp => (hf.valid_lt hp).2.1
    have hal : ∀ p ∈ k.freelist, PGALIGNED p := fun p hp => (hf.valid_lt hp).1
    have hnf := hinv.notfree mm.pgt (List.mem_cons_self _ _)
    cases hfl : k.freelist with
    | nil => rfl
    | cons p1 rest1 =>
      rw [hfl] at hall hal hnf
      have hp1 := hall p1 (List.mem_cons_self _ _)
      have hpr : mm.pgt ≠ p1 := fun h => hnf (h ▸ List.mem_cons_self _ _)
      have hz : (installTable k rest1 p1 (mm.pgt + 8 * PX 2 va)).mem (p1 + 8 * PX 1 va) = 0 := by
        refine installTable_mem_fresh (PX_lt 1 va) ?_
        intro h
        exact hpr (page_word_inj (hal p1 (List.mem_cons_self _ _)) hinv.root_aligned
          (PX_lt 1 va) (PX_lt 2 va) h).1.symm
      simp only [hp1, if_false]
      rw [walkLevel_one, if_neg (by rw [hz]; simp), installTable_freelist]
      cases rest1 with
      | nil => rfl
      | cons p0 rest0 =>
        have hp0 := hall p0 (List.mem_cons_of_mem _ (List.mem_cons_self _ _))
        simp only [hp0, if_false]

theorem missingLevels_eq (k : Kernel) (mm : Mm) (va : Nat) :
    missingLevels k mm va =
      if k.mem (mm.pgt + 8 * PX 2 va) &&& PTE_V = 0 then 2
      else if k.mem (PTE2PA (k.mem (mm.pgt + 8 * PX 2 va)) + 8 * PX 1 va) &&& PTE_V = 0 then 1
      else 0 := rfl

/-- C16, amended. In a well-formed state, for a user `va`, when the allocator has
a frame for every level that is missing on the path of `va`: `walk(mm, va, 1)`
returns a non-NULL entry address, and a following `walk(mm, va, 0)` returns the
same address; no entry that was valid before the call is changed, and outside
the frames that were free only the entries it creates are written; every
entry it creates has V set, R, W, X clear and points to a frame taken from the
allocator; the level-0 table it creates is entirely zero, and the level-1
table it creates is zero except for the entry of `va` that the same call
creates in it. -/
theorem walk_alloc_links_zeroed_tables {k : Kernel} {mm : Mm} {L1s L0s : List Nat} {va : Nat}
    (hf : FreeOk k) (hinv : PgtInv k mm.pgt L1s L0s) (hu : IS_USER_VA va)
    (hfree : missingLevels k mm va ≤ freepages_count k) :
    ∃ k2 a0, walk k mm va true = (k2, some a0) ∧
      walk k2 mm va false = (k2, some a0) ∧
      a0 = PTE2PA (k2.mem (l1Entry k2 mm va)) + 8 * PX 0 va ∧
      (∀ a, ¬ InFree k a → k.mem a &&& PTE_V ≠ 0 → k2.mem a = k.mem a) ∧
      (∀ a, ¬ InFree k a → a ≠ rootEntry mm va → a ≠ l1Entry k2 mm va → k2.mem a = k.mem a) ∧
      (missingLevels k mm va = 2 →
        k2.mem (rootEntry mm va) &&& PTE_V ≠ 0 ∧ k2.mem (rootEntry mm va) &&& PTE_RWX = 0 ∧
        PTE2PA (k2.mem (rootEntry mm va)) ∈ k.freelist ∧
        ∀ j < 512, j ≠ PX 1 va → k2.mem (PTE2PA (k2.mem (rootEntry mm va)) + 8 * j) = 0) ∧
      (1 ≤ missingLevels k mm va →
        k2.mem (l1Entry k2 mm va) &&& PTE_V ≠ 0 ∧ k2.mem (l1Entry k2 mm va) &&& PTE_RWX = 0 ∧
        PTE2PA (k2.mem (l1Entry k2 mm va)) ∈ k.freelist ∧
        ∀ j < 512, k2.mem (PTE2PA (k2.mem (l1Entry k2 mm va)) + 8 * j) = 0) := by
  have hpgt_al := hinv.root_aligned
  have hw := walk_alloc_eq hf hinv hu
  have hml := missingLevels_eq k mm va
  unfold freepages_count at hfree
  by_cases h2 : k.mem (mm.pgt + 8 * PX 2 va) &&& PTE_V ≠ 0
  · rw [if_pos h2] at hw
    rw [if_neg h2] at hml
    have m1 := hinv.root_sound _ (PX_lt 2 va) h2
    by_cases h1 : k.mem (PTE2PA (k.mem (mm.pgt + 8 * PX 2 va)) + 8 * PX 1 va) &&& PTE_V ≠ 0
    · -- both levels are there
      rw [if_pos h1] at hw
      rw [if_neg h1] at hml
      obtain ⟨A1, A0, hpost⟩ := walk_alloc_post hinv hf hw
      refine ⟨k, _, hw, hpost.path.walk_eq hu false, rfl, fun _ _ _ => rfl,
        fun _ _ _ _ => rfl, ?_, ?_⟩
      · intro hm; rw [hml] at hm; omega
      · intro hm; rw [hml] at hm; omega
    · -- the level-0 table is missing
      rw [if_neg h1] at hw
      have hv1 : k.mem (PTE2PA (k.mem (mm.pgt + 8 * PX 2 va)) + 8 * PX 1 va) &&& PTE_V = 0 := by
        simpa using h1
      rw [if_pos hv1] at hml
      rw [hml] at hfree
      cases hfl : k.freelist with
      | nil => rw [hfl] at hfree; simp at hfree
      | cons p rest =>
        rw [hfl] at hw
        simp only at hw
        obtain ⟨A1, A0, hpost⟩ := walk_alloc_post hinv hf hw
        have hpin : p ∈ k.freelist := by rw [hfl]; exact List.mem_cons_self _ _
        have hpal : PGALIGNED p := (hf.valid_lt hpin).1
        have ht1m : PTE2PA (k.mem (mm.pgt + 8 * PX 2 va)) ∈ mm.pgt :: (L1s ++ L0s) :=
          List.mem_cons_of_mem _ (List.mem_append_left _ m1)
        have ht1a := hinv.aligned _ ht1m
        have ht1r : PTE2PA (k.mem (mm.pgt + 8 * PX 2 va)) ≠ mm.pgt := by
          intro h
          exact (List.nodup_cons.mp hinv.nodup).1 (h ▸ List.mem_append_left _ m1)
        have ht1p : PTE2PA (k.mem (mm.pgt + 8 * PX 2 va)) ≠ p := fun h =>
          hinv.notfree _ ht1m (h ▸ hpin)
        have hpr : mm.pgt ≠ p := fun h => hinv.notfree _ (List.mem_cons_self _ _) (h ▸ hpin)
        have e2 : (installTable k rest p (PTE2PA (k.mem (mm.pgt + 8 * PX 2 va)) + 8 * PX 1 va)).mem
            (mm.pgt + 8 * PX 2 va) = k.mem (mm.pgt + 8 * PX 2 va) := by
          refine installTable_mem_other hpgt_al hpal (PX_lt 2 va) hpr ?_
          intro h
          exact ht1r (page_word_inj hpgt_al ht1a (PX_lt 2 va) (PX_lt 1 va) h).1.symm
        have e1 := installTable_mem_entry k rest p
          (PTE2PA (k.mem (mm.pgt + 8 * PX 2 va)) + 8 * PX 1 va)
        have hpte : PTE2PA (PA2PTE p ||| PTE_V) = p :=
          PTE2PA_PA2PTE_V p (hf.valid_lt hpin).1 (hf.valid_lt hpin).2.2
        have hl : l1Entry (installTable k rest p
            (PTE2PA (k.mem (mm.pgt + 8 * PX 2 va)) + 8 * PX 1 va)) mm va =
            PTE2PA (k.mem (mm.pgt + 8 * PX 2 va)) + 8 * PX 1 va := by
          unfold l1Entry rootEntry
          rw [e2]
        refine ⟨_, _, hw, hpost.path.walk_eq hu false, ?_, hpost.stable.2, ?_, ?_, ?_⟩
        · rw [hl, e1, hpte]
        · intro a hna _ hne
          rw [hl] at hne
          rw [installTable_mem, if_neg hne, if_neg]
          intro h
          exact hna ⟨p, hpin, h.1, h.2⟩
        · intro hm; rw [hml] at hm; omega
        · intro _
          rw [hl, e1, hpte]
          refine ⟨pte_valid_V _, inner_entry_rwx p, hfl ▸ hpin, ?_⟩
          intro j hj
          refine installTable_mem_fresh hj ?_
          intro h
          exact ht1p (page_word_inj hpal ht1a hj (PX_lt 1 va) h).1.symm
  · -- both levels are missing
    rw [if_neg h2] at hw
    have hv2 : k.mem (mm.pgt + 8 * PX 2 va) &&& PTE_V = 0 := by simpa using h2
    rw [if_pos hv2] at hml
    rw [hml] at hfree
    cases hfl : k.freelist with
    | nil => rw [hfl] at hfree; simp at hfree
    | cons p1 rest1 =>
      cases rest1 with
      | nil => rw [hfl] at hfree; simp at hfree
      | cons p0 rest0 =>
        rw [hfl] at hw
        simp only at hw
        obtain ⟨A1, A0, hpost⟩ := walk_alloc_post hinv hf hw
        have hpin1 : p1 ∈ k.freelist := by rw [hfl]; exact List.mem_cons_self _ _
        have hpin0 : p0 ∈ k.freelist := by
          rw [hfl]; exact List.mem_cons_of_mem _ (List.mem_cons_self _ _)
        have hp1al : PGALIGNED p1 := (hf.valid_lt hpin1).1
        have hp0al : PGALIGNED p0 := (hf.valid_lt hpin0).1
        have hpr1 : mm.pgt ≠ p1 := fun h =>
          hinv.notfree _ (List.mem_cons_self _ _) (h ▸ hpin1)
        have hpr0 : mm.pgt ≠ p0 := fun h =>
          hinv.notfree _ (List.mem_cons_self _ _) (h ▸ hpin0)
        have hp01 : p1 ≠ p0 := by
          have := hf.1; rw [hfl] at this
          intro h
          exact (List.nodup_cons.mp this).1 (h ▸ List.mem_cons_self _ _)
        have e2a := installTable_mem_entry k (p0 :: rest0) p1 (mm.pgt + 8 * PX 2 va)
        have e2 : (installTable (installTable k (p0 :: rest0) p1 (mm.pgt + 8 * PX 2 va)) rest0 p0
            (p1 + 8 * PX 1 va)).mem (mm.pgt + 8 * PX 2 va) = PA2PTE p1 ||| PTE_V := by
          rw [← e2a]
          refine installTable_mem_other hpgt_al hp0al (PX_lt 2 va) hpr0 ?_
          intro h
          exact hpr1 (page_word_inj hpgt_al hp1al (PX_lt 2 va) (PX_lt 1 va) h).1
        have e1 := installTable_mem_entry
          (installTable k (p0 :: rest0) p1 (mm.pgt + 8 * PX 2 va)) rest0 p0 (p1 + 8 * PX 1 va)
        have hpte1 : PTE2PA (PA2PTE p1 ||| PTE_V) = p1 :=
          PTE2PA_PA2PTE_V p1 (hf.valid_lt hpin1).1 (hf.valid_lt hpin1).2.2
        have hpte0 : PTE2PA (PA2PTE p0 ||| PTE_V) = p0 :=
          PTE2PA_PA2PTE_V p0 (hf.valid_lt hpin0).1 (hf.valid_lt hpin0).2.2
        have hl : l1Entry (installTable (installTable k (p0 :: rest0) p1 (mm.pgt + 8 * PX 2 va))
            rest0 p0 (p1 + 8 * PX 1 va)) mm va = p1 + 8 * PX 1 va := by
          unfold l1Entry rootEntry
          rw [e2, hpte1]
        have hroot : rootEntry mm va = mm.pgt + 8 * PX 2 va := rfl
        refine ⟨_, _, hw, hpost.path.walk_eq hu false, ?_, hpost.stable.2, ?_, ?_, ?_⟩
        · rw [hl, e1, hpte0]
        · intro a hna hner hne
          rw [hl] at hne
          rw [hroot] at hner
          rw [installTable_mem, if_neg hne, if_neg, installTable_mem, if_neg hner, if_neg]
          · intro h
            exact hna ⟨p1, hpin1, h.1, h.2⟩
          · intro h
            exact hna ⟨p0, hpin0, h.1, h.2⟩
        · intro _
          rw [hroot, e2, hpte1]
          refine ⟨pte_valid_V _, inner_entry_rwx p1, hfl ▸ hpin1, ?_⟩
          intro j hj hjne
          rw [installTable_mem_other hp1al hp0al hj hp01 (by omega)]
          refine installTable_mem_fresh hj ?_
          intro h
          exact hpr1 (page_word_inj hp1al hpgt_al hj (PX_lt 2 va) h).1.symm
        · intro _
          rw [hl, e1, hpte0]
          refine ⟨pte_valid_V _, inner_entry_rwx p0, hfl ▸ hpin0, ?_⟩
          intro j hj
          refine installTable_mem_fresh hj ?_
          intro h
          exact hp01 (page_word_inj hp0al hp1al hj (PX_lt 1 va) h).1.symm

set_option maxRecDepth 100000 in
/-- C16, as stated, fails at return when both levels are missing: in the child
of `forkScenario 16` before the fork, the level-2 entry of `0x1000` is not
valid; `walk(new, 0x1000, 1)` creates it, and the page it points to is not
entirely zero when `walk` returns, since the same call wrote the level-1
entry of `0x1000` into it. -/
theorem walk_alloc_level1_table_not_zero :
    forkK.mem (rootEntry forkNew 0x1000) &&& PTE_V = 0 ∧
    ((walk forkK forkNew 0x1000 true).2).isSome = true ∧
    (walk forkK forkNew 0x1000 true).1.mem (rootEntry forkNew 0x1000) &&& PTE_V ≠ 0 ∧
    (walk forkK forkNew 0x1000 true).1.mem
      (PTE2PA ((walk forkK forkNew 0x1000 true).1.mem (rootEntry forkNew 0x1000)) +
        8 * PX 1 0x1000) ≠ 0 := by
  refine ⟨?_, ?_, ?_, ?_⟩ <;> decide

set_option maxRecDepth 100000 in
theorem walk_alloc_links_zeroed_tables_witness :
    ∃ k2 a0, walk forkK forkNew 0x1000 true = (k2, some a0) ∧
      walk k2 forkNew 0x1000 false = (k2, some a0) ∧
      a0 = PTE2PA (k2.mem (l1Entry k2 forkNew 0x1000)) + 8 * PX 0 0x1000 ∧
      (∀ a, ¬ InFree forkK a → forkK.mem a &&& PTE_V ≠ 0 → k2.mem a = forkK.mem a) ∧
      (∀ a, ¬ InFree forkK a → a ≠ rootEntry forkNew 0x1000 → a ≠ l1Entry k2 forkNew 0x1000 →
        k2.mem a = forkK.mem a) ∧
      (missingLevels forkK forkNew 0x1000 = 2 →
        k2.mem (rootEntry forkNew 0x1000) &&& PTE_V ≠ 0 ∧
        k2.mem (rootEntry forkNew 0x1000) &&& PTE_RWX = 0 ∧
        PTE2PA (k2.mem (rootEntry forkNew 0x1000)) ∈ forkK.freelist ∧
        ∀ j < 512, j ≠ PX 1 0x1000 →
          k2.mem (PTE2PA (k2.mem (rootEntry forkNew 0x1000)) + 8 * j) = 0) ∧
      (1 ≤ missingLevels forkK forkNew 0x1000 →
        k2.mem (l1Entry k2 forkNew 0x1000) &&& PTE_V ≠ 0 ∧
        k2.mem (l1Entry k2 forkNew 0x1000) &&& PTE_RWX = 0 ∧
        PTE2PA (k2.mem (l1Entry k2 forkNew 0x1000)) ∈ forkK.freelist ∧
        ∀ j < 512, k2.mem (PTE2PA (k2.mem (l1Entry k2 forkNew 0x1000)) + 8 * j) = 0) :=
  walk_alloc_links_zeroed_tables forkK_free forkNew_inv (by decide) (by decide)

theorem SameLeaf.same_refl (k : Kernel) (mm : Mm) (va : Nat) : SameLeaf k k mm va := Or.inl rfl

theorem SameLeaf.same_trans {k k2 k3 : Kernel} {mm : Mm} {va : Nat} (h1 : SameLeaf k k2 mm va)
    (h2 : SameLeaf k2 k3 mm va) : SameLeaf k k3 mm va := by
  unfold SameLeaf at *
  rcases h1 with h1 | ⟨h1, h1b⟩
  · rcases h2 with h2 | ⟨h2, h2b⟩
    · exact Or.inl (h2.trans h1)
    · exact Or.inr ⟨h1 ▸ h2, h2b⟩
  · rcases h2 with h2 | ⟨h2, h2b⟩
    · exact Or.inr ⟨h1, h2.trans h1b⟩
    · rw [h1b] at h2; simp at h2

theorem SameLeaf.same_of_eq {k k2 k3 : Kernel} {mm : Mm} {va : Nat} (h : SameLeaf k k2 mm va)
    (hm : k3.mem = k2.mem) : SameLeaf k k3 mm va := by
  unfold SameLeaf at *
  have : leafPte k3 mm va = leafPte k2 mm va := by
    rw [leafPte_formula, leafPte_formula, hm]
  rw [this]
  exact h

/-- Two user addresses with the same three indices lie in the same page. -/
theorem page_of_PX {va vb : Nat} (hua : IS_USER_VA va) (hub : IS_USER_VA vb)
    (h2 : PX 2 va = PX 2 vb) (h1 : PX 1 va = PX 1 vb) (h0 : PX 0 va = PX 0 vb) :
    va / PGSIZE = vb / PGSIZE := by
  unfold PX at h2 h1 h0
  simp only [Nat.shiftRight_eq_div_pow, show (511 : Nat) = 2 ^ 9 - 1 from rfl,
    Nat.and_pow_two_sub_one_eq_mod] at h2 h1 h0
  unfold IS_USER_VA USER_TOP at hua hub
  unfold PGSIZE
  norm_num at h2 h1 h0 hua hub
  omega

/-- Two user addresses with the same leaf entry lie in the same page. -/
theorem PgtInv.route_inj_page {k : Kernel} {pgt : Nat} {L1s L0s : List Nat}
    (hinv : PgtInv k pgt L1s L0s) {va vb a : Nat} (ha : Route k pgt va a)
    (hb : Route k pgt vb a) (hua : IS_USER_VA va) (hub : IS_USER_VA vb) :
    va / PGSIZE = vb / PGSIZE := by
  obtain ⟨ma1, ma0⟩ := hinv.route_table ha
  obtain ⟨mb1, mb0⟩ := hinv.route_table hb
  have e := ha.2.2.symm.trans hb.2.2
  obtain ⟨e0, p0⟩ := page_word_inj (hinv.mem_aligned0 ma0) (hinv.mem_aligned0 mb0) (PX_lt 0 va)
    (PX_lt 0 vb) e
  obtain ⟨e1, p1⟩ := hinv.l1_inj _ ma1 _ (PX_lt 1 va) ha.2.1 _ mb1 _ (PX_lt 1 vb) hb.2.1 e0
  have p2 := hinv.root_inj _ (PX_lt 2 va) ha.1 _ (PX_lt 2 vb) hb.1 e1
  exact page_of_PX hua hub p2 p1 p0

theorem leafPte_some {k : Kernel} {mm : Mm} {va : Nat} (hu : IS_USER_VA va)
    (h2 : k.mem (mm.pgt + 8 * PX 2 va) &&& PTE_V ≠ 0)
    (h1 : k.mem (PTE2PA (k.mem (mm.pgt + 8 * PX 2 va)) + 8 * PX 1 va) &&& PTE_V ≠ 0) :
    leafPte k mm va =
      some (k.mem (PTE2PA (k.mem (PTE2PA (k.mem (mm.pgt + 8 * PX 2 va)) + 8 * PX 1 va)) +
        8 * PX 0 va)) := by
  rw [leafPte_formula, if_pos ⟨hu, h2, h1⟩]

theorem leafPte_noneU {k : Kernel} {mm : Mm} {va : Nat} (hu : ¬ IS_USER_VA va) :
    leafPte k mm va = none := by
  rw [leafPte_formula, if_neg (fun h => hu h.1)]

theorem leafPte_none2 {k : Kernel} {mm : Mm} {va : Nat}
    (h2 : ¬ k.mem (mm.pgt + 8 * PX 2 va) &&& PTE_V ≠ 0) : leafPte k mm va = none := by
  rw [leafPte_formula, if_neg (fun h => h2 h.2.1)]

theorem leafPte_none1 {k : Kernel} {mm : Mm} {va : Nat}
    (h1 : ¬ k.mem (PTE2PA (k.mem (mm.pgt + 8 * PX 2 va)) + 8 * PX 1 va) &&& PTE_V ≠ 0) :
    leafPte k mm va = none := by
  rw [leafPte_formula, if_neg (fun h => h1 h.2.2)]

/-- A store to the leaf entry of `va` leaves the leaf entry of every other page
as it was. -/
theorem store_sameLeaf {k : Kernel} {mm : Mm} {L1s L0s : List Nat}
    (hinv : PgtInv k mm.pgt L1s L0s) {va a0 : Nat} (hroute : Route k mm.pgt va a0)
    (hu : IS_USER_VA va) (v : Nat) {vb : Nat} (hne : vb / PGSIZE ≠ va / PGSIZE) :
    leafPte (k.store a0 v) mm vb = leafPte k mm vb := by
  have ht0 := (hinv.route_table hroute).2
  have ha0 := hroute.2.2
  have hs : ∀ t ∈ mm.pgt :: L1s, ∀ j < 512,
      (k.store a0 v).mem (t + 8 * j) = k.mem (t + 8 * j) :=
    hinv.leaf_sameInner ht0 (PX_lt 0 va) (by
      intro a hne
      rw [store_mem, if_neg (by rw [ha0]; exact hne)])
  by_cases hub : IS_USER_VA vb
  swap
  · rw [leafPte_noneU hub, leafPte_noneU hub]
  have e2 := hs mm.pgt (List.mem_cons_self _ _) _ (PX_lt 2 vb)
  by_cases c2 : k.mem (mm.pgt + 8 * PX 2 vb) &&& PTE_V ≠ 0
  swap
  · rw [leafPte_none2 c2, leafPte_none2 (by rw [e2]; exact c2)]
  have m1 := hinv.root_sound _ (PX_lt 2 vb) c2
  have e1 := hs _ (List.mem_cons_of_mem _ m1) _ (PX_lt 1 vb)
  by_cases c1 : k.mem (PTE2PA (k.mem (mm.pgt + 8 * PX 2 vb)) + 8 * PX 1 vb) &&& PTE_V ≠ 0
  swap
  · rw [leafPte_none1 c1, leafPte_none1 (by rw [e2, e1]; exact c1)]
  rw [leafPte_some hub c2 c1, leafPte_some hub (by rw [e2]; exact c2) (by rw [e2, e1]; exact c1),
    e2, e1, store_mem, if_neg]
  intro h
  have hrb : Route k mm.pgt vb a0 := ⟨c2, c1, h.symm⟩
  exact hne (hinv.route_inj_page hrb hroute hub hu)

/-- An allocating walk leaves every leaf entry as it was. -/
theorem WalkPost.sameLeaf {k k2 : Kernel} {mm : Mm} {va a0 : Nat} {L1s L0s A1 A0 : List Nat}
    (hpost : WalkPost k k2 mm.pgt va a0 L1s L0s A1 A0) (hinv : PgtInv k mm.pgt L1s L0s)
    (hf : FreeOk k) (vb : Nat) : SameLeaf k k2 mm vb := by
  unfold SameLeaf
  by_cases hub : IS_USER_VA vb
  swap
  · left
    rw [leafPte_noneU hub, leafPte_noneU hub]
  have hnf1 : ∀ t ∈ L1s, ∀ j < 512, ¬ InFree k (t + 8 * j) := fun t ht j hj =>
    not_inFree_of_page hf (hinv.mem_aligned1 ht)
      (hinv.notfree t (List.mem_cons_of_mem _ (List.mem_append_left _ ht))) hj
  have hst1 : ∀ t ∈ L1s, ∀ j < 512, k.mem (t + 8 * j) &&& PTE_V ≠ 0 →
      k2.mem (t + 8 * j) = k.mem (t + 8 * j) := fun t ht j hj hv =>
    hpost.stable.2 _ (hnf1 t ht j hj) hv
  have hstr : ∀ j < 512, k.mem (mm.pgt + 8 * j) &&& PTE_V ≠ 0 →
      k2.mem (mm.pgt + 8 * j) = k.mem (mm.pgt + 8 * j) := fun j hj hv =>
    hpost.stable.2 _ (not_inFree_of_page hf hinv.root_aligned
      (hinv.notfree _ (List.mem_cons_self _ _)) hj) hv
  -- a level-0 table of `k` is reached in `k2` from a level-1 table of `k` only
  have hold0 : ∀ t1 ∈ A1 ++ L1s, ∀ j < 512, k2.mem (t1 + 8 * j) &&& PTE_V ≠ 0 →
      PTE2PA (k2.mem (t1 + 8 * j)) ∈ L0s →
      t1 ∈ L1s ∧ k.mem (t1 + 8 * j) &&& PTE_V ≠ 0 := by
    intro t1 ht1 j hj hv hm
    obtain ⟨t1c, ht1c, jc, hjc, hvc, hpc⟩ := hinv.l1_complete _ hm
    have hsc := hst1 t1c ht1c jc hjc hvc
    have := hpost.inv.l1_inj t1 ht1 j hj hv t1c (List.mem_append_right _ ht1c) jc hjc
      (by rw [hsc]; exact hvc) (by rw [hsc, hpc])
    rw [this.1, this.2]
    exact ⟨ht1c, hvc⟩
  by_cases c2 : k.mem (mm.pgt + 8 * PX 2 vb) &&& PTE_V ≠ 0
  · have s2 := hstr _ (PX_lt 2 vb) c2
    have c2b : k2.mem (mm.pgt + 8 * PX 2 vb) &&& PTE_V ≠ 0 := by rw [s2]; exact c2
    have m1 := hinv.root_sound _ (PX_lt 2 vb) c2
    by_cases c1 : k.mem (PTE2PA (k.mem (mm.pgt + 8 * PX 2 vb)) + 8 * PX 1 vb) &&& PTE_V ≠ 0
    · have s1 := hst1 _ m1 _ (PX_lt 1 vb) c1
      have m0 := hinv.l1_sound _ m1 _ (PX_lt 1 vb) c1
      have c1b : k2.mem (PTE2PA (k2.mem (mm.pgt + 8 * PX 2 vb)) + 8 * PX 1 vb) &&& PTE_V ≠ 0 := by
        rw [s2, s1]; exact c1
      left
      have m0m : PTE2PA (k.mem (PTE2PA (k.mem (mm.pgt + 8 * PX 2 vb)) + 8 * PX 1 vb)) ∈
          mm.pgt :: (L1s ++ L0s) := List.mem_cons_of_mem _ (List.mem_append_right _ m0)
      rw [leafPte_some hub c2 c1, leafPte_some hub c2b c1b, s2, s1]
      rw [hpost.frame _ (not_inFree_of_page hf (hinv.mem_aligned0 m0) (hinv.notfree _ m0m)
        (PX_lt 0 vb))]
      intro t ht hin
      have hta : PGALIGNED t := by
        rcases List.mem_cons.mp ht with rfl | ht
        · exact hinv.root_aligned
        · exact hinv.mem_aligned1 ht
      have heq := page_word_in (hinv.mem_aligned0 m0) hta (PX_lt 0 vb) hin
      rw [heq] at m0
      have hnd0 := hinv.nodup
      rcases List.mem_cons.mp ht with rfl | ht
      · exact (List.nodup_cons.mp hnd0).1 (List.mem_append_right _ m0)
      · exact (List.nodup_append.mp (List.nodup_cons.mp hnd0).2).2.2 ht m0
    · rw [leafPte_none1 c1]
      by_cases c1b : k2.mem (PTE2PA (k2.mem (mm.pgt + 8 * PX 2 vb)) + 8 * PX 1 vb) &&& PTE_V ≠ 0
      swap
      · left; rw [leafPte_none1 c1b]
      have m1b : PTE2PA (k2.mem (mm.pgt + 8 * PX 2 vb)) ∈ A1 ++ L1s := by
        rw [s2]; exact List.mem_append_right _ m1
      have m0b := hpost.inv.l1_sound _ m1b _ (PX_lt 1 vb) c1b
      rcases List.mem_append.mp m0b with hA | hL
      · right
        refine ⟨rfl, ?_⟩
        rw [leafPte_some hub c2b c1b, hpost.fresh0 _ hA _ (PX_lt 0 vb)]
      · have := (hold0 _ m1b _ (PX_lt 1 vb) c1b hL).2
        rw [s2] at this
        exact absurd this c1
  · rw [leafPte_none2 c2]
    by_cases c2b : k2.mem (mm.pgt + 8 * PX 2 vb) &&& PTE_V ≠ 0
    swap
    · left; rw [leafPte_none2 c2b]
    have m1b := hpost.inv.root_sound _ (PX_lt 2 vb) c2b
    have hnew : PTE2PA (k2.mem (mm.pgt + 8 * PX 2 vb)) ∉ L1s := by
      intro hm
      obtain ⟨i, hi, hvi, hpi⟩ := hinv.root_complete _ hm
      have hsi := hstr i hi hvi
      have := hpost.inv.root_inj _ (PX_lt 2 vb) c2b i hi (by rw [hsi]; exact hvi)
        (by rw [hsi, hpi])
      rw [this] at c2
      exact c2 hvi
    by_cases c1b : k2.mem (PTE2PA (k2.mem (mm.pgt + 8 * PX 2 vb)) + 8 * PX 1 vb) &&& PTE_V ≠ 0
    swap
    · left; rw [leafPte_none1 c1b]
    have m0b := hpost.inv.l1_sound _ m1b _ (PX_lt 1 vb) c1b
    rcases List.mem_append.mp m0b with hA | hL
    · right
      refine ⟨rfl, ?_⟩
      rw [leafPte_some hub c2b c1b, hpost.fresh0 _ hA _ (PX_lt 0 vb)]
    · exact absurd (hold0 _ m1b _ (PX_lt 1 vb) c1b hL).1 hnew

theorem leafPte_of_route {k : Kernel} {mm : Mm} {va a : Nat} (hu : IS_USER_VA va)
    (hr : Route k mm.pgt va a) : leafPte k mm va = some (k.mem a) := by
  rw [leafPte_some hu hr.1 hr.2.1, hr.2.2]

theorem route_of_leafPte {k : Kernel} {mm : Mm} {va e : Nat} (h : leafPte k mm va = some e) :
    IS_USER_VA va ∧ ∃ a, Route k mm.pgt va a ∧ k.mem a = e := by
  rw [leafPte_formula] at h
  split_ifs at h with hc
  simp only [Option.some.injEq] at h
  exact ⟨hc.1, _, ⟨hc.2.1, hc.2.2, rfl⟩, h⟩

/-- C20. In a well-formed state, for a user `va`: when `mm_mappageat(mm, va, pa,
flags)` returns 0, the leaf entry of `va` is `PA2PTE(pa) | flags | PTE_V`, the
leaf entry of every other page is what it was, and the reference-count table
is unchanged (the VMA list is not among the things the function writes); when
`va` overlaps a VMA, or is already mapped by a valid leaf entry, it returns
`-EINVAL` and leaves the whole state as it was. -/
theorem mm_mappageat_maps_one_page {k : Kernel} {mm : Mm} {L1s L0s : List Nat}
    (va pa flags : Nat) (hf : FreeOk k) (hinv : PgtInv k mm.pgt L1s L0s) (hu : IS_USER_VA va) :
    (∀ k2, mm_mappageat k mm va pa flags = some (k2, 0) →
      leafPte k2 mm va = some (PA2PTE pa ||| flags ||| PTE_V) ∧
      (∀ vb, vb / PGSIZE ≠ va / PGSIZE → SameLeaf k k2 mm vb) ∧
      k2.refcnt = k.refcnt) ∧
    (vma_check_overlap mm va ((va + PGSIZE) % U64) none ≠ 0 →
      mm_mappageat k mm va pa flags = some (k, -EINVAL)) ∧
    (∀ e, vma_check_overlap mm va ((va + PGSIZE) % U64) none = 0 →
      leafPte k mm va = some e → e &&& PTE_V ≠ 0 →
      mm_mappageat k mm va pa flags = some (k, -EINVAL)) := by
  refine ⟨?_, ?_, ?_⟩
  · intro k2 hres
    unfold mm_mappageat at hres
    rw [if_neg (not_not.mpr hu)] at hres
    by_cases ho : vma_check_overlap mm va ((va + PGSIZE) % U64) none ≠ 0
    · rw [if_pos ho] at hres
      simp only [Option.some.injEq, Prod.mk.injEq] at hres
      exact absurd hres.2 neg_EINVAL_ne
    rw [if_neg ho] at hres
    cases hw : walk k mm va true with
    | mk k1 r =>
      rw [hw] at hres
      cases r with
      | none =>
        simp only [Option.some.injEq, Prod.mk.injEq] at hres
        exact absurd hres.2 neg_EINVAL_ne
      | some pte =>
        simp only at hres
        by_cases hv : k1.mem pte &&& PTE_V ≠ 0
        · rw [if_pos hv] at hres
          simp only [Option.some.injEq, Prod.mk.injEq] at hres
          exact absurd hres.2 neg_EINVAL_ne
        rw [if_neg hv] at hres
        simp only [Option.some.injEq, Prod.mk.injEq, and_true] at hres
        subst hres
        obtain ⟨A1, A0, hpost⟩ := walk_alloc_post hinv hf hw
        have hroute : Route k1 mm.pgt va pte := Route.of_path hpost.path
        have ht0 := (hpost.inv.route_table hroute).2
        have hs : ∀ t ∈ mm.pgt :: (A1 ++ L1s), ∀ j < 512,
            (k1.store pte (PA2PTE pa ||| flags ||| PTE_V)).mem (t + 8 * j) =
              k1.mem (t + 8 * j) :=
          hpost.inv.leaf_sameInner ht0 (PX_lt 0 va) (by
            intro a hne
            rw [store_mem, if_neg (by rw [hroute.2.2]; exact hne)])
        refine ⟨?_, ?_, hpost.refcnt⟩
        · rw [leafPte_of_route hu (Route.route_sameInner hpost.inv hs hroute), store_mem,
            if_pos rfl]
        · intro vb hne
          exact (hpost.sameLeaf hinv hf vb).same_trans
            (Or.inl (store_sameLeaf hpost.inv hroute hu _ hne))
  · intro ho
    unfold mm_mappageat
    rw [if_neg (not_not.mpr hu), if_pos ho]
  · intro e ho he hv
    obtain ⟨-, a, hr, hea⟩ := route_of_leafPte he
    unfold mm_mappageat
    rw [if_neg (not_not.mpr hu), if_neg (not_not.mpr ho), hr.route_walk_eq mm hu true]
    simp only
    rw [if_pos (by rw [hea]; exact hv)]

set_option maxRecDepth 100000 in
theorem mm_mappageat_maps_one_page_witness :
    (mm_mappageat forkK forkNew 0x5000 0x80500000 (PTE_R ||| PTE_W)).map (fun r => r.2) =
      some 0 ∧
    ((∀ k2, mm_mappageat forkK forkNew 0x5000 0x80500000 (PTE_R ||| PTE_W) = some (k2, 0) →
      leafPte k2 forkNew 0x5000 = some (PA2PTE 0x80500000 ||| (PTE_R ||| PTE_W) ||| PTE_V) ∧
      (∀ vb, vb / PGSIZE ≠ 0x5000 / PGSIZE → SameLeaf forkK k2 forkNew vb) ∧
      k2.refcnt = forkK.refcnt) ∧
    (vma_check_overlap forkNew 0x5000 ((0x5000 + PGSIZE) % U64) none ≠ 0 →
      mm_mappageat forkK forkNew 0x5000 0x80500000 (PTE_R ||| PTE_W) = some (forkK, -EINVAL)) ∧
    (∀ e, vma_check_overlap forkNew 0x5000 ((0x5000 + PGSIZE) % U64) none = 0 →
      leafPte forkK forkNew 0x5000 = some e → e &&& PTE_V ≠ 0 →
      mm_mappageat forkK forkNew 0x5000 0x80500000 (PTE_R ||| PTE_W) =
        some (forkK, -EINVAL))) :=
  ⟨by decide, mm_mappageat_maps_one_page 0x5000 0x80500000 (PTE_R ||| PTE_W) forkK_free
    forkNew_inv (by decide)⟩

theorem PgtInv.pgt_of_sub {k k2 : Kernel} {pgt : Nat} {L1s L0s : List Nat}
    (h : PgtInv k pgt L1s L0s) (hm : k2.mem = k.mem)
    (hf : ∀ p ∈ k2.freelist, p ∈ k.freelist) : PgtInv k2 pgt L1s L0s := by
  constructor
  · exact h.nodup
  · exact h.aligned
  · exact fun t ht hp => h.notfree t ht (hf t hp)
  · rw [hm]; exact h.root_sound
  · rw [hm]; exact h.l1_sound
  · rw [hm]; exact h.root_complete
  · rw [hm]; exact h.l1_complete
  · rw [hm]; exact h.root_inj
  · rw [hm]; exact h.l1_inj

/-- The loop of `mm_mappages`, when it runs to its end: every page of the range
is mapped to a frame taken from the allocator during the loop, with the flags
given, and the leaf entry of every other page is what it was. -/
theorem mappagesLoop_spec (mm : Mm) (flags : Nat) :
    ∀ (n va : Nat) (k k2 : Kernel) (L1s L0s : List Nat),
      PgtInv k mm.pgt L1s L0s → FreeOk k →
      (∀ i < n, IS_USER_VA (va + i * PGSIZE)) →
      mappagesLoop mm flags n va k = (k2, 0) →
      ∃ L1s2 L0s2 taken, PgtInv k2 mm.pgt L1s2 L0s2 ∧ FreeOk k2 ∧
        k.freelist = taken ++ k2.freelist ∧ Stable k k2 ∧ k2.refcnt = k.refcnt ∧
        (∀ i < n, ∃ pa ∈ taken,
          Mapped k2 mm.pgt (va + i * PGSIZE) (PA2PTE pa ||| flags ||| PTE_V)) ∧
        ∀ vb, (∀ i < n, vb / PGSIZE ≠ (va + i * PGSIZE) / PGSIZE) → SameLeaf k k2 mm vb := by
  intro n
  induction n with
  | zero =>
    intro va k k2 L1s L0s hinv hf _ hres
    simp only [mappagesLoop, Prod.mk.injEq] at hres
    obtain ⟨rfl, -⟩ := hres
    exact ⟨L1s, L0s, [], hinv, hf, rfl, Stable.stable_refl _, rfl, fun i hi => by omega,
      fun vb _ => SameLeaf.same_refl _ _ _⟩
  | succ n ih =>
    intro va k k2 L1s L0s hinv hf huser hres
    rw [mappagesLoop] at hres
    cases hw : walk k mm va true with
    | mk k1 r =>
      rw [hw] at hres
      cases r with
      | none =>
        simp only [Prod.mk.injEq] at hres
        exact absurd hres.2 neg_ENOMEM_ne
      | some pte =>
        simp only at hres
        obtain ⟨A1, A0, hpost⟩ := walk_alloc_post hinv hf hw
        by_cases hv : k1.mem pte &&& PTE_V ≠ 0
        · rw [if_pos hv] at hres
          simp only [Prod.mk.injEq] at hres
          exact absurd hres.2 neg_EINVAL_ne
        rw [if_neg hv] at hres
        have hv0 : k1.mem pte &&& PTE_V = 0 := by simpa using hv
        have hu0 : IS_USER_VA va := by simpa using huser 0 (Nat.succ_pos n)
        unfold kallocpage at hres
        cases hfl : k1.freelist with
        | nil =>
          rw [hfl] at hres
          simp only [if_true, Prod.mk.injEq] at hres
          exact absurd hres.2 neg_ENOMEM_ne
        | cons pa rest =>
          rw [hfl] at hres
          simp only at hres
          have hpa := hpost.free.valid_lt (p := pa) (by rw [hfl]; exact List.mem_cons_self _ _)
          rw [if_neg hpa.2.1] at hres
          -- the state after the store of the new leaf entry
          obtain ⟨t0, ht0, hpte⟩ := hpost.inv.leaf_table hpost.path
          have hroute : Route k1 mm.pgt va pte := Route.of_path hpost.path
          have hsub : ∀ p ∈ rest, p ∈ k1.freelist := fun p hp => by
            rw [hfl]; exact List.mem_cons_of_mem _ hp
          have hst2 : Stable k1 ((Kernel.mk k1.mem rest k1.refcnt k1.nextobj).store pte
              (PA2PTE pa ||| flags ||| PTE_V)) := by
            refine ⟨hsub, fun b _ hval => ?_⟩
            rw [store_mem, if_neg]
            intro h; rw [h] at hval; exact hval hv0
          have hinv2 : PgtInv ((Kernel.mk k1.mem rest k1.refcnt k1.nextobj).store pte
              (PA2PTE pa ||| flags ||| PTE_V)) mm.pgt (A1 ++ L1s) (A0 ++ L0s) := by
            have h1 : PgtInv (k1.store pte (PA2PTE pa ||| flags ||| PTE_V)) mm.pgt
                (A1 ++ L1s) (A0 ++ L0s) := by
              rw [hpte]; exact hpost.inv.store_leaf ht0 (PX_lt 0 va) _
            exact h1.pgt_of_sub rfl hsub
          have hf2 : FreeOk ((Kernel.mk k1.mem rest k1.refcnt k1.nextobj).store pte
              (PA2PTE pa ||| flags ||| PTE_V)) := hpost.free.tail hfl rfl
          have huser2 : ∀ i < n, IS_USER_VA (va + PGSIZE + i * PGSIZE) := by
            intro i hi
            have := huser (i + 1) (by omega)
            rw [show va + PGSIZE + i * PGSIZE = va + (i + 1) * PGSIZE by ring]
            exact this
          obtain ⟨L1s3, L0s3, taken3, hinv3, hf3, hfl3, hst3, hrc3, hmap3, hsame3⟩ :=
            ih (va + PGSIZE) _ k2 _ _ hinv2 hf2 huser2 hres
          have hfl3' : rest = taken3 ++ k2.freelist := hfl3
          refine ⟨L1s3, L0s3, A1 ++ A0 ++ pa :: taken3, hinv3, hf3, ?_,
            (hpost.stable.stable_trans hst2).stable_trans hst3, ?_, ?_, ?_⟩
          · rw [hpost.taken, hfl, hfl3']
            simp
          · rw [hrc3]; exact hpost.refcnt
          · intro i hi
            cases i with
            | zero =>
              simp only [Nat.zero_mul, Nat.add_zero]
              refine ⟨pa, by simp, Mapped.mapped_stable hst3 ?_⟩
              refine ⟨pte, hpost.path.path_stable hst2, ?_, pte_valid_of_or _ _⟩
              rw [store_mem, if_pos rfl]
            | succ j =>
              obtain ⟨pa3, hpa3, hm3⟩ := hmap3 j (by omega)
              rw [show va + PGSIZE + j * PGSIZE = va + (j + 1) * PGSIZE by ring] at hm3
              exact ⟨pa3, by simp [hpa3], hm3⟩
          · intro vb hvb
            have h0 := hvb 0 (Nat.succ_pos n)
            simp only [Nat.zero_mul, Nat.add_zero] at h0
            have s1 := hpost.sameLeaf hinv hf vb
            have s2 : SameLeaf k1 ((Kernel.mk k1.mem rest k1.refcnt k1.nextobj).store pte
                (PA2PTE pa ||| flags ||| PTE_V)) mm vb := by
              have hx : SameLeaf k1 (k1.store pte (PA2PTE pa ||| flags ||| PTE_V)) mm vb :=
                Or.inl (store_sameLeaf hpost.inv hroute hu0 _ h0)
              exact hx.same_of_eq rfl
            have s3 := hsame3 vb (by
              intro i hi
              have := hvb (i + 1) (by omega)
              rw [show va + PGSIZE + i * PGSIZE = va + (i + 1) * PGSIZE by ring]
              exact this)
            exact (s1.same_trans s2).same_trans s3

/-- C18. In a well-formed state, when `mm_mappages(vma)` returns 0: every page
`va` of `[vm_start, vm_end)` has the valid leaf entry
`PA2PTE(pa) | vma->pte_flags | PTE_V` for a frame `pa` that was free before the
call and is not free after it, the leaf entry of every address outside the
range is what it was, and `vma` is the head of the owner's VMA list with the
previous list behind it. -/
theorem mm_mappages_maps_fresh_frames {k k2 : Kernel} {mm mm2 : Mm} {vma : Vma}
    {L1s L0s : List Nat} (hf : FreeOk k) (hinv : PgtInv k mm.pgt L1s L0s)
    (hres : mm_mappages k mm vma = some (k2, mm2, 0)) :
    mm2.vma = vma :: mm.vma ∧ mm2.pgt = mm.pgt ∧
    (∀ va, vma.vm_start ≤ va → va < vma.vm_end → PGALIGNED va →
      ∃ pa, pa ∈ k.freelist ∧ pa ∉ k2.freelist ∧
        leafPte k2 mm va = some (PA2PTE pa ||| vma.pte_flags ||| PTE_V) ∧
        (PA2PTE pa ||| vma.pte_flags ||| PTE_V) &&& PTE_V ≠ 0) ∧
    (∀ vb, ¬ (vma.vm_start ≤ vb ∧ vb < vma.vm_end) → SameLeaf k k2 mm vb) := by
  obtain ⟨-, hue, has, hae, -, hloop, rfl⟩ := mm_mappages_ok hres
  have huser : ∀ i < npages vma.vm_start vma.vm_end, IS_USER_VA (vma.vm_start + i * PGSIZE) := by
    intro i hi
    have := page_of_index has hae hi
    unfold IS_USER_VA at *
    omega
  obtain ⟨L1s2, L0s2, taken, hinv2, hf2, hfl, hst, -, hmap, hsame⟩ :=
    mappagesLoop_spec mm vma.pte_flags _ _ k k2 L1s L0s hinv hf huser hloop
  refine ⟨rfl, rfl, ?_, ?_⟩
  · intro va h1 h2 hva
    obtain ⟨i, hi, rfl⟩ := index_of_page has h1 h2 hva
    obtain ⟨pa, hpa, hm⟩ := hmap i hi
    refine ⟨pa, ?_, ?_, hm.leafPte_eq mm (huser i hi), pte_valid_of_or _ _⟩
    · rw [hfl]; exact List.mem_append_left _ hpa
    · have hnd := hf.1
      rw [hfl] at hnd
      exact fun h => (List.nodup_append.mp hnd).2.2 hpa h
  · intro vb hvb
    refine hsame vb ?_
    intro i hi
    have := page_of_index has hae hi
    unfold PGALIGNED PGSIZE at *
    omega

set_option maxRecDepth 100000 in
theorem mapScenario_result : mm_mappages forkK forkNew mapVma = some (mapK2, mapMm2, 0) := by
  have h1 : (mm_mappages forkK forkNew mapVma).isSome = true := by decide
  have h2 : (mm_mappages forkK forkNew mapVma).map (fun r => r.2.2) = some 0 := by decide
  unfold mapK2 mapMm2
  cases h : mm_mappages forkK forkNew mapVma with
  | none => rw [h] at h1; simp at h1
  | some r =>
    obtain ⟨a, b, c⟩ := r
    rw [h] at h2
    simp only [Option.map_some', Option.some.injEq] at h2
    subst h2
    rfl

theorem mm_mappages_maps_fresh_frames_witness :
    mapMm2.vma = mapVma :: forkNew.vma ∧ mapMm2.pgt = forkNew.pgt ∧
    (∀ va, mapVma.vm_start ≤ va → va < mapVma.vm_end → PGALIGNED va →
      ∃ pa, pa ∈ forkK.freelist ∧ pa ∉ mapK2.freelist ∧
        leafPte mapK2 forkNew va = some (PA2PTE pa ||| mapVma.pte_flags ||| PTE_V) ∧
        (PA2PTE pa ||| mapVma.pte_flags ||| PTE_V) &&& PTE_V ≠ 0) ∧
    (∀ vb, ¬ (mapVma.vm_start ≤ vb ∧ vb < mapVma.vm_end) → SameLeaf forkK mapK2 forkNew vb) :=
  mm_mappages_maps_fresh_frames forkK_free forkNew_inv mapScenario_result

/-- C22, amended. `mm_remap(vma, start, end, flags)` stops the kernel whenever
`start != vma->vm_start`, or `end < vma->vm_end`, or
`flags != vma->pte_flags`. -/
theorem mm_remap_fatal_outside_growth (k : Kernel) (mm : Mm) (i start end_ flags : Nat)
    (vma : Vma) (hget : mm.vma.get? i = some vma)
    (hshape : start ≠ vma.vm_start ∨ end_ < vma.vm_end ∨ flags ≠ vma.pte_flags) :
    mm_remap k mm i start end_ flags = none := by
  unfold mm_remap
  rw [hget]
  simp only
  split_ifs <;> rfl

set_option maxRecDepth 100000 in
/-- C22, as stated, fails for `end == vma->vm_end`: in the parent of
`forkScenario 16` the heap is the VMA `[0x1000, 0x2000)` with flags R|W|U, and
`mm_remap(vma, 0x1000, 0x2000, R|W|U)` returns 0. -/
theorem mm_remap_same_end_returns :
    forkOld.vma.get? 0 = some (Vma.mk 2 0x1000 0x2000 (PTE_R ||| PTE_W ||| PTE_U)) ∧
    remapSameEnd.map (fun r => r.2.2) = some 0 := by
  refine ⟨?_, ?_⟩ <;> decide

set_option maxRecDepth 100000 in
theorem mm_remap_fatal_outside_growth_witness :
    mm_remap forkK forkOld 0 0x1000 0x1000 (PTE_R ||| PTE_W ||| PTE_U) = none ∧
    mm_remap forkK forkOld 0 0x2000 0x3000 (PTE_R ||| PTE_W ||| PTE_U) = none ∧
    mm_remap forkK forkOld 0 0x1000 0x3000 (PTE_R ||| PTE_U) = none :=
  ⟨mm_remap_fatal_outside_growth forkK forkOld 0 0x1000 0x1000 (PTE_R ||| PTE_W ||| PTE_U)
      (Vma.mk 2 0x1000 0x2000 (PTE_R ||| PTE_W ||| PTE_U)) (by decide) (by decide),
    mm_remap_fatal_outside_growth forkK forkOld 0 0x2000 0x3000 (PTE_R ||| PTE_W ||| PTE_U)
      (Vma.mk 2 0x1000 0x2000 (PTE_R ||| PTE_W ||| PTE_U)) (by decide) (by decide),
    mm_remap_fatal_outside_growth forkK forkOld 0 0x1000 0x3000 (PTE_R ||| PTE_U)
      (Vma.mk 2 0x1000 0x2000 (PTE_R ||| PTE_W ||| PTE_U)) (by decide) (by decide)⟩

set_option maxRecDepth 100000 in
/-- C24, evaluated in the child of `forkScenario 16` before the fork:
`mm_mappages_cow(vma, oldvma)` with `vma = [0x3000, 0x4000)` and
`oldvma = [0x1000, 0x2000)`, which differ in `vm_start` and in `vm_end` and
have the same flags, passes the assertion, maps page `0x3000` of the child to
the frame of the parent's page `0x3000` with the flags of `vma`, and returns
0. -/
theorem mm_mappages_cow_accepts_other_bounds :
    cowNewVma.vm_start ≠ cowOldVma.vm_start ∧ cowNewVma.vm_end ≠ cowOldVma.vm_end ∧
    cowNewVma.pte_flags = cowOldVma.pte_flags ∧
    leafPte forkK forkNew 0x3000 = none ∧
    leafPte forkK forkOld 0x3000 = some 0x2010141b ∧
    cowMismatch.map (fun r => (r.2.2, r.2.1.vma.map (fun v => (v.vm_start, v.vm_end)),
        leafPte r.1 r.2.1 0x3000)) =
      some (0, [(0x3000, 0x4000)], some 0x20101417) := by
  refine ⟨?_, ?_, ?_, ?_, ?_, ?_⟩ <;> decide

set_option maxRecDepth 100000 in
/-- C25, evaluated on a machine with two free frames: `mm_create` takes the
root and the level-1 table of the trampoline, fails to get the level-0 table,
returns `NULL`, and frees the root only: one frame is free afterwards. With
no free frame and with one, it returns `NULL` and the count is what it was. -/
theorem mm_create_failure_leaks_table :
    freepages_count (uvm_init (bootKernel 2)) = 2 ∧
    createOn 2 = some (false, 1) ∧
    createOn 0 = some (false, 0) ∧
    createOn 1 = some (false, 1) := by
  refine ⟨?_, ?_, ?_, ?_⟩ <;> decide

/-- Clearing R, W, X and setting the flags again gives back an entry that was
mapped with these flags. -/
theorem reflag_same {e flags : Nat} (h : MappedWith e flags) :
    (e &&& (U64 - 1 - PTE_RWX)) ||| flags = e := by
  obtain ⟨hlt, -, hsub, hrwx⟩ := h
  apply Nat.eq_of_testBit_eq
  intro b
  have hsb : (e ||| flags).testBit b = e.testBit b := by rw [hsub]
  rw [Nat.testBit_or] at hsb
  have hrb : (e &&& PTE_RWX).testBit b = (flags &&& PTE_RWX).testBit b := by rw [hrwx]
  rw [Nat.testBit_and, Nat.testBit_and] at hrb
  rw [Nat.testBit_or, Nat.testBit_and]
  by_cases hb : b < 64
  · rw [mask_testBit b hb]
    by_cases h13 : b = 1 ∨ b = 2 ∨ b = 3
    · have hm : PTE_RWX.testBit b = true := by
        rcases h13 with rfl | rfl | rfl <;> decide
      rw [hm] at hrb
      simp only [Bool.and_true] at hrb
      have : (decide (b = 0) || decide (4 ≤ b)) = false := by
        rcases h13 with rfl | rfl | rfl <;> decide
      rw [this, hrb]
      simp
    · have : (decide (b = 0) || decide (4 ≤ b)) = true := by
        simp only [Bool.or_eq_true, decide_eq_true_eq]
        omega
      rw [this]
      simp only [Bool.and_true]
      exact hsb
  · have he : e.testBit b = false := by
      apply Nat.testBit_lt_two_pow
      calc e < 2 ^ 64 := hlt
        _ ≤ 2 ^ b := Nat.pow_le_pow_right (by norm_num) (by omega)
    rw [he] at hsb ⊢
    simp only [Bool.false_or] at hsb
    rw [hsb]
    simp

theorem store_self (k : Kernel) (p : Nat) : k.store p (k.mem p) = k := by
  cases k with
  | mk mem fl rc no =>
    simp only [Kernel.store, Kernel.mk.injEq, and_true]
    funext a
    split_ifs with h
    · rw [h]
    · rfl

/-- The loop of `mm_remap` over `n` pages that are mapped with the flags of the
VMA and one more page that is not mapped: the first `n` iterations write back
what they read, and the last maps the new page to a frame from the
allocator. -/
theorem remapLoop_grow (mm : Mm) (start end_ flags : Nat) {L1s L0s : List Nat} (n : Nat) :
    ∀ (va : Nat) (k k2 : Kernel), PgtInv k mm.pgt L1s L0s → FreeOk k →
      (∀ i < n + 1, start ≤ va + i * PGSIZE ∧ va + i * PGSIZE < end_) →
      (∀ i < n, IS_USER_VA (va + i * PGSIZE) ∧
        ∃ e, Mapped k mm.pgt (va + i * PGSIZE) e ∧ MappedWith e flags) →
      (∀ e, leafPte k mm (va + n * PGSIZE) = some e → e &&& PTE_V = 0) →
      remapLoop mm start end_ flags (n + 1) va k = some k2 →
      ∃ A1 A0 pa, PgtInv k2 mm.pgt (A1 ++ L1s) (A0 ++ L0s) ∧ FreeOk k2 ∧
        k.freelist = A1 ++ A0 ++ pa :: k2.freelist ∧ k2.refcnt = k.refcnt ∧
        leafPte k2 mm (va + n * PGSIZE) = some (PA2PTE pa ||| flags ||| PTE_V) ∧
        ∀ vb, vb / PGSIZE ≠ (va + n * PGSIZE) / PGSIZE → SameLeaf k k2 mm vb := by
  induction n with
  | zero =>
    intro va k k2 hinv hf hin _ hun hres
    simp only [Nat.zero_mul, Nat.add_zero] at hun ⊢
    have hin0 := hin 0 (by omega)
    simp only [Nat.zero_mul, Nat.add_zero] at hin0
    rw [remapLoop, if_neg (by omega)] at hres
    cases hw : walk k mm va true with
    | mk k1 r =>
      rw [hw] at hres
      cases r with
      | none => simp at hres
      | some pte =>
        simp only at hres
        have hu : IS_USER_VA va := by
          by_contra hu
          unfold walk at hw
          rw [if_pos hu] at hw
          simp at hw
        obtain ⟨A1, A0, hpost⟩ := walk_alloc_post hinv hf hw
        have hroute : Route k1 mm.pgt va pte := Route.of_path hpost.path
        have hv0 : k1.mem pte &&& PTE_V = 0 := by
          have hl1 := leafPte_of_route hu hroute
          rcases hpost.sameLeaf hinv hf va with hs | ⟨-, hs⟩
          · rw [hl1] at hs
            exact hun _ hs.symm
          · rw [hl1] at hs
            simp only [Option.some.injEq] at hs
            rw [hs]
            rfl
        rw [if_neg (by rw [hv0]; simp)] at hres
        unfold kallocpage at hres
        cases hfl : k1.freelist with
        | nil =>
          rw [hfl] at hres
          simp at hres
        | cons pa rest =>
          rw [hfl] at hres
          simp only at hres
          have hpa := hpost.free.valid_lt (p := pa) (by rw [hfl]; exact List.mem_cons_self _ _)
          rw [if_neg hpa.2.1] at hres
          simp only [remapLoop, Option.some.injEq] at hres
          subst hres
          obtain ⟨t0, ht0, hpte⟩ := hpost.inv.leaf_table hpost.path
          have hsub : ∀ p ∈ rest, p ∈ k1.freelist := fun p hp => by
            rw [hfl]; exact List.mem_cons_of_mem _ hp
          have hinv2 : PgtInv ((Kernel.mk k1.mem rest k1.refcnt k1.nextobj).store pte
              (PA2PTE pa ||| flags ||| PTE_V)) mm.pgt (A1 ++ L1s) (A0 ++ L0s) := by
            have h1 : PgtInv (k1.store pte (PA2PTE pa ||| flags ||| PTE_V)) mm.pgt
                (A1 ++ L1s) (A0 ++ L0s) := by
              rw [hpte]; exact hpost.inv.store_leaf ht0 (PX_lt 0 va) _
            exact h1.pgt_of_sub rfl hsub
          have hs : ∀ t ∈ mm.pgt :: (A1 ++ L1s), ∀ j < 512,
              (k1.store pte (PA2PTE pa ||| flags ||| PTE_V)).mem (t + 8 * j) =
                k1.mem (t + 8 * j) :=
            hpost.inv.leaf_sameInner (hpost.inv.route_table hroute).2 (PX_lt 0 va) (by
              intro a hne
              rw [store_mem, if_neg (by rw [hroute.2.2]; exact hne)])
          refine ⟨A1, A0, pa, hinv2, hpost.free.tail hfl rfl, ?_, hpost.refcnt, ?_, ?_⟩
          · rw [hpost.taken, hfl]; rfl
          · have hr2 : Route ((Kernel.mk k1.mem rest k1.refcnt k1.nextobj).store pte
                (PA2PTE pa ||| flags ||| PTE_V)) mm.pgt va pte :=
              Route.route_sameInner hpost.inv hs hroute
            rw [leafPte_of_route hu hr2, store_mem, if_pos rfl]
          · intro vb hne
            have hx : SameLeaf k1 (k1.store pte (PA2PTE pa ||| flags ||| PTE_V)) mm vb :=
              Or.inl (store_sameLeaf hpost.inv hroute hu _ hne)
            exact (hpost.sameLeaf hinv hf vb).same_trans (hx.same_of_eq rfl)
  | succ n ih =>
    intro va k k2 hinv hf hin hmap hun hres
    have hin0 := hin 0 (by omega)
    simp only [Nat.zero_mul, Nat.add_zero] at hin0
    obtain ⟨hu0, e0, hm0, hw0⟩ := hmap 0 (by omega)
    simp only [Nat.zero_mul, Nat.add_zero] at hu0 hm0
    obtain ⟨a0, hpath, hea, hev⟩ := hm0
    rw [remapLoop, if_neg (by omega), hpath.walk_eq hu0 true] at hres
    simp only at hres
    rw [if_pos (by rw [hea]; exact hev), hea, reflag_same hw0, ← hea, store_self] at hres
    have hshift : ∀ i, va + PGSIZE + i * PGSIZE = va + (i + 1) * PGSIZE := fun i => by ring
    have := ih (va + PGSIZE) k k2 hinv hf
      (fun i hi => by rw [hshift]; exact hin (i + 1) (by omega))
      (fun i hi => by rw [hshift]; exact hmap (i + 1) (by omega))
      (by rw [hshift]; exact hun) hres
    rw [hshift] at this
    exact this

/-- C21. Heap growth by one page, in a well-formed state: when every page of
`vma` is mapped with the flags of the VMA and the page at `vm_end` is not
mapped, a successful `mm_remap(vma, vma->vm_start, vma->vm_end + PGSIZE,
vma->pte_flags)` takes from the allocator one leaf frame `pa` (and before it
the page-table pages `A1`, `A0` it needs to reach the new entry, if any),
makes the leaf entry of the old `vm_end` equal to
`PA2PTE(pa) | pte_flags | PTE_V`, leaves the leaf entry of every other page as
it was, and advances `vm_end` by `PGSIZE` with `vm_start` and `pte_flags`
unchanged. -/
theorem mm_remap_grows_heap_by_one_page {k k2 : Kernel} {mm mm2 : Mm} (i : Nat) (vma : Vma)
    {L1s L0s : List Nat} (hf : FreeOk k) (hinv : PgtInv k mm.pgt L1s L0s)
    (hget : mm.vma.get? i = some vma) (hle : vma.vm_start ≤ vma.vm_end)
    (hmapped : ∀ va, vma.vm_start ≤ va → va < vma.vm_end → PGALIGNED va →
      ∃ e, leafPte k mm va = some e ∧ MappedWith e vma.pte_flags)
    (hunmapped : ∀ e, leafPte k mm vma.vm_end = some e → e &&& PTE_V = 0)
    (hres : mm_remap k mm i vma.vm_start (vma.vm_end + PGSIZE) vma.pte_flags =
      some (k2, mm2, 0)) :
    mm2.vma = mm.vma.set i { vma with vm_end := vma.vm_end + PGSIZE } ∧ mm2.pgt = mm.pgt ∧
    ∃ A1 A0 pa, k.freelist = A1 ++ A0 ++ pa :: k2.freelist ∧
      PgtInv k2 mm.pgt (A1 ++ L1s) (A0 ++ L0s) ∧
      leafPte k2 mm vma.vm_end = some (PA2PTE pa ||| vma.pte_flags ||| PTE_V) ∧
      (PA2PTE pa ||| vma.pte_flags ||| PTE_V) &&& PTE_V ≠ 0 ∧
      ∀ vb, vb / PGSIZE ≠ vma.vm_end / PGSIZE → SameLeaf k k2 mm vb := by
  unfold mm_remap at hres
  rw [hget] at hres
  simp only at hres
  split_ifs at hres with c1 c2 c3 c4 c5
  · simp only [Option.some.injEq, Prod.mk.injEq] at hres
    exact absurd hres.2.2 neg_EINVAL_ne
  · have hmin : min vma.vm_start vma.vm_start = vma.vm_start := Nat.min_self _
    have hmax : max (vma.vm_end + PGSIZE) vma.vm_end = vma.vm_end + PGSIZE :=
      Nat.max_eq_left (Nat.le_add_right _ _)
    rw [hmin, hmax] at hres
    have hae : PGALIGNED vma.vm_end := by
      unfold PGALIGNED PGSIZE at *
      omega
    have hn : npages vma.vm_start (vma.vm_end + PGSIZE) =
        npages vma.vm_start vma.vm_end + 1 := by
      unfold npages PGALIGNED PGSIZE at *
      omega
    have hend : vma.vm_start + npages vma.vm_start vma.vm_end * PGSIZE = vma.vm_end :=
      npages_end c1 hae hle
    rw [hn] at hres
    cases hloop : remapLoop mm vma.vm_start (vma.vm_end + PGSIZE) vma.pte_flags
        (npages vma.vm_start vma.vm_end + 1) vma.vm_start k with
    | none => rw [hloop] at hres; simp at hres
    | some k1 =>
      rw [hloop] at hres
      simp only [Option.some.injEq, Prod.mk.injEq] at hres
      obtain ⟨rfl, rfl, -⟩ := hres
      refine ⟨rfl, rfl, ?_⟩
      obtain ⟨A1, A0, pa, hinv2, -, hfl, -, hleaf, hsame⟩ :=
        remapLoop_grow mm vma.vm_start (vma.vm_end + PGSIZE) vma.pte_flags
          (npages vma.vm_start vma.vm_end) vma.vm_start k k1 hinv hf
          (by
            intro i hi
            unfold npages PGALIGNED PGSIZE at *
            omega)
          (by
            intro i hi
            obtain ⟨p1, p2, p3⟩ := page_of_index c1 hae hi
            obtain ⟨e, he, hw⟩ := hmapped _ p1 p2 p3
            obtain ⟨hu, hm⟩ := hinv.mapped_of_leafPte hf he hw.2.1
            exact ⟨hu, e, hm, hw⟩)
          (by rw [hend]; exact hunmapped) hloop
      rw [hend] at hleaf hsame
      exact ⟨A1, A0, pa, hfl, hinv2, hleaf, pte_valid_of_or _ _, hsame⟩

set_option maxRecDepth 100000 in
theorem growScenario_result :
    mm_remap forkK forkOld 0 0x1000 0x3000 (PTE_R ||| PTE_W ||| PTE_U) =
      some (growK2, growMm2, 0) := by
  have h1 : (mm_remap forkK forkOld 0 0x1000 0x3000 (PTE_R ||| PTE_W ||| PTE_U)).isSome =
      true := by decide
  have h2 : (mm_remap forkK forkOld 0 0x1000 0x3000 (PTE_R ||| PTE_W ||| PTE_U)).map
      (fun r => r.2.2) = some 0 := by decide
  unfold growK2 growMm2
  cases h : mm_remap forkK forkOld 0 0x1000 0x3000 (PTE_R ||| PTE_W ||| PTE_U) with
  | none => rw [h] at h1; simp at h1
  | some r =>
    obtain ⟨a, b, c⟩ := r
    rw [h] at h2
    simp only [Option.map_some', Option.some.injEq] at h2
    subst h2
    rfl

set_option maxRecDepth 100000 in
theorem mm_remap_grows_heap_by_one_page_witness :
    growMm2.vma = forkOld.vma.set 0 (Vma.mk 2 0x1000 (0x2000 + PGSIZE)
      (PTE_R ||| PTE_W ||| PTE_U)) ∧
    growMm2.pgt = forkOld.pgt ∧
    ∃ A1 A0 pa, forkK.freelist = A1 ++ A0 ++ pa :: growK2.freelist ∧
      PgtInv growK2 forkOld.pgt (A1 ++ [0x80403000, 0x80401000])
        (A0 ++ [0x80404000, 0x80402000]) ∧
      leafPte growK2 forkOld 0x2000 =
        some (PA2PTE pa ||| (PTE_R ||| PTE_W ||| PTE_U) ||| PTE_V) ∧
      (PA2PTE pa ||| (PTE_R ||| PTE_W ||| PTE_U) ||| PTE_V) &&& PTE_V ≠ 0 ∧
      ∀ vb, vb / PGSIZE ≠ 0x2000 / PGSIZE → SameLeaf forkK growK2 forkOld vb :=
  mm_remap_grows_heap_by_one_page 0 (Vma.mk 2 0x1000 0x2000 (PTE_R ||| PTE_W ||| PTE_U))
    forkK_free forkOld_inv
    (by decide) (by decide)
    (by
      intro va h1 h2 h3
      have hva : va = 0x1000 := by
        unfold PGALIGNED PGSIZE at h3
        simp only at h1 h2
        omega
      subst hva
      exact ⟨0x20101817, by decide, by decide⟩)
    (by
      intro e he
      have : leafPte forkK forkOld 0x2000 = some 0 := by decide
      rw [this] at he
      simp only [Option.some.injEq] at he
      subst he
      decide)
    growScenario_result

theorem not_isInner_zero : ¬ IsInner 0 := by
  intro h
  exact h.1 (by decide)

/-- With fuel left, `freepgt` on a level-0 table of the tree frees the table and
nothing else. -/
theorem freepgt_tree_l0 {k : Kernel} {pgt : Nat} {L1s L0s : List Nat}
    (h : TreeInv k pgt L1s L0s) {t0 : Nat} (ht0 : t0 ∈ L0s) (f : Nat) :
    freepgt (f + 1) t0 k = some (kfreepage k t0) := by
  rw [freepgt_succ, freepgtLoop_id (freepgt f) t0 k 512 0 (fun j _ hj hc =>
    h.l0_leaf t0 ht0 j (by omega) hc)]

/-- Freeing the level-0 table of an inner level-1 entry and clearing the entry
keeps the tree. -/
theorem TreeInv.tree_free_l0 {k : Kernel} (k2 : Kernel) {pgt : Nat}
    {L1s L0s : List Nat} (h : TreeInv k pgt L1s L0s) {t1 j : Nat} (ht1 : t1 ∈ L1s)
    (hj : j < 512) (hv : IsInner (k.mem (t1 + 8 * j))) (hm0 : k2.mem (t1 + 8 * j) = 0)
    (hm : ∀ a, a ≠ t1 + 8 * j → k2.mem a = k.mem a) :
    TreeInv k2 pgt L1s (L0s.erase (PTE2PA (k.mem (t1 + 8 * j)))) := by
  have ht0 := h.l1_sound t1 ht1 j hj hv
  have hnd := h.nodup
  have hnd0 : L0s.Nodup := (List.nodup_append.mp (List.nodup_cons.mp hnd).2).2.1
  have hsub : (pgt :: (L1s ++ L0s.erase (PTE2PA (k.mem (t1 + 8 * j))))).Sublist
      (pgt :: (L1s ++ L0s)) :=
    ((List.Sublist.refl L1s).append (List.erase_sublist _ _)).cons₂ _
  have ht1m : t1 ∈ pgt :: (L1s ++ L0s) :=
    List.mem_cons_of_mem _ (List.mem_append_left _ ht1)
  have hword : ∀ t ∈ pgt :: (L1s ++ L0s), ∀ i < 512, (t ≠ t1 ∨ i ≠ j) →
      k2.mem (t + 8 * i) = k.mem (t + 8 * i) := by
    intro t ht i hi hne
    apply hm
    intro heq
    have := page_word_inj (h.aligned t ht) (h.aligned t1 ht1m) hi hj heq
    rcases hne with hne | hne
    · exact hne this.1
    · exact hne this.2
  have hval : ∀ t ∈ pgt :: (L1s ++ L0s), ∀ i < 512, IsInner (k2.mem (t + 8 * i)) →
      (t ≠ t1 ∨ i ≠ j) ∧ k2.mem (t + 8 * i) = k.mem (t + 8 * i) := by
    intro t ht i hi hvi
    have hne : t ≠ t1 ∨ i ≠ j := by
      by_contra hc
      push_neg at hc
      rw [hc.1, hc.2, hm0] at hvi
      exact not_isInner_zero hvi
    exact ⟨hne, hword t ht i hi hne⟩
  have hp1 : pgt ≠ t1 := by
    rintro rfl
    exact (List.nodup_cons.mp hnd).1 (List.mem_append_left _ ht1)
  have hroot : ∀ i < 512, k2.mem (pgt + 8 * i) = k.mem (pgt + 8 * i) := fun i hi =>
    hword pgt (List.mem_cons_self _ _) i hi (Or.inl hp1)
  have hl0 : ∀ t ∈ L0s, ∀ i < 512, k2.mem (t + 8 * i) = k.mem (t + 8 * i) := by
    intro t ht i hi
    refine hword t (List.mem_cons_of_mem _ (List.mem_append_right _ ht)) i hi (Or.inl ?_)
    rintro rfl
    exact (List.nodup_append.mp (List.nodup_cons.mp hnd).2).2.2 ht1 ht
  have hl1m : ∀ t ∈ L1s, t ∈ pgt :: (L1s ++ L0s) := fun t ht =>
    List.mem_cons_of_mem _ (List.mem_append_left _ ht)
  constructor
  · exact hnd.sublist hsub
  · exact fun t ht => h.aligned t (hsub.subset ht)
  · intro i hi hvi
    rw [hroot i hi] at hvi ⊢
    exact h.root_sound i hi hvi
  · intro t ht i hi hvi
    obtain ⟨hne, heq⟩ := hval t (hl1m t ht) i hi hvi
    rw [heq] at hvi ⊢
    rw [hnd0.mem_erase_iff]
    refine ⟨?_, h.l1_sound t ht i hi hvi⟩
    intro hc
    have := h.l1_inj t ht i hi hvi t1 ht1 j hj hv hc
    rcases hne with hne | hne
    · exact hne this.1
    · exact hne this.2
  · intro t ht i hi
    have ht' := (hnd0.mem_erase_iff.mp ht).2
    rw [hl0 t ht' i hi]
    exact h.l0_leaf t ht' i hi
  · intro t ht
    obtain ⟨i, hi, hvi, hpa⟩ := h.root_complete t ht
    exact ⟨i, hi, by rw [hroot i hi]; exact hvi, by rw [hroot i hi]; exact hpa⟩
  · intro t ht
    rw [hnd0.mem_erase_iff] at ht
    obtain ⟨t1b, ht1b, i, hi, hvi, hpa⟩ := h.l1_complete t ht.2
    have hne : t1b ≠ t1 ∨ i ≠ j := by
      by_contra hc
      push_neg at hc
      rw [hc.1, hc.2] at hpa
      exact ht.1 hpa.symm
    have := hword t1b (hl1m t1b ht1b) i hi hne
    exact ⟨t1b, ht1b, i, hi, by rw [this]; exact hvi, by rw [this]; exact hpa⟩
  · intro i hi hvi i2 hi2 hvi2
    rw [hroot i hi] at hvi ⊢
    rw [hroot i2 hi2] at hvi2 ⊢
    exact h.root_inj i hi hvi i2 hi2 hvi2
  · intro t ht i hi hvi t2 ht2 i2 hi2 hvi2
    obtain ⟨-, heq⟩ := hval t (hl1m t ht) i hi hvi
    obtain ⟨-, heq2⟩ := hval t2 (hl1m t2 ht2) i2 hi2 hvi2
    rw [heq] at hvi ⊢
    rw [heq2] at hvi2 ⊢
    exact h.l1_inj t ht i hi hvi t2 ht2 i2 hi2 hvi2

/-- Freeing the level-1 table of an inner root entry, once the table has no inner
entry left, and clearing the root entry keeps the tree. -/
theorem TreeInv.tree_free_l1 {k : Kernel} (k2 : Kernel) {pgt : Nat}
    {L1s L0s : List Nat} (h : TreeInv k pgt L1s L0s) {i : Nat} (hi : i < 512)
    (hv : IsInner (k.mem (pgt + 8 * i)))
    (hempty : ∀ j < 512, ¬ IsInner (k.mem (PTE2PA (k.mem (pgt + 8 * i)) + 8 * j)))
    (hm0 : k2.mem (pgt + 8 * i) = 0)
    (hm : ∀ a, a ≠ pgt + 8 * i → k2.mem a = k.mem a) :
    TreeInv k2 pgt (L1s.erase (PTE2PA (k.mem (pgt + 8 * i)))) L0s := by
  have ht1 := h.root_sound i hi hv
  have hnd := h.nodup
  have hnd1 : L1s.Nodup := (List.nodup_append.mp (List.nodup_cons.mp hnd).2).1
  have hsub : (pgt :: (L1s.erase (PTE2PA (k.mem (pgt + 8 * i))) ++ L0s)).Sublist
      (pgt :: (L1s ++ L0s)) :=
    ((List.erase_sublist _ _).append (List.Sublist.refl L0s)).cons₂ _
  have hpm : pgt ∈ pgt :: (L1s ++ L0s) := List.mem_cons_self _ _
  have hword : ∀ t ∈ pgt :: (L1s ++ L0s), ∀ j < 512, (t ≠ pgt ∨ j ≠ i) →
      k2.mem (t + 8 * j) = k.mem (t + 8 * j) := by
    intro t ht j hj hne
    apply hm
    intro heq
    have := page_word_inj (h.aligned t ht) (h.aligned pgt hpm) hj hi heq
    rcases hne with hne | hne
    · exact hne this.1
    · exact hne this.2
  have hval : ∀ j < 512, IsInner (k2.mem (pgt + 8 * j)) →
      j ≠ i ∧ k2.mem (pgt + 8 * j) = k.mem (pgt + 8 * j) := by
    intro j hj hvj
    have hne : j ≠ i := by
      rintro rfl
      rw [hm0] at hvj
      exact not_isInner_zero hvj
    exact ⟨hne, hword pgt hpm j hj (Or.inr hne)⟩
  have hl1m : ∀ t ∈ L1s, t ∈ pgt :: (L1s ++ L0s) := fun t ht =>
    List.mem_cons_of_mem _ (List.mem_append_left _ ht)
  have hl0m : ∀ t ∈ L0s, t ∈ pgt :: (L1s ++ L0s) := fun t ht =>
    List.mem_cons_of_mem _ (List.mem_append_right _ ht)
  have hl1 : ∀ t ∈ L1s, ∀ j < 512, k2.mem (t + 8 * j) = k.mem (t + 8 * j) := by
    intro t ht j hj
    refine hword t (hl1m t ht) j hj (Or.inl ?_)
    rintro rfl
    exact (List.nodup_cons.mp hnd).1 (List.mem_append_left _ ht)
  have hl0 : ∀ t ∈ L0s, ∀ j < 512, k2.mem (t + 8 * j) = k.mem (t + 8 * j) := by
    intro t ht j hj
    refine hword t (hl0m t ht) j hj (Or.inl ?_)
    rintro rfl
    exact (List.nodup_cons.mp hnd).1 (List.mem_append_right _ ht)
  constructor
  · exact hnd.sublist hsub
  · exact fun t ht => h.aligned t (hsub.subset ht)
  · intro j hj hvj
    obtain ⟨hne, heq⟩ := hval j hj hvj
    rw [heq] at hvj ⊢
    rw [hnd1.mem_erase_iff]
    refine ⟨?_, h.root_sound j hj hvj⟩
    intro hc
    exact hne (h.root_inj j hj hvj i hi hv hc)
  · intro t ht j hj hvj
    have ht' := (hnd1.mem_erase_iff.mp ht).2
    rw [hl1 t ht' j hj] at hvj ⊢
    exact h.l1_sound t ht' j hj hvj
  · intro t ht j hj
    rw [hl0 t ht j hj]
    exact h.l0_leaf t ht j hj
  · intro t ht
    rw [hnd1.mem_erase_iff] at ht
    obtain ⟨j, hj, hvj, hpa⟩ := h.root_complete t ht.2
    have hne : j ≠ i := by
      rintro rfl
      exact ht.1 hpa.symm
    have := hword pgt hpm j hj (Or.inr hne)
    exact ⟨j, hj, by rw [this]; exact hvj, by rw [this]; exact hpa⟩
  · intro t ht
    obtain ⟨t1b, ht1b, j, hj, hvj, hpa⟩ := h.l1_complete t ht
    have hne : t1b ≠ PTE2PA (k.mem (pgt + 8 * i)) := by
      rintro rfl
      exact hempty j hj hvj
    have := hl1 t1b ht1b j hj
    exact ⟨t1b, hnd1.mem_erase_iff.mpr ⟨hne, ht1b⟩, j, hj, by rw [this]; exact hvj,
      by rw [this]; exact hpa⟩
  · intro j hj hvj j2 hj2 hvj2
    obtain ⟨-, heq⟩ := hval j hj hvj
    obtain ⟨-, heq2⟩ := hval j2 hj2 hvj2
    rw [heq] at hvj ⊢
    rw [heq2] at hvj2 ⊢
    exact h.root_inj j hj hvj j2 hj2 hvj2
  · intro t ht j hj hvj t2 ht2 j2 hj2 hvj2
    have ht' := (hnd1.mem_erase_iff.mp ht).2
    have ht2' := (hnd1.mem_erase_iff.mp ht2).2
    rw [hl1 t ht' j hj] at hvj ⊢
    rw [hl1 t2 ht2' j2 hj2] at hvj2 ⊢
    exact h.l1_inj t ht' j hj hvj t2 ht2' j2 hj2 hvj2

/-- A table that was built by `walk`, whose valid entries at the root and at
level 1 are inner entries and whose valid entries at level 0 are leaves, is a
tree for `freepgt`. -/
theorem TreeInv.of_pgtInv {k : Kernel} {pgt : Nat} {L1s L0s : List Nat}
    (h : PgtInv k pgt L1s L0s)
    (hinner : ∀ t ∈ pgt :: L1s, ∀ j < 512, k.mem (t + 8 * j) &&& PTE_V ≠ 0 →
      k.mem (t + 8 * j) &&& PTE_RWX = 0)
    (hleaf : ∀ t ∈ L0s, ∀ j < 512, k.mem (t + 8 * j) &&& PTE_V ≠ 0 →
      k.mem (t + 8 * j) &&& PTE_RWX ≠ 0) : TreeInv k pgt L1s L0s := by
  constructor
  · exact h.nodup
  · exact h.aligned
  · exact fun i hi hv => h.root_sound i hi hv.1
  · exact fun t ht j hj hv => h.l1_sound t ht j hj hv.1
  · exact fun t ht j hj hv => hleaf t ht j hj hv.1 hv.2
  · intro t ht
    obtain ⟨i, hi, hv, hp⟩ := h.root_complete t ht
    exact ⟨i, hi, ⟨hv, hinner pgt (List.mem_cons_self _ _) i hi hv⟩, hp⟩
  · intro t ht
    obtain ⟨t1, ht1, j, hj, hv, hp⟩ := h.l1_complete t ht
    exact ⟨t1, ht1, j, hj, ⟨hv, hinner t1 (List.mem_cons_of_mem _ ht1) j hj hv⟩, hp⟩
  · exact fun i hi hv i2 hi2 hv2 => h.root_inj i hi hv.1 i2 hi2 hv2.1
  · exact fun t ht j hj hv t2 ht2 j2 hj2 hv2 => h.l1_inj t ht j hj hv.1 t2 ht2 j2 hj2 hv2.1

/-- The loop of `freepgt` over a level-1 table of the tree: it returns, every
level-0 table under it is freed, no inner entry is left in the table, and no
word outside the table is written. -/
theorem freepgt_tree_l1_loop {K : List Nat} {pgt : Nat} {L1s : List Nat} {t1 : Nat}
    (ht1 : t1 ∈ L1s) (f n : Nat) : ∀ (i : Nat) (k : Kernel) (L0s : List Nat), i + n = 512 →
    TreeInv k pgt L1s L0s → K.Perm (pgt :: (L1s ++ L0s) ++ k.freelist) →
    (∀ j < i, ¬ IsInner (k.mem (t1 + 8 * j))) →
    ∃ k2 L0s2, freepgtLoop (freepgt (f + 1)) t1 n i k = some k2 ∧ TreeInv k2 pgt L1s L0s2 ∧
      K.Perm (pgt :: (L1s ++ L0s2) ++ k2.freelist) ∧
      (∀ j < 512, ¬ IsInner (k2.mem (t1 + 8 * j))) ∧
      ∀ a, (∀ j < 512, a ≠ t1 + 8 * j) → k2.mem a = k.mem a := by
  induction n with
  | zero =>
    intro i k L0s hin h hperm hpre
    exact ⟨k, L0s, rfl, h, hperm, fun j hj => hpre j (by omega), fun _ _ => rfl⟩
  | succ n ih =>
    intro i k L0s hin h hperm hpre
    have hi : i < 512 := by omega
    simp only [freepgtLoop]
    by_cases hv : IsInner (k.mem (t1 + 8 * i))
    · have ht0 := h.l1_sound t1 ht1 i hi hv
      rw [if_pos hv, freepgt_tree_l0 h ht0 f]
      simp only
      have hm : ∀ a, a ≠ t1 + 8 * i →
          ((kfreepage k (PTE2PA (k.mem (t1 + 8 * i)))).store (t1 + 8 * i) 0).mem a = k.mem a := by
        intro a hne
        rw [store_mem, if_neg hne]; rfl
      have h2 := h.tree_free_l0 ((kfreepage k (PTE2PA (k.mem (t1 + 8 * i)))).store (t1 + 8 * i) 0)
        ht1 hi hv (by rw [store_mem, if_pos rfl]) hm
      have hperm2 : K.Perm (pgt :: (L1s ++ L0s.erase (PTE2PA (k.mem (t1 + 8 * i)))) ++
          ((kfreepage k (PTE2PA (k.mem (t1 + 8 * i)))).store (t1 + 8 * i) 0).freelist) :=
        FreeInv.tables_perm hperm (List.perm_cons_erase ht0)
      obtain ⟨k3, L0s3, hres, h3, hperm3, hemp, hfr⟩ := ih (i + 1) _ _ (by omega) h2 hperm2 (by
        intro j hj
        by_cases hji : j = i
        · subst hji
          rw [store_mem, if_pos rfl]
          exact not_isInner_zero
        · rw [hm _ (by omega)]
          exact hpre j (by omega))
      refine ⟨k3, L0s3, hres, h3, hperm3, hemp, fun a ha => ?_⟩
      rw [hfr a ha, hm a (ha i hi)]
    · rw [if_neg hv]
      obtain ⟨k3, L0s3, hres, h3, hperm3, hemp, hfr⟩ := ih (i + 1) k L0s (by omega) h hperm (by
        intro j hj
        by_cases hji : j = i
        · subst hji
          exact hv
        · exact hpre j (by omega))
      exact ⟨k3, L0s3, hres, h3, hperm3, hemp, hfr⟩

/-- The loop of `freepgt` over the root of the tree: it returns, every table
under the root is freed and no inner entry is left in the root. -/
theorem freepgt_tree_root_loop {K : List Nat} {pgt : Nat} (f n : Nat) :
    ∀ (i : Nat) (k : Kernel) (L1s L0s : List Nat), i + n = 512 →
    TreeInv k pgt L1s L0s → K.Perm (pgt :: (L1s ++ L0s) ++ k.freelist) →
    (∀ j < i, ¬ IsInner (k.mem (pgt + 8 * j))) →
    ∃ k2 L1s2 L0s2, freepgtLoop (freepgt (f + 1 + 1)) pgt n i k = some k2 ∧
      TreeInv k2 pgt L1s2 L0s2 ∧ K.Perm (pgt :: (L1s2 ++ L0s2) ++ k2.freelist) ∧
      ∀ j < 512, ¬ IsInner (k2.mem (pgt + 8 * j)) := by
  induction n with
  | zero =>
    intro i k L1s L0s hin h hperm hpre
    exact ⟨k, L1s, L0s, rfl, h, hperm, fun j hj => hpre j (by omega)⟩
  | succ n ih =>
    intro i k L1s L0s hin h hperm hpre
    have hi : i < 512 := by omega
    simp only [freepgtLoop]
    by_cases hv : IsInner (k.mem (pgt + 8 * i))
    · have ht1 := h.root_sound i hi hv
      obtain ⟨k1, L0s1, hloop, h1, hperm1, hemp, hfr⟩ :=
        freepgt_tree_l1_loop ht1 f 512 0 k L0s rfl h hperm
          (fun j hj => absurd hj (Nat.not_lt_zero j))
      have hpm : pgt ∈ pgt :: (L1s ++ L0s) := List.mem_cons_self _ _
      have ht1m : PTE2PA (k.mem (pgt + 8 * i)) ∈ pgt :: (L1s ++ L0s) :=
        List.mem_cons_of_mem _ (List.mem_append_left _ ht1)
      have hp1 : pgt ≠ PTE2PA (k.mem (pgt + 8 * i)) := by
        intro hc
        exact (List.nodup_cons.mp h.nodup).1 (hc ▸ List.mem_append_left _ ht1)
      have hroot : ∀ j < 512, k1.mem (pgt + 8 * j) = k.mem (pgt + 8 * j) := by
        intro j hj
        apply hfr
        intro j2 hj2 heq
        exact hp1 (page_word_inj (h.aligned pgt hpm) (h.aligned _ ht1m) hj hj2 heq).1
      have hfp : freepgt (f + 1 + 1) (PTE2PA (k.mem (pgt + 8 * i))) k =
          some (kfreepage k1 (PTE2PA (k.mem (pgt + 8 * i)))) := by
        rw [freepgt_succ, hloop]
      rw [if_pos hv, hfp]
      simp only
      have hm : ∀ a, a ≠ pgt + 8 * i →
          ((kfreepage k1 (PTE2PA (k.mem (pgt + 8 * i)))).store (pgt + 8 * i) 0).mem a =
            k1.mem a := by
        intro a hne
        rw [store_mem, if_neg hne]; rfl
      have hri := hroot i hi
      have h2 := h1.tree_free_l1
        ((kfreepage k1 (PTE2PA (k.mem (pgt + 8 * i)))).store (pgt + 8 * i) 0)
        hi (by rw [hri]; exact hv) (by rw [hri]; exact hemp)
        (by rw [store_mem, if_pos rfl]) hm
      rw [hri] at h2
      have hperm2 : K.Perm (pgt :: (L1s.erase (PTE2PA (k.mem (pgt + 8 * i))) ++ L0s1) ++
          ((kfreepage k1 (PTE2PA (k.mem (pgt + 8 * i)))).store (pgt + 8 * i) 0).freelist) :=
        FreeInv.tables_perm1 hperm1 (List.perm_cons_erase ht1)
      obtain ⟨k3, L1s3, L0s3, hres, h3, hperm3, hemp3⟩ := ih (i + 1) _ _ _ (by omega) h2 hperm2 (by
        intro j hj
        by_cases hji : j = i
        · subst hji
          rw [store_mem, if_pos rfl]
          exact not_isInner_zero
        · rw [hm _ (by omega), hroot j (by omega)]
          exact hpre j (by omega))
      exact ⟨k3, L1s3, L0s3, hres, h3, hperm3, hemp3⟩
    · rw [if_neg hv]
      exact ih (i + 1) k L1s L0s (by omega) h hperm (by
        intro j hj
        by_cases hji : j = i
        · subst hji
          exact hv
        · exact hpre j (by omega))

/-- C23. For every three-level page table whose entries with V set and R, W, X
clear form a tree (root `pgt`, level-1 tables `L1s`, level-0 tables `L0s`):
`freepgt` returns for every bound of at least three on the depth of its
recursion; the free list afterwards holds the root and the tables of the
tree, each once, together with the frames that were free; so a frame that is
not a page of the tree, such as a frame referenced by an entry with R, W or X
set, is free afterwards only if it was free before. -/
theorem freepgt_frees_exactly_the_tables {k : Kernel} {pgt : Nat} {L1s L0s : List Nat}
    {fuel : Nat} (h : TreeInv k pgt L1s L0s) (hfuel : 3 ≤ fuel) :
    ∃ k3, freepgt fuel pgt k = some k3 ∧
      k3.freelist.Perm (pgt :: (L1s ++ L0s) ++ k.freelist) ∧
      (∀ f, f ∉ pgt :: (L1s ++ L0s) → (f ∈ k3.freelist ↔ f ∈ k.freelist)) ∧
      ∀ a, k.mem a &&& PTE_V ≠ 0 → k.mem a &&& PTE_RWX ≠ 0 →
        PTE2PA (k.mem a) ∉ pgt :: (L1s ++ L0s) → PTE2PA (k.mem a) ∉ k.freelist →
        PTE2PA (k.mem a) ∉ k3.freelist := by
  obtain ⟨f, rfl⟩ : ∃ f, fuel = f + 1 + 1 + 1 := ⟨fuel - 3, by omega⟩
  obtain ⟨k2, L1s2, L0s2, hloop, h2, hperm2, hemp⟩ :=
    freepgt_tree_root_loop (K := pgt :: (L1s ++ L0s) ++ k.freelist) f 512 0 k L1s L0s rfl h
      (List.Perm.refl _) (fun j hj => absurd hj (Nat.not_lt_zero j))
  have hL1 : L1s2 = [] := by
    rw [List.eq_nil_iff_forall_not_mem]
    intro t ht
    obtain ⟨i, hi, hv, -⟩ := h2.root_complete t ht
    exact hemp i hi hv
  subst hL1
  have hL0 : L0s2 = [] := by
    rw [List.eq_nil_iff_forall_not_mem]
    intro t ht
    obtain ⟨t1, ht1, -⟩ := h2.l1_complete t ht
    simp at ht1
  subst hL0
  have hperm : (kfreepage k2 pgt).freelist.Perm (pgt :: (L1s ++ L0s) ++ k.freelist) := by
    simp only [List.append_nil, List.cons_append, List.nil_append] at hperm2
    exact hperm2.symm
  have hmem : ∀ f2, f2 ∉ pgt :: (L1s ++ L0s) →
      (f2 ∈ (kfreepage k2 pgt).freelist ↔ f2 ∈ k.freelist) := by
    intro f2 hf2
    rw [hperm.mem_iff, List.mem_append]
    exact ⟨fun hx => hx.resolve_left hf2, Or.inr⟩
  refine ⟨kfreepage k2 pgt, by rw [freepgt_succ, hloop], hperm, hmem, ?_⟩
  intro a _ _ hnt hnf hin
  exact hnf ((hmem _ hnt).mp hin)

set_option maxRecDepth 100000 in
theorem forkNew_tree : TreeInv forkK forkNew.pgt [0x80408000] [0x80409000] :=
  TreeInv.of_pgtInv forkNew_inv (by decide) (by decide)

theorem freepgt_frees_exactly_the_tables_witness :
    ∃ k3, freepgt 3 forkNew.pgt forkK = some k3 ∧
      k3.freelist.Perm (forkNew.pgt :: ([0x80408000] ++ [0x80409000]) ++ forkK.freelist) ∧
      (∀ f, f ∉ forkNew.pgt :: ([0x80408000] ++ [0x80409000]) →
        (f ∈ k3.freelist ↔ f ∈ forkK.freelist)) ∧
      ∀ a, forkK.mem a &&& PTE_V ≠ 0 → forkK.mem a &&& PTE_RWX ≠ 0 →
        PTE2PA (forkK.mem a) ∉ forkNew.pgt :: ([0x80408000] ++ [0x80409000]) →
        PTE2PA (forkK.mem a) ∉ forkK.freelist → PTE2PA (forkK.mem a) ∉ k3.freelist :=
  freepgt_frees_exactly_the_tables forkNew_tree (by decide)

end Os3
